import Mathlib

/-! # Olive track list (`src/timeline/tracklist.cpp`)

A shallow embedding of `TrackList`, the ordered collection of the tracks of one
type that a `Sequence` owns.

Objects live in an explicit memory.  A pointer is a natural number, `0` is
`nullptr`, and the object behind the pointer `p > 0` is entry `p - 1` of the
matching object table.  `new` appends to the table, so a fresh pointer is the
new length of the table; nothing in `tracklist.cpp` ever deletes an object.

Every method takes the memory and its `this` pointer and returns `Option`:
`none` stands for the executions C++ gives no meaning to (a dangling or null
`this`, a null `Track*` dereferenced, a violated precondition of a `QVector`
member).  The methods have no error channel of their own: they return `void`,
an `int` or a pointer.

A loop is a recursion on a fuel argument, and its caller passes the number of
iterations the loop can need.  Running out of fuel gives `none` as well; the
theorems below show that the methods return `some` result, so that never happens.

C++ `int` is embedded as `Int`.  The length of a `QVector` is a `Nat` and is
not bounded in the model (allocation never fails).

`TrackList.copyWith` is `TrackList::copy` once more, with `Track::copy` as a
parameter that may throw; `TrackList.copyWith_returning` shows that it is
`TrackList.copy` when the parameter never throws.
-/

/-! ## Data model -/

/-- Modelled from the spec: the enumeration `olive::TrackType` is declared outside
`tracklist.cpp`; the spec names the kinds video and audio. -/
inductive TrackType where
  | video
  | audio
  deriving DecidableEq, Repr

/-- Modelled from the spec: the class `Track` (`timeline/track.h`) is not among
the sources.  The spec shows a track as an owner, a kind, and opaque ordered
content; `clips_` stands for that content. -/
structure Track where
  parent : Nat
  type_ : TrackType
  clips_ : List Nat
  deriving DecidableEq, Repr

/-- The members of a `TrackList` object: the `QObject` parent (a `Sequence*`),
`type_` and `tracks_` (a `QVector<Track*>`). -/
structure TrackList where
  parent : Nat
  type_ : TrackType
  tracks_ : List Nat
  deriving DecidableEq, Repr

/-- The memory: the table of `Track` objects, the table of `TrackList` objects and
the log of `TrackCountChanged` emissions (the sender of each, oldest first). -/
structure Memory where
  trackObjs : List Track
  listObjs : List TrackList
  signals : List Nat
  deriving DecidableEq, Repr

/-- The null pointer. -/
def nullptr : Nat := 0

/-- Dereference a `Track*`. -/
def Memory.track? (m : Memory) (p : Nat) : Option Track :=
  if p = nullptr then none else m.trackObjs[p - 1]?

/-- Dereference a `TrackList*`. -/
def Memory.list? (m : Memory) (p : Nat) : Option TrackList :=
  if p = nullptr then none else m.listObjs[p - 1]?

/-- Store the members of the `TrackList` object behind `p`. -/
def Memory.setList (m : Memory) (p : Nat) (l : TrackList) : Memory :=
  { m with listObjs := m.listObjs.set (p - 1) l }

/-- Store `tracks_` of the `TrackList` object behind `p`. -/
def Memory.setTracks (m : Memory) (p : Nat) (l : TrackList) (ts : List Nat) : Memory :=
  m.setList p { l with tracks_ := ts }

/-- The statement `emit TrackCountChanged()` executed by the object `sender`. -/
def Memory.emitTrackCountChanged (m : Memory) (sender : Nat) : Memory :=
  { m with signals := m.signals ++ [sender] }

/-- The number of `TrackCountChanged` emissions of `sender` so far. -/
def Memory.emitted (m : Memory) (sender : Nat) : Nat :=
  m.signals.count sender

/-! ## `QVector` members used by `TrackList` (Qt 5) -/

/-- The member `QVector::size`. -/
def QVector.size {α : Type} (v : List α) : Int := v.length

/-- The member `QVector::at`: the index must be a valid position. -/
def QVector.at {α : Type} (v : List α) (i : Int) : Option α :=
  if 0 ≤ i ∧ i < QVector.size v then v[i.toNat]? else none

/-- The member `QVector::append`. -/
def QVector.append {α : Type} (v : List α) (x : α) : List α := v ++ [x]

/-- The member `QVector::removeAt`: the index must be a valid position. -/
def QVector.removeAt {α : Type} (v : List α) (i : Int) : Option (List α) :=
  if 0 ≤ i ∧ i < QVector.size v then some (v.eraseIdx i.toNat) else none

/-- The member `QVector::first`: the vector must not be empty. -/
def QVector.first {α : Type} (v : List α) : Option α := v.head?

/-- The member `QVector::last`: the vector must not be empty. -/
def QVector.last {α : Type} (v : List α) : Option α := v.getLast?

/-- The member `QVector::resize` on a vector of pointers: a shorter size
truncates, a longer one pads with default-constructed elements (`dflt`, which is
`nullptr` for a pointer).  A negative size has no meaning. -/
def QVector.resize {α : Type} (dflt : α) (v : List α) (n : Int) : Option (List α) :=
  if 0 ≤ n then some (v.take n.toNat ++ List.replicate (n.toNat - v.length) dflt) else none

/-- The member `QVector::operator[]` used as an assignment target: the index must
be a valid position. -/
def QVector.assign {α : Type} (v : List α) (i : Int) (x : α) : Option (List α) :=
  if 0 ≤ i ∧ i < QVector.size v then some (v.set i.toNat x) else none

/-! ## `Track` members used by `TrackList` -/

/-- Modelled from the spec: `new Track(parent, type)`, "a constructor taking
(owner, kind)" that gives an empty track.  Returns the memory with the new object
and the pointer to it. -/
def Track.create (m : Memory) (parent : Nat) (type : TrackType) : Memory × Nat :=
  ({ m with trackObjs := m.trackObjs ++ [{ parent := parent, type_ := type, clips_ := [] }] },
   m.trackObjs.length + 1)

/-- Modelled from the spec: `Track::copy(parent)`, "a clone operation taking a
new owner and returning an independent copy": a new object with the content and
kind of `this`, owned by `parent`. -/
def Track.copy (m : Memory) (this : Nat) (parent : Nat) : Option (Memory × Nat) :=
  match m.track? this with
  | none => none
  | some t =>
    some ({ m with trackObjs := m.trackObjs ++ [{ t with parent := parent }] },
          m.trackObjs.length + 1)

/-! ## `TrackList` -/

/-- The method `TrackList::AddTrack`. -/
def TrackList.AddTrack (m : Memory) (this : Nat) : Option Memory :=
  match m.list? this with
  | none => none
  | some l =>
    let (m1, track) := Track.create m this l.type_
    let m2 := m1.setTracks this l (QVector.append l.tracks_ track)
    some (m2.emitTrackCountChanged this)

/-- The constructor `TrackList::TrackList(parent, type)`, run by `new`: allocate the
object with an empty `tracks_`, then run the body, which calls `AddTrack`. -/
def TrackList.create (m : Memory) (parent : Nat) (type : TrackType) : Option (Memory × Nat) :=
  let this := m.listObjs.length + 1
  let m1 := { m with listObjs := m.listObjs ++ [{ parent := parent, type_ := type, tracks_ := [] }] }
  match TrackList.AddTrack m1 this with
  | none => none
  | some m2 => some (m2, this)

/-- The method `TrackList::TrackCount`. -/
def TrackList.TrackCount (m : Memory) (this : Nat) : Option Int :=
  match m.list? this with
  | none => none
  | some l => some (QVector.size l.tracks_)

/-- The method `TrackList::type`. -/
def TrackList.type (m : Memory) (this : Nat) : Option TrackType :=
  match m.list? this with
  | none => none
  | some l => some l.type_

/-- The method `TrackList::RemoveTrack`. -/
def TrackList.RemoveTrack (m : Memory) (this : Nat) (i : Int) : Option Memory :=
  match m.list? this with
  | none => none
  | some l =>
    if QVector.size l.tracks_ = 1 then some m
    else
      match QVector.removeAt l.tracks_ i with
      | none => none
      | some ts => some ((m.setTracks this l ts).emitTrackCountChanged this)

/-- The number of tracks of the `TrackList` behind `p` (`0` when there is no such
object).  It is only used to bound the loops below. -/
def Memory.trackCount (m : Memory) (p : Nat) : Nat :=
  match m.list? p with
  | none => 0
  | some l => l.tracks_.length

/-- The loop `while (i >= tracks_.size()) AddTrack();` of `TrackList::TrackAt`, run
for at most `fuel` iterations: `none` when the fuel runs out before the condition
turns false. -/
def TrackList.TrackAt.loop (this : Nat) (i : Int) : Nat → Memory → Option Memory
  | 0, m =>
    match m.list? this with
    | none => none
    | some l => if i ≥ QVector.size l.tracks_ then none else some m
  | fuel + 1, m =>
    match m.list? this with
    | none => none
    | some l =>
      if i ≥ QVector.size l.tracks_ then
        match TrackList.AddTrack m this with
        | none => none
        | some m2 => TrackList.TrackAt.loop this i fuel m2
      else some m

/-- The method `TrackList::TrackAt`.  The loop gets the distance from the current
count to `i + 1` as fuel. -/
def TrackList.TrackAt (m : Memory) (this : Nat) (i : Int) : Option (Memory × Nat) :=
  match TrackList.TrackAt.loop this i (i + 1 - (m.trackCount this : Int)).toNat m with
  | none => none
  | some m2 =>
    match m2.list? this with
    | none => none
    | some l =>
      match QVector.at l.tracks_ i with
      | none => none
      | some p => some (m2, p)

/-- The method `TrackList::First`. -/
def TrackList.First (m : Memory) (this : Nat) : Option Nat :=
  match m.list? this with
  | none => none
  | some l => QVector.first l.tracks_

/-- The method `TrackList::Last`. -/
def TrackList.Last (m : Memory) (this : Nat) : Option Nat :=
  match m.list? this with
  | none => none
  | some l => QVector.last l.tracks_

/-- The loop of `TrackList::IndexOfTrack` from the index `i` on, run for at most
`fuel` iterations: `none` when the fuel runs out before the loop ends. -/
def TrackList.IndexOfTrack.loop (m : Memory) (this : Nat) (track : Nat) : Nat → Int → Option Int
  | 0, i =>
    match m.list? this with
    | none => none
    | some l => if i < QVector.size l.tracks_ then none else some (-1)
  | fuel + 1, i =>
    match m.list? this with
    | none => none
    | some l =>
      if i < QVector.size l.tracks_ then
        match QVector.at l.tracks_ i with
        | none => none
        | some p =>
          if p = track then some i
          else TrackList.IndexOfTrack.loop m this track fuel (i + 1)
      else some (-1)

/-- The method `TrackList::IndexOfTrack`.  The loop gets the track count as fuel. -/
def TrackList.IndexOfTrack (m : Memory) (this : Nat) (track : Nat) : Option Int :=
  TrackList.IndexOfTrack.loop m this track (m.trackCount this) 0

/-- The method `TrackList::tracks`, which returns a copy of `tracks_`. -/
def TrackList.tracks (m : Memory) (this : Nat) : Option (List Nat) :=
  match m.list? this with
  | none => none
  | some l => some l.tracks_

/-- The method `TrackList::GetParent`. -/
def TrackList.GetParent (m : Memory) (this : Nat) : Option Nat :=
  match m.list? this with
  | none => none
  | some l => some l.parent

/-- The method `TrackList::ResizeTrackArray`. -/
def TrackList.ResizeTrackArray (m : Memory) (this : Nat) (i : Int) : Option Memory :=
  match m.list? this with
  | none => none
  | some l =>
    match QVector.resize nullptr l.tracks_ i with
    | none => none
    | some ts => some (m.setTracks this l ts)

/-- The loop of `TrackList::copy` from the index `i` on, with `t` the new list, run
for at most `fuel` iterations: `none` when the fuel runs out before the loop ends. -/
def TrackList.copy.loop (this : Nat) (t : Nat) : Nat → Int → Memory → Option Memory
  | 0, i, m =>
    match m.list? this with
    | none => none
    | some l => if i < QVector.size l.tracks_ then none else some m
  | fuel + 1, i, m =>
    match m.list? this with
    | none => none
    | some l =>
      if i < QVector.size l.tracks_ then
        match QVector.at l.tracks_ i with
        | none => none
        | some src =>
          match Track.copy m src t with
          | none => none
          | some (m1, c) =>
            match m1.list? t with
            | none => none
            | some lt =>
              match QVector.assign lt.tracks_ i c with
              | none => none
              | some ts => TrackList.copy.loop this t fuel (i + 1) (m1.setTracks t lt ts)
      else some m

/-- The method `TrackList::copy`.  The loop gets the track count as fuel. -/
def TrackList.copy (m : Memory) (this : Nat) (parent : Nat) : Option (Memory × Nat) :=
  match m.list? this with
  | none => none
  | some l =>
    match TrackList.create m parent l.type_ with
    | none => none
    | some (m1, t) =>
      match TrackList.ResizeTrackArray m1 t (QVector.size l.tracks_) with
      | none => none
      | some m2 =>
        match TrackList.copy.loop this t (m2.trackCount this) 0 m2 with
        | none => none
        | some m3 => some (m3, t)

/-- How a call that may throw ends: it returns a value, or it throws `error`, with
`m` the memory at the throw. -/
inductive Outcome (α : Type) where
  | returned (a : α)
  | threw (m : Memory) (error : Nat)
  deriving DecidableEq, Repr

/-- The loop of `TrackList::copy` with `Track::copy` as the parameter `trackCopy`,
which may throw.  The loop has no handler, so a throw leaves it at once.  Run for at
most `fuel` iterations: `none` when the fuel runs out before the loop ends. -/
def TrackList.copyWith.loop (trackCopy : Memory → Nat → Nat → Option (Outcome (Memory × Nat)))
    (this : Nat) (t : Nat) : Nat → Int → Memory → Option (Outcome Memory)
  | 0, i, m =>
    match m.list? this with
    | none => none
    | some l => if i < QVector.size l.tracks_ then none else some (Outcome.returned m)
  | fuel + 1, i, m =>
    match m.list? this with
    | none => none
    | some l =>
      if i < QVector.size l.tracks_ then
        match QVector.at l.tracks_ i with
        | none => none
        | some src =>
          match trackCopy m src t with
          | none => none
          | some (Outcome.threw m1 e) => some (Outcome.threw m1 e)
          | some (Outcome.returned (m1, c)) =>
            match m1.list? t with
            | none => none
            | some lt =>
              match QVector.assign lt.tracks_ i c with
              | none => none
              | some ts =>
                TrackList.copyWith.loop trackCopy this t fuel (i + 1) (m1.setTracks t lt ts)
      else some (Outcome.returned m)

/-- The method `TrackList::copy` with `Track::copy` as the parameter `trackCopy`,
which may throw.  The method has no handler and deletes nothing, so a throw of
`trackCopy` leaves it at once.  The loop gets the track count as fuel. -/
def TrackList.copyWith (trackCopy : Memory → Nat → Nat → Option (Outcome (Memory × Nat)))
    (m : Memory) (this : Nat) (parent : Nat) : Option (Outcome (Memory × Nat)) :=
  match m.list? this with
  | none => none
  | some l =>
    match TrackList.create m parent l.type_ with
    | none => none
    | some (m1, t) =>
      match TrackList.ResizeTrackArray m1 t (QVector.size l.tracks_) with
      | none => none
      | some m2 =>
        match TrackList.copyWith.loop trackCopy this t (m2.trackCount this) 0 m2 with
        | none => none
        | some (Outcome.threw m3 e) => some (Outcome.threw m3 e)
        | some (Outcome.returned m3) => some (Outcome.returned (m3, t))

/-- A `Track::copy` that never throws: the one modelled from the spec. -/
def Track.copyReturning (m : Memory) (this : Nat) (parent : Nat) :
    Option (Outcome (Memory × Nat)) :=
  match Track.copy m this parent with
  | none => none
  | some r => some (Outcome.returned r)

/-- A `Track::copy` that throws `error` when asked to copy the track `bad`, leaving
the memory as it is, and otherwise does what `Track.copy` does. -/
def Track.copyFailingAt (bad : Nat) (error : Nat) (m : Memory) (this : Nat) (parent : Nat) :
    Option (Outcome (Memory × Nat)) :=
  if this = bad then some (Outcome.threw m error) else Track.copyReturning m this parent

/-- What a `QXmlStreamWriter` has been asked to write: the two calls `TrackList::Save`
makes, and the pieces a track writes. -/
inductive XmlToken where
  | writeStartElement (qualifiedName : String)
  | writeEndElement
  | other (data : Nat)
  deriving DecidableEq, Repr

/-- The call `track->Save(stream)`.  `Track::Save` is not among the sources:
`trackSave` gives what a track object writes. -/
def Track.Save (trackSave : Track → List XmlToken) (m : Memory) (this : Nat)
    (stream : List XmlToken) : Option (List XmlToken) :=
  match m.track? this with
  | none => none
  | some t => some (stream ++ trackSave t)

/-- The loop of `TrackList::Save` from the index `i` on, run for at most `fuel`
iterations: `none` when the fuel runs out before the loop ends. -/
def TrackList.Save.loop (trackSave : Track → List XmlToken) (m : Memory) (this : Nat) :
    Nat → Int → List XmlToken → Option (List XmlToken)
  | 0, i, stream =>
    match m.list? this with
    | none => none
    | some l => if i < QVector.size l.tracks_ then none else some stream
  | fuel + 1, i, stream =>
    match m.list? this with
    | none => none
    | some l =>
      if i < QVector.size l.tracks_ then
        match QVector.at l.tracks_ i with
        | none => none
        | some p =>
          match Track.Save trackSave m p stream with
          | none => none
          | some stream2 => TrackList.Save.loop trackSave m this fuel (i + 1) stream2
      else some stream

/-- The method `TrackList::Save`.  The loop gets the track count as fuel. -/
def TrackList.Save (trackSave : Track → List XmlToken) (m : Memory) (this : Nat)
    (stream : List XmlToken) : Option (List XmlToken) :=
  match m.list? this with
  | none => none
  | some _ =>
    let stream1 := stream ++ [XmlToken.writeStartElement "Tracks"]
    match TrackList.Save.loop trackSave m this (m.trackCount this) 0 stream1 with
    | none => none
    | some stream2 => some (stream2 ++ [XmlToken.writeEndElement])

/-- The empty memory. -/
def Memory.empty : Memory := { trackObjs := [], listObjs := [], signals := [] }


/-- The memory after `k` successive `AddTrack()` calls on the collection `this`
whose members are `l`, written out (see `TrackList.TrackAt_loop_eq`). -/
def Memory.grown (m : Memory) (this : Nat) (l : TrackList) (k : Nat) : Memory :=
  { trackObjs := m.trackObjs ++
      List.replicate k { parent := this, type_ := l.type_, clips_ := [] },
    listObjs := m.listObjs.set (this - 1)
      { l with tracks_ := l.tracks_ ++ List.range' (m.trackObjs.length + 1) k },
    signals := m.signals ++ List.replicate k this }

/-- The memory inside `TrackList::copy` after `i` iterations of its loop, written
out (see `TrackList.copy_loop_eq`): `m` is the memory at the call, `ts` are the
source track objects, `rest` is `tracks_` of the new list after the resize.  The new
list is object `m.listObjs.length + 1`; its default track is followed by the `i`
copies made so far. -/
def Memory.copying (m : Memory) (parent : Nat) (type : TrackType) (ts : List Track)
    (rest : List Nat) (i : Nat) : Memory :=
  { trackObjs := m.trackObjs ++
      { parent := m.listObjs.length + 1, type_ := type, clips_ := [] } ::
        (ts.take i).map (fun x => { x with parent := m.listObjs.length + 1 }),
    listObjs := m.listObjs ++
      [{ parent := parent, type_ := type,
         tracks_ := List.range' (m.trackObjs.length + 2) i ++ rest.drop i }],
    signals := m.signals ++ [m.listObjs.length + 1] }

/-- The states of one `TrackList` object `this` that the calls of the floor-of-one
invariant reach: construction, then `AddTrack()`, `RemoveTrack(i)` with `i` a valid
position unless a single track is held, and `TrackAt(n)` with `0 ≤ n`. -/
inductive Reachable (this : Nat) : Memory → Prop
  | construct (m0 : Memory) (parent : Nat) (type : TrackType) (m : Memory) :
      TrackList.create m0 parent type = some (m, this) → Reachable this m
  | addTrack (m m2 : Memory) :
      Reachable this m → TrackList.AddTrack m this = some m2 → Reachable this m2
  | removeTrack (m m2 : Memory) (i : Int) :
      Reachable this m →
      (TrackList.TrackCount m this = some 1 ∨
        ∃ c, TrackList.TrackCount m this = some c ∧ 0 ≤ i ∧ i < c) →
      TrackList.RemoveTrack m this i = some m2 → Reachable this m2
  | trackAt (m m2 : Memory) (n : Int) (p : Nat) :
      Reachable this m → 0 ≤ n → TrackList.TrackAt m this n = some (m2, p) → Reachable this m2

/-- Every slot of the track list of `l` holds a pointer to a live track object of the
type of the list. -/
def Memory.slotsLive (m : Memory) (l : TrackList) : Prop :=
  ∀ p ∈ l.tracks_, ∃ x, m.track? p = some x ∧ x.type_ = l.type_

/-- The states that calls of `AddTrack()`, `RemoveTrack(i)` with `i` a valid position
and `TrackAt(n)` with `0 ≤ n` on the collection `this` reach from the state `m0`. -/
inductive Calls (this : Nat) (m0 : Memory) : Memory → Prop
  | start : Calls this m0 m0
  | addTrack (m m2 : Memory) :
      Calls this m0 m → TrackList.AddTrack m this = some m2 → Calls this m0 m2
  | removeTrack (m m2 : Memory) (i : Int) :
      Calls this m0 m →
      (∃ c, TrackList.TrackCount m this = some c ∧ 0 ≤ i ∧ i < c) →
      TrackList.RemoveTrack m this i = some m2 → Calls this m0 m2
  | trackAt (m m2 : Memory) (n : Int) (p : Nat) :
      Calls this m0 m → 0 ≤ n → TrackList.TrackAt m this n = some (m2, p) → Calls this m0 m2

/-- The memories that a program reaches from the empty memory through the
constructor and the methods `AddTrack`, `RemoveTrack`, `TrackAt` (with an index
`0 ≤ n`) and `copy`, called on any collection.  `ResizeTrackArray` occurs only inside
`copy`. -/
inductive ReachableMemory : Memory → Prop
  | empty : ReachableMemory Memory.empty
  | create (m m2 : Memory) (parent : Nat) (type : TrackType) (t : Nat) :
      ReachableMemory m → TrackList.create m parent type = some (m2, t) → ReachableMemory m2
  | addTrack (m m2 : Memory) (this : Nat) :
      ReachableMemory m → TrackList.AddTrack m this = some m2 → ReachableMemory m2
  | removeTrack (m m2 : Memory) (this : Nat) (i : Int) :
      ReachableMemory m → TrackList.RemoveTrack m this i = some m2 → ReachableMemory m2
  | trackAt (m m2 : Memory) (this : Nat) (n : Int) (p : Nat) :
      ReachableMemory m → 0 ≤ n → TrackList.TrackAt m this n = some (m2, p) →
      ReachableMemory m2
  | copy (m m2 : Memory) (this parent t : Nat) :
      ReachableMemory m → TrackList.copy m this parent = some (m2, t) → ReachableMemory m2

/-- A call of one of the methods of `TrackList` whose body assigns to no member and
calls no method that does: `Save`, `TrackCount`, `IndexOfTrack`, `First`, `Last`,
`type`, `tracks`, `GetParent`. -/
inductive Observer where
  | Save (stream : List XmlToken)
  | TrackCount
  | IndexOfTrack (track : Nat)
  | First
  | Last
  | type
  | tracks
  | GetParent
  deriving DecidableEq, Repr

/-- What a call of an `Observer` gives back: the stream written to, an `int`, a
pointer, a track type or a vector of pointers. -/
inductive Observed where
  | stream (s : List XmlToken)
  | int (i : Int)
  | pointer (p : Nat)
  | kind (k : TrackType)
  | pointers (ps : List Nat)
  deriving DecidableEq, Repr

/-- A call of an `Observer` on the collection `this` as a step of the program: the
memory after the call and what the call gives back.  These bodies store nothing, so
the memory handed on is the memory received. -/
def TrackList.observe (trackSave : Track → List XmlToken) (m : Memory) (this : Nat) :
    Observer → Option (Memory × Observed)
  | Observer.Save stream =>
    match TrackList.Save trackSave m this stream with
    | none => none
    | some s => some (m, Observed.stream s)
  | Observer.TrackCount =>
    match TrackList.TrackCount m this with
    | none => none
    | some c => some (m, Observed.int c)
  | Observer.IndexOfTrack track =>
    match TrackList.IndexOfTrack m this track with
    | none => none
    | some i => some (m, Observed.int i)
  | Observer.First =>
    match TrackList.First m this with
    | none => none
    | some p => some (m, Observed.pointer p)
  | Observer.Last =>
    match TrackList.Last m this with
    | none => none
    | some p => some (m, Observed.pointer p)
  | Observer.type =>
    match TrackList.type m this with
    | none => none
    | some k => some (m, Observed.kind k)
  | Observer.tracks =>
    match TrackList.tracks m this with
    | none => none
    | some ps => some (m, Observed.pointers ps)
  | Observer.GetParent =>
    match TrackList.GetParent m this with
    | none => none
    | some p => some (m, Observed.pointer p)

/-! # Olive preferences dialog (`src/dialogs/preferencesdialog.cpp`)

A `QString` and a `QByteArray` are lists of characters.  Text is ASCII in the model,
where `QString::toUtf8` and `QString::append(char)` both keep every character as it
is.  As before `none` stands for an execution outside the precondition of a Qt member
or for a loop out of fuel. -/

/-! ## `QString` and `QByteArray` members used by the dialog (Qt 5) -/

/-- The members `QString::at` and `QByteArray::at`: the index must be a valid
position. -/
def QString.at (s : List Char) (i : Int) : Option Char :=
  if 0 ≤ i ∧ i < (s.length : Int) then s[i.toNat]? else none

/-- The member `QByteArray::indexOf` from the position `from` on: the first position
at which `pat` occurs, or `-1`. -/
def QByteArray.indexOfFrom (pat : List Char) : List Char → Nat → Int
  | [], pos => if pat = [] then (pos : Int) else -1
  | c :: rest, pos =>
    if pat.isPrefixOf (c :: rest) then (pos : Int)
    else QByteArray.indexOfFrom pat rest (pos + 1)

/-- The member `QByteArray::indexOf`. -/
def QByteArray.indexOf (ba : List Char) (pat : List Char) : Int :=
  QByteArray.indexOfFrom pat ba 0

/-- The member `QString::contains` with `Qt::CaseInsensitive`: `s` occurs in `text`
when letter case is ignored.  The empty string occurs in every string. -/
def QString.contains (text : List Char) (s : List Char) : Bool :=
  decide (0 ≤ QByteArray.indexOf (text.map Char.toLower) (s.map Char.toLower))

/-! ## `delete_previews` -/

/-- The loop `while (identifier_char_index >= 0 && at(index) >= 48 && at(index) <= 57)
identifier_char_index--;` of `PreferencesDialog::delete_previews`, run for at most
`fuel` iterations.  It gives the index at which it stops. -/
def PreferencesDialog.delete_previews.scan (preview_file_str : List Char) :
    Nat → Int → Option Int
  | 0, identifier_char_index =>
    if identifier_char_index ≥ 0 then
      match QString.at preview_file_str identifier_char_index with
      | none => none
      | some c => if c.toNat ≥ 48 ∧ c.toNat ≤ 57 then none else some identifier_char_index
    else some identifier_char_index
  | fuel + 1, identifier_char_index =>
    if identifier_char_index ≥ 0 then
      match QString.at preview_file_str identifier_char_index with
      | none => none
      | some c =>
        if c.toNat ≥ 48 ∧ c.toNat ≤ 57 then
          PreferencesDialog.delete_previews.scan preview_file_str fuel (identifier_char_index - 1)
        else some identifier_char_index
    else some identifier_char_index

/-- The index from which a file name is classified in `delete_previews`:
`qMax(0, size - 2)`, then the loop.  The loop gets the size of the name as fuel. -/
def PreferencesDialog.delete_previews.identifier_char_index (preview_file_str : List Char) :
    Option Int :=
  PreferencesDialog.delete_previews.scan preview_file_str preview_file_str.length
    (max 0 ((preview_file_str.length : Int) - 2))

/-- The test `preview_file_str.at(identifier_char_index) == delete_char` of
`delete_previews`: whether the file is removed. -/
def PreferencesDialog.delete_previews.removes (delete_char : Char)
    (preview_file_str : List Char) : Option Bool :=
  match PreferencesDialog.delete_previews.identifier_char_index preview_file_str with
  | none => none
  | some i =>
    match QString.at preview_file_str i with
    | none => none
    | some c => some (decide (c = delete_char))

/-! ## Keyboard shortcut files -/

/-- What the dialog reads of a `KeySequenceEditor`: the properties `id` and `default`
of its action, and its key sequence as a string. -/
structure KeySequenceEditor where
  id : List Char
  default : List Char
  keySequence : List Char
  deriving DecidableEq, Repr

/-- The method `KeySequenceEditor::action_name`. -/
def KeySequenceEditor.action_name (e : KeySequenceEditor) : List Char := e.id

/-- The method `KeySequenceEditor::reset_to_default`. -/
def KeySequenceEditor.reset_to_default (e : KeySequenceEditor) : KeySequenceEditor :=
  { e with keySequence := e.default }

/-- The member `setKeySequence`. -/
def KeySequenceEditor.setKeySequence (e : KeySequenceEditor) (ks : List Char) :
    KeySequenceEditor :=
  { e with keySequence := ks }

/-- The method `KeySequenceEditor::export_shortcut`; the null string it returns for
a field at its default is the empty string. -/
def KeySequenceEditor.export_shortcut (e : KeySequenceEditor) : List Char :=
  if e.keySequence ≠ e.default then e.id ++ [Char.ofNat 9] ++ e.keySequence else []

/-- The loop of `PreferencesDialog::save_shortcut_file` over the fields, with the
flag `start`: what it writes to the file. -/
def PreferencesDialog.save_shortcut_file.loop :
    List KeySequenceEditor → Bool → List Char
  | [], _ => []
  | e :: rest, start =>
    if e.export_shortcut ≠ [] then
      (if start then [] else [Char.ofNat 10]) ++ e.export_shortcut ++
        PreferencesDialog.save_shortcut_file.loop rest false
    else PreferencesDialog.save_shortcut_file.loop rest start

/-- The bytes that `PreferencesDialog::save_shortcut_file` writes. -/
def PreferencesDialog.save_shortcut_file (key_shortcut_fields : List KeySequenceEditor) :
    List Char :=
  PreferencesDialog.save_shortcut_file.loop key_shortcut_fields true

/-- The loop `while (index < ba.size() && ba.at(index) != stop) index++;` of
`load_shortcut_file`, collecting the bytes it passes, run for at most `fuel`
iterations.  It gives the index at which it stops and the bytes passed. -/
def PreferencesDialog.load_shortcut_file.scan (ba : List Char) (stop : Char) :
    Nat → Int → List Char → Option (Int × List Char)
  | 0, index, ks =>
    if index < (ba.length : Int) then
      match QString.at ba index with
      | none => none
      | some c => if c ≠ stop then none else some (index, ks)
    else some (index, ks)
  | fuel + 1, index, ks =>
    if index < (ba.length : Int) then
      match QString.at ba index with
      | none => none
      | some c =>
        if c ≠ stop then
          PreferencesDialog.load_shortcut_file.scan ba stop fuel (index + 1) (ks ++ [c])
        else some (index, ks)
    else some (index, ks)

/-- The body of the loop of `PreferencesDialog::load_shortcut_file` for one field:
the field after the import of the bytes `ba`. -/
def PreferencesDialog.load_shortcut_file.field (ba : List Char) (e : KeySequenceEditor) :
    Option KeySequenceEditor :=
  let index := QByteArray.indexOf ba e.action_name
  if index = 0 ∨ (index > 0 ∧ QString.at ba (index - 1) = some (Char.ofNat 10)) then
    match PreferencesDialog.load_shortcut_file.scan ba (Char.ofNat 9) ba.length index [] with
    | none => none
    | some (index2, _) =>
      match PreferencesDialog.load_shortcut_file.scan ba (Char.ofNat 10) ba.length
          (index2 + 1) [] with
      | none => none
      | some (_, ks) => some (e.setKeySequence ks)
  else some e.reset_to_default

/-- The loop of `PreferencesDialog::load_shortcut_file` over the fields, for a file
that was opened and holds the bytes `ba`: the fields after the import. -/
def PreferencesDialog.load_shortcut_file (ba : List Char) :
    List KeySequenceEditor → Option (List KeySequenceEditor)
  | [] => some []
  | e :: rest =>
    match PreferencesDialog.load_shortcut_file.field ba e with
    | none => none
    | some e2 =>
      match PreferencesDialog.load_shortcut_file ba rest with
      | none => none
      | some rest2 => some (e2 :: rest2)

/-! ## The shortcut tree and its search filter -/

mutual
/-- What `refine_shortcut_list` reads and sets of a `QTreeWidgetItem` of
`keyboard_tree`: the text of column 0, the key sequence string of the widget of
column 1 when there is one, the hidden flag, the expanded flag, and the children. -/
inductive QTreeWidgetItem where
  | mk (text : List Char) (shortcut : Option (List Char)) (hidden : Bool) (expanded : Bool)
      (children : QTreeWidgetItems)
/-- The children of a `QTreeWidgetItem`, in order. -/
inductive QTreeWidgetItems where
  | nil
  | cons (item : QTreeWidgetItem) (rest : QTreeWidgetItems)
end

/-- The number of items of a list of children. -/
def QTreeWidgetItems.count : QTreeWidgetItems → Nat
  | QTreeWidgetItems.nil => 0
  | QTreeWidgetItems.cons _ rest => rest.count + 1

/-- The member `QTreeWidgetItem::childCount`. -/
def QTreeWidgetItem.childCount : QTreeWidgetItem → Nat
  | QTreeWidgetItem.mk _ _ _ _ children => children.count

/-- The member `QTreeWidgetItem::text(0)`. -/
def QTreeWidgetItem.text : QTreeWidgetItem → List Char
  | QTreeWidgetItem.mk text _ _ _ _ => text

/-- The member `QTreeWidgetItem::isHidden`. -/
def QTreeWidgetItem.isHidden : QTreeWidgetItem → Bool
  | QTreeWidgetItem.mk _ _ hidden _ _ => hidden

/-- The children of an item. -/
def QTreeWidgetItem.children : QTreeWidgetItem → QTreeWidgetItems
  | QTreeWidgetItem.mk _ _ _ _ children => children

/-- The member `QTreeWidgetItem::setHidden`. -/
def QTreeWidgetItem.setHidden (hide : Bool) : QTreeWidgetItem → QTreeWidgetItem
  | QTreeWidgetItem.mk text shortcut _ expanded children =>
    QTreeWidgetItem.mk text shortcut hide expanded children

/-- The test of `refine_shortcut_list` on an item without children: its text or the
key sequence string of its widget (the empty string when it has no widget) contains
`s`, letter case ignored. -/
def QTreeWidgetItem.leafMatches (s : List Char) : QTreeWidgetItem → Bool
  | QTreeWidgetItem.mk text shortcut _ _ _ =>
    QString.contains text s || QString.contains (shortcut.getD []) s

mutual
/-- The method `PreferencesDialog::refine_shortcut_list(s, parent)` for a `parent`
that is not null: what it returns and the item afterwards. -/
def PreferencesDialog.refine_shortcut_list (s : List Char) :
    QTreeWidgetItem → Bool × QTreeWidgetItem
  | QTreeWidgetItem.mk text shortcut _ _ children =>
    (if QString.contains text s then false
      else (PreferencesDialog.refine_shortcut_list.loop s (!s.isEmpty) children).1,
     QTreeWidgetItem.mk text shortcut
      (if QString.contains text s then false
        else (PreferencesDialog.refine_shortcut_list.loop s (!s.isEmpty) children).1)
      (!s.isEmpty)
      (PreferencesDialog.refine_shortcut_list.loop s (!s.isEmpty) children).2)
/-- The loop of `refine_shortcut_list` over the children of `parent`, from the value
`all_children_are_hidden` on: its value after the loop and the children afterwards. -/
def PreferencesDialog.refine_shortcut_list.loop (s : List Char) :
    Bool → QTreeWidgetItems → Bool × QTreeWidgetItems
  | all_children_are_hidden, QTreeWidgetItems.nil =>
    (all_children_are_hidden, QTreeWidgetItems.nil)
  | all_children_are_hidden, QTreeWidgetItems.cons item rest =>
    if item.childCount > 0 then
      ((PreferencesDialog.refine_shortcut_list.loop s
          (PreferencesDialog.refine_shortcut_list s item).1 rest).1,
       QTreeWidgetItems.cons (PreferencesDialog.refine_shortcut_list s item).2
        (PreferencesDialog.refine_shortcut_list.loop s
          (PreferencesDialog.refine_shortcut_list s item).1 rest).2)
    else if s.isEmpty then
      ((PreferencesDialog.refine_shortcut_list.loop s false rest).1,
       QTreeWidgetItems.cons (item.setHidden false)
        (PreferencesDialog.refine_shortcut_list.loop s false rest).2)
    else if item.leafMatches s then
      ((PreferencesDialog.refine_shortcut_list.loop s false rest).1,
       QTreeWidgetItems.cons (item.setHidden false)
        (PreferencesDialog.refine_shortcut_list.loop s false rest).2)
    else
      ((PreferencesDialog.refine_shortcut_list.loop s all_children_are_hidden rest).1,
       QTreeWidgetItems.cons (item.setHidden true)
        (PreferencesDialog.refine_shortcut_list.loop s all_children_are_hidden rest).2)
end

mutual
/-- Whether `s` is found at `item` or below it: in the text of an item with
children, or by `leafMatches` at an item without children. -/
def QTreeWidgetItem.subtreeMatches (s : List Char) : QTreeWidgetItem → Bool
  | QTreeWidgetItem.mk text shortcut hidden expanded children =>
    if children.count > 0 then
      QString.contains text s || QTreeWidgetItems.anySubtreeMatches s children
    else (QTreeWidgetItem.mk text shortcut hidden expanded children).leafMatches s
/-- Whether `s` is found at one of the items or below it. -/
def QTreeWidgetItems.anySubtreeMatches (s : List Char) : QTreeWidgetItems → Bool
  | QTreeWidgetItems.nil => false
  | QTreeWidgetItems.cons item rest =>
    QTreeWidgetItem.subtreeMatches s item || QTreeWidgetItems.anySubtreeMatches s rest
end

mutual
/-- Whether neither the item nor any item below it is hidden. -/
def QTreeWidgetItem.noneHidden : QTreeWidgetItem → Bool
  | QTreeWidgetItem.mk _ _ hidden _ children => !hidden && QTreeWidgetItems.noneHidden children
/-- Whether none of the items and no item below them is hidden. -/
def QTreeWidgetItems.noneHidden : QTreeWidgetItems → Bool
  | QTreeWidgetItems.nil => true
  | QTreeWidgetItems.cons item rest =>
    QTreeWidgetItem.noneHidden item && QTreeWidgetItems.noneHidden rest
end

/-- Whether every item of the list is without children. -/
def QTreeWidgetItems.allLeaves : QTreeWidgetItems → Bool
  | QTreeWidgetItems.nil => true
  | QTreeWidgetItems.cons item rest => decide (item.childCount = 0) && rest.allLeaves

/-- The hidden flags of the items of the list, in order. -/
def QTreeWidgetItems.hiddenFlags : QTreeWidgetItems → List Bool
  | QTreeWidgetItems.nil => []
  | QTreeWidgetItems.cons item rest => item.isHidden :: rest.hiddenFlags

/-- The results of `leafMatches` on the items of the list, in order. -/
def QTreeWidgetItems.matchFlags (s : List Char) : QTreeWidgetItems → List Bool
  | QTreeWidgetItems.nil => []
  | QTreeWidgetItems.cons item rest => item.leafMatches s :: rest.matchFlags s

/-! ## Memory lemmas -/

theorem Memory.list?_eq_some {m : Memory} {p : Nat} {l : TrackList} (h : m.list? p = some l) :
    p ≠ nullptr ∧ ∃ hlt : p - 1 < m.listObjs.length, m.listObjs[p - 1] = l := by
  unfold Memory.list? at h
  by_cases hp : p = nullptr
  · simp [hp] at h
  · simp only [hp, if_false] at h
    obtain ⟨hlt, he⟩ := List.getElem?_eq_some.mp h
    exact ⟨hp, hlt, he⟩

theorem Memory.track?_eq_some {m : Memory} {p : Nat} {t : Track} (h : m.track? p = some t) :
    p ≠ nullptr ∧ ∃ hlt : p - 1 < m.trackObjs.length, m.trackObjs[p - 1] = t := by
  unfold Memory.track? at h
  by_cases hp : p = nullptr
  · simp [hp] at h
  · simp only [hp, if_false] at h
    obtain ⟨hlt, he⟩ := List.getElem?_eq_some.mp h
    exact ⟨hp, hlt, he⟩

theorem Memory.list?_setList_self {m : Memory} {p : Nat} {l : TrackList} (l2 : TrackList)
    (h : m.list? p = some l) : (m.setList p l2).list? p = some l2 := by
  obtain ⟨hp, hlt, _⟩ := Memory.list?_eq_some h
  simp [Memory.list?, Memory.setList, hp, hlt]

theorem Memory.list?_setList_other {m : Memory} {p q : Nat} (l2 : TrackList)
    (hp : p ≠ nullptr) (hq : q ≠ p) : (m.setList p l2).list? q = m.list? q := by
  unfold Memory.list? Memory.setList
  by_cases hq0 : q = nullptr
  · simp [hq0]
  · simp only [hq0, if_false]
    rw [List.getElem?_set_ne]
    unfold nullptr at hp hq0
    omega

theorem Memory.track?_append_old {m : Memory} {p : Nat} {t : Track} (ts : List Track)
    (sig : List Nat) (ls : List TrackList)
    (h : m.track? p = some t) :
    ({ trackObjs := m.trackObjs ++ ts, listObjs := ls, signals := sig } : Memory).track? p = some t := by
  obtain ⟨hp, hlt, he⟩ := Memory.track?_eq_some h
  simp only [Memory.track?, hp, if_false]
  rw [List.getElem?_append_left hlt, List.getElem?_eq_getElem hlt, he]

/-- What `AddTrack` does to the memory, in one piece. -/
theorem TrackList.AddTrack_eq {m : Memory} {this : Nat} {l : TrackList}
    (h : m.list? this = some l) :
    TrackList.AddTrack m this = some
      { trackObjs := m.trackObjs ++ [{ parent := this, type_ := l.type_, clips_ := [] }],
        listObjs := m.listObjs.set (this - 1)
          { l with tracks_ := l.tracks_ ++ [m.trackObjs.length + 1] },
        signals := m.signals ++ [this] } := by
  simp [TrackList.AddTrack, h, Track.create, Memory.setTracks, Memory.setList,
    Memory.emitTrackCountChanged, QVector.append]

theorem Memory.track?_fresh (m : Memory) : m.track? (m.trackObjs.length + 1) = none := by
  simp [Memory.track?, nullptr]

theorem Memory.track?_append_new (m : Memory) (t : Track) (ts : List Track) (sig : List Nat)
    (ls : List TrackList) :
    ({ trackObjs := m.trackObjs ++ t :: ts, listObjs := ls, signals := sig } : Memory).track?
      (m.trackObjs.length + 1) = some t := by
  simp only [Memory.track?, nullptr, Nat.add_sub_cancel]
  rw [if_neg (by omega), List.getElem?_append_right (le_refl _)]
  simp

theorem QVector.at_append_left {α : Type} (v w : List α) (j : Int) (h0 : 0 ≤ j)
    (h1 : j < QVector.size v) : QVector.at (v ++ w) j = QVector.at v j := by
  simp only [QVector.size] at h1
  have hj : j.toNat < v.length := by omega
  have h2 : j < ((v ++ w).length : Int) := by
    rw [List.length_append]; push_cast; omega
  simp only [QVector.at, QVector.size]
  rw [if_pos ⟨h0, h2⟩, if_pos ⟨h0, h1⟩, List.getElem?_append_left hj]

/-! ## Construction and `AddTrack` -/

/-- C3: on every live collection `AddTrack()` succeeds; the track list becomes the old
list followed by one pointer `p` to a track object that did not exist before and
is now an empty track of the collection type owned by the collection; the count
grows by exactly one, every earlier position reads as before, and every track
object that existed keeps its value. -/
theorem TrackList.AddTrack_appends (m : Memory) (this : Nat) (l : TrackList)
    (h : m.list? this = some l) :
    ∃ m2 p, TrackList.AddTrack m this = some m2 ∧
      m2.list? this = some { l with tracks_ := l.tracks_ ++ [p] } ∧
      m.track? p = none ∧
      m2.track? p = some { parent := this, type_ := l.type_, clips_ := [] } ∧
      TrackList.TrackCount m this = some (QVector.size l.tracks_) ∧
      TrackList.TrackCount m2 this = some (QVector.size l.tracks_ + 1) ∧
      (∀ j : Int, 0 ≤ j → j < QVector.size l.tracks_ →
        QVector.at (l.tracks_ ++ [p]) j = QVector.at l.tracks_ j) ∧
      (∀ q t, m.track? q = some t → m2.track? q = some t) := by
  obtain ⟨hp, hlt, _⟩ := Memory.list?_eq_some h
  refine ⟨_, m.trackObjs.length + 1, TrackList.AddTrack_eq h, ?_, Memory.track?_fresh m,
    Memory.track?_append_new m _ [] _ _, ?_, ?_, ?_, ?_⟩
  · simp [Memory.list?, hp, hlt]
  · simp [TrackList.TrackCount, h]
  · simp [TrackList.TrackCount, Memory.list?, hp, hlt, QVector.size]
  · intro j h0 h1
    exact QVector.at_append_left _ _ j h0 h1
  · intro q t hq
    exact Memory.track?_append_old _ _ _ hq

/-- Witness of `TrackList.AddTrack_appends`: a collection of one video track. -/
theorem TrackList.AddTrack_appends_witness :
    (⟨[⟨1, .video, []⟩], [⟨7, .video, [1]⟩], [1]⟩ : Memory).list? 1 = some ⟨7, .video, [1]⟩ ∧
    ∃ m2 p, TrackList.AddTrack ⟨[⟨1, .video, []⟩], [⟨7, .video, [1]⟩], [1]⟩ 1 = some m2 ∧
      m2.list? 1 = some ⟨7, .video, [1] ++ [p]⟩ ∧
      m2.track? p = some ⟨1, .video, []⟩ :=
  ⟨by decide,
   match TrackList.AddTrack_appends ⟨[⟨1, .video, []⟩], [⟨7, .video, [1]⟩], [1]⟩ 1
      ⟨7, .video, [1]⟩ (by decide) with
   | ⟨m2, p, h1, h2, _, h4, _⟩ => ⟨m2, p, h1, h2, h4⟩⟩

/-- What the constructor does to the memory, in one piece. -/
theorem TrackList.create_eq (m : Memory) (parent : Nat) (type : TrackType) :
    TrackList.create m parent type = some
      ({ trackObjs := m.trackObjs ++ [{ parent := m.listObjs.length + 1, type_ := type, clips_ := [] }],
         listObjs := m.listObjs ++
           [{ parent := parent, type_ := type, tracks_ := [m.trackObjs.length + 1] }],
         signals := m.signals ++ [m.listObjs.length + 1] }, m.listObjs.length + 1) := by
  have h : ({ m with listObjs := m.listObjs ++
      [{ parent := parent, type_ := type, tracks_ := [] }] } : Memory).list?
      (m.listObjs.length + 1) = some { parent := parent, type_ := type, tracks_ := [] } := by
    simp [Memory.list?, nullptr]
  simp [TrackList.create, TrackList.AddTrack_eq h]

/-- C2: construction always succeeds and allocates a new `TrackList` object whose
count is 1, whose type and parent are the constructor arguments, and whose only
track (position 0, which `TrackAt(0)`, `First()` and `Last()` return) is a track
object that did not exist before: an empty track of the collection type owned by
the new collection. -/
theorem TrackList.create_single_track (m : Memory) (parent : Nat) (type : TrackType) :
    ∃ m2 this p, TrackList.create m parent type = some (m2, this) ∧
      m.list? this = none ∧
      TrackList.TrackCount m2 this = some 1 ∧
      TrackList.type m2 this = some type ∧
      TrackList.GetParent m2 this = some parent ∧
      TrackList.tracks m2 this = some [p] ∧
      TrackList.TrackAt m2 this 0 = some (m2, p) ∧
      m.track? p = none ∧
      m2.track? p = some { parent := this, type_ := type, clips_ := [] } := by
  refine ⟨_, _, m.trackObjs.length + 1, TrackList.create_eq m parent type, ?_, ?_, ?_, ?_, ?_,
    ?_, Memory.track?_fresh m, Memory.track?_append_new m _ [] _ _⟩
  · simp [Memory.list?, nullptr]
  · simp [TrackList.TrackCount, Memory.list?, nullptr, QVector.size]
  · simp [TrackList.type, Memory.list?, nullptr]
  · simp [TrackList.GetParent, Memory.list?, nullptr]
  · simp [TrackList.tracks, Memory.list?, nullptr]
  · simp [TrackList.TrackAt, TrackList.TrackAt.loop, Memory.trackCount, Memory.list?, nullptr,
      QVector.size, QVector.at]

/-! ## `RemoveTrack` -/

/-- The guard of `RemoveTrack`: with one track the call returns at once. -/
theorem TrackList.RemoveTrack_of_single {m : Memory} {this : Nat} {l : TrackList}
    (h : m.list? this = some l) (h1 : l.tracks_.length = 1) (i : Int) :
    TrackList.RemoveTrack m this i = some m := by
  simp [TrackList.RemoveTrack, h, QVector.size, h1]

/-- Past the guard with a valid position: the element is erased and the signal
emitted. -/
theorem TrackList.RemoveTrack_of_valid {m : Memory} {this : Nat} {l : TrackList} {i : Int}
    (h : m.list? this = some l) (hne : l.tracks_.length ≠ 1)
    (h0 : 0 ≤ i) (h1 : i < (l.tracks_.length : Int)) :
    TrackList.RemoveTrack m this i =
      some ((m.setTracks this l (l.tracks_.eraseIdx i.toNat)).emitTrackCountChanged this) := by
  have hne2 : ¬ ((l.tracks_.length : Int) = 1) := by omega
  simp only [TrackList.RemoveTrack, h, QVector.size, QVector.removeAt]
  rw [if_neg hne2, if_pos ⟨h0, h1⟩]

/-- Past the guard with an index that is not a valid position: `removeAt` is
called outside its precondition. -/
theorem TrackList.RemoveTrack_of_invalid {m : Memory} {this : Nat} {l : TrackList} {i : Int}
    (h : m.list? this = some l) (hne : l.tracks_.length ≠ 1)
    (hi : i < 0 ∨ (l.tracks_.length : Int) ≤ i) :
    TrackList.RemoveTrack m this i = none := by
  have hne2 : ¬ ((l.tracks_.length : Int) = 1) := by omega
  simp only [TrackList.RemoveTrack, h, QVector.size, QVector.removeAt]
  rw [if_neg hne2, if_neg (by omega)]

/-- C4: with more than one track and a valid position `i`, `RemoveTrack(i)` succeeds
and the track list becomes the old list with the element at position `i` erased:
the count drops by exactly one, every position below `i` reads as before, and the
track formerly at a position `j > i` is now read at `j - 1`.  No track object
changes. -/
theorem TrackList.RemoveTrack_erases (m : Memory) (this : Nat) (l : TrackList) (i : Int)
    (h : m.list? this = some l) (hK : 1 < QVector.size l.tracks_)
    (h0 : 0 ≤ i) (h1 : i < QVector.size l.tracks_) :
    ∃ m2, TrackList.RemoveTrack m this i = some m2 ∧
      m2.list? this = some { l with tracks_ := l.tracks_.eraseIdx i.toNat } ∧
      TrackList.TrackCount m2 this = some (QVector.size l.tracks_ - 1) ∧
      (∀ j : Int, 0 ≤ j → j < i →
        QVector.at (l.tracks_.eraseIdx i.toNat) j = QVector.at l.tracks_ j) ∧
      (∀ j : Int, i < j → j < QVector.size l.tracks_ →
        QVector.at (l.tracks_.eraseIdx i.toNat) (j - 1) = QVector.at l.tracks_ j) ∧
      m2.trackObjs = m.trackObjs := by
  simp only [QVector.size] at hK h1
  have hi : i.toNat < l.tracks_.length := by omega
  have hlen : ((l.tracks_.eraseIdx i.toNat).length : Int) = (l.tracks_.length : Int) - 1 := by
    rw [List.length_eraseIdx_of_lt hi]; omega
  refine ⟨(m.setTracks this l (l.tracks_.eraseIdx i.toNat)).emitTrackCountChanged this,
    TrackList.RemoveTrack_of_valid h (by omega) h0 h1, ?_, ?_, ?_, ?_, rfl⟩
  · exact Memory.list?_setList_self _ h
  · have h2 := Memory.list?_setList_self { l with tracks_ := l.tracks_.eraseIdx i.toNat } h
    have h3 : ((m.setTracks this l (l.tracks_.eraseIdx i.toNat)).emitTrackCountChanged this).list?
        this = some { l with tracks_ := l.tracks_.eraseIdx i.toNat } := h2
    simp only [TrackList.TrackCount, h3, QVector.size, hlen]
  · intro j hj0 hji
    simp only [QVector.at, QVector.size]
    rw [if_pos ⟨hj0, by omega⟩, if_pos ⟨hj0, by omega⟩,
      List.getElem?_eraseIdx_of_lt _ _ _ (by omega)]
  · intro j hij hjl
    simp only [QVector.size] at hjl
    simp only [QVector.at, QVector.size]
    rw [if_pos ⟨by omega, by omega⟩, if_pos ⟨by omega, hjl⟩,
      List.getElem?_eraseIdx_of_ge _ _ _ (by omega)]
    congr 1
    omega

/-- Witness of `TrackList.RemoveTrack_erases`: position 1 of three tracks. -/
theorem TrackList.RemoveTrack_erases_witness :
    ∃ m2, TrackList.RemoveTrack
        ⟨[⟨1, .video, []⟩, ⟨1, .video, []⟩, ⟨1, .video, []⟩], [⟨7, .video, [1, 2, 3]⟩], [1, 1, 1]⟩
        1 1 = some m2 ∧
      m2.list? 1 = some ⟨7, .video, [1, 3]⟩ :=
  match TrackList.RemoveTrack_erases
      ⟨[⟨1, .video, []⟩, ⟨1, .video, []⟩, ⟨1, .video, []⟩], [⟨7, .video, [1, 2, 3]⟩], [1, 1, 1]⟩
      1 ⟨7, .video, [1, 2, 3]⟩ 1 (by decide) (by decide) (by decide) (by decide) with
  | ⟨m2, h1, h2, _⟩ => ⟨m2, h1, h2⟩

/-- C5: with exactly one track `RemoveTrack(i)` returns normally for every integer
`i` and leaves the whole memory as it was: the track list, the count and the log
of emitted signals are unchanged. -/
theorem TrackList.RemoveTrack_single_noop (m : Memory) (this : Nat) (i : Int)
    (hK : TrackList.TrackCount m this = some 1) :
    TrackList.RemoveTrack m this i = some m ∧ TrackList.TrackCount m this = some 1 := by
  refine ⟨?_, hK⟩
  unfold TrackList.TrackCount at hK
  cases h : m.list? this with
  | none => simp [h] at hK
  | some l =>
    simp only [h, Option.some.injEq, QVector.size] at hK
    exact TrackList.RemoveTrack_of_single h (by omega) i

/-- Witness of `TrackList.RemoveTrack_single_noop`: a freshly constructed collection
and the out-of-range index 5. -/
theorem TrackList.RemoveTrack_single_noop_witness :
    TrackList.RemoveTrack ⟨[⟨1, .audio, []⟩], [⟨7, .audio, [1]⟩], [1]⟩ 1 5 =
      some ⟨[⟨1, .audio, []⟩], [⟨7, .audio, [1]⟩], [1]⟩ ∧
    TrackList.TrackCount ⟨[⟨1, .audio, []⟩], [⟨7, .audio, [1]⟩], [1]⟩ 1 = some 1 :=
  TrackList.RemoveTrack_single_noop ⟨[⟨1, .audio, []⟩], [⟨7, .audio, [1]⟩], [1]⟩ 1 5
    (by decide)

/-- C10, as amended: with a count other than one and an index that is not a valid
position, `RemoveTrack(i)` hands the index unchecked to `QVector::removeAt`, whose
precondition fails: the call has no defined result, so it neither returns with the
list unchanged nor reports anything. -/
theorem TrackList.RemoveTrack_out_of_range (m : Memory) (this : Nat) (l : TrackList) (i : Int)
    (h : m.list? this = some l) (hK : 1 < QVector.size l.tracks_)
    (hi : i < 0 ∨ QVector.size l.tracks_ ≤ i) :
    QVector.removeAt l.tracks_ i = none ∧ TrackList.RemoveTrack m this i = none := by
  have hr : QVector.removeAt l.tracks_ i = none := by
    unfold QVector.removeAt
    rw [if_neg (by omega)]
  simp only [QVector.size] at hK hi
  exact ⟨hr, TrackList.RemoveTrack_of_invalid h (by omega) hi⟩

/-- Witness of `TrackList.RemoveTrack_out_of_range`: index 2 on two tracks. -/
theorem TrackList.RemoveTrack_out_of_range_witness :
    QVector.removeAt [1, 2] 2 = none ∧
    TrackList.RemoveTrack
      ⟨[⟨1, .video, []⟩, ⟨1, .video, []⟩], [⟨7, .video, [1, 2]⟩], [1, 1]⟩ 1 2 = none :=
  TrackList.RemoveTrack_out_of_range
    ⟨[⟨1, .video, []⟩, ⟨1, .video, []⟩], [⟨7, .video, [1, 2]⟩], [1, 1]⟩ 1 ⟨7, .video, [1, 2]⟩ 2
    (by decide) (by decide) (by decide)

/-- C10 as stated fails: on the two-track collection that construction and one
`AddTrack()` give, `RemoveTrack(2)` does not return with the track list unchanged
and no signal emitted. -/
theorem TrackList.RemoveTrack_out_of_range_counterexample :
    TrackList.create Memory.empty 7 .video =
      some (⟨[⟨1, .video, []⟩], [⟨7, .video, [1]⟩], [1]⟩, 1) ∧
    TrackList.AddTrack ⟨[⟨1, .video, []⟩], [⟨7, .video, [1]⟩], [1]⟩ 1 =
      some ⟨[⟨1, .video, []⟩, ⟨1, .video, []⟩], [⟨7, .video, [1, 2]⟩], [1, 1]⟩ ∧
    TrackList.TrackCount
      ⟨[⟨1, .video, []⟩, ⟨1, .video, []⟩], [⟨7, .video, [1, 2]⟩], [1, 1]⟩ 1 = some 2 ∧
    ¬ ∃ m2, TrackList.RemoveTrack
        ⟨[⟨1, .video, []⟩, ⟨1, .video, []⟩], [⟨7, .video, [1, 2]⟩], [1, 1]⟩ 1 2 = some m2 ∧
      TrackList.tracks m2 1 = some [1, 2] ∧
      m2.signals = [1, 1] := by
  refine ⟨by decide, by decide, by decide, ?_⟩
  rintro ⟨m2, h, -⟩
  have hnone : TrackList.RemoveTrack
      ⟨[⟨1, .video, []⟩, ⟨1, .video, []⟩], [⟨7, .video, [1, 2]⟩], [1, 1]⟩ 1 2 = none := by
    decide
  rw [hnone] at h
  cases h

/-! ## `TrackAt` -/

theorem List.set_of_getElem?_eq {α : Type} (v : List α) (i : Nat) (a : α) (h : v[i]? = some a) :
    v.set i a = v := by
  apply List.ext_getElem?
  intro j
  rw [List.getElem?_set]
  by_cases hij : i = j
  · subst hij
    have hlt := (List.getElem?_eq_some.mp h).1
    simp [hlt, h]
  · simp [hij]

theorem Memory.grown_zero {m : Memory} {this : Nat} {l : TrackList} (h : m.list? this = some l) :
    m.grown this l 0 = m := by
  obtain ⟨_, hlt, he⟩ := Memory.list?_eq_some h
  cases m with
  | mk ts ls sg =>
    simp only [Memory.grown, List.replicate_zero, List.append_nil, List.range'_zero,
      Memory.mk.injEq, true_and, and_true]
    simp only at he hlt
    apply List.set_of_getElem?_eq
    rw [List.getElem?_eq_getElem hlt, he]

theorem Memory.grown_succ {m : Memory} {this : Nat} {l : TrackList} (k : Nat) :
    (Memory.grown
      { trackObjs := m.trackObjs ++ [{ parent := this, type_ := l.type_, clips_ := [] }],
        listObjs := m.listObjs.set (this - 1)
          { l with tracks_ := l.tracks_ ++ [m.trackObjs.length + 1] },
        signals := m.signals ++ [this] }
      this { l with tracks_ := l.tracks_ ++ [m.trackObjs.length + 1] } k) =
    m.grown this l (k + 1) := by
  simp only [Memory.grown, List.length_append, List.length_singleton, List.append_assoc,
    List.singleton_append, List.set_set, Memory.mk.injEq]
  refine ⟨?_, ?_, ?_⟩
  · rw [List.replicate_succ]
  · rw [List.range'_succ]
  · rw [List.replicate_succ]

/-- The loop of `TrackAt` with enough fuel: it ends, after exactly
`max 0 (i + 1 - count)` calls of `AddTrack()`. -/
theorem TrackList.TrackAt_loop_eq (this : Nat) (i : Int) :
    ∀ (fuel : Nat) (m : Memory) (l : TrackList), m.list? this = some l →
      (i + 1 - (l.tracks_.length : Int)).toNat ≤ fuel →
      TrackList.TrackAt.loop this i fuel m =
        some (m.grown this l (i + 1 - (l.tracks_.length : Int)).toNat) := by
  intro fuel
  induction fuel with
  | zero =>
    intro m l h hf
    have hk : (i + 1 - (l.tracks_.length : Int)).toNat = 0 := by omega
    have hc : ¬ (i ≥ QVector.size l.tracks_) := by simp only [QVector.size]; omega
    simp only [TrackList.TrackAt.loop, h, hc, if_false, hk, Memory.grown_zero h]
  | succ f ih =>
    intro m l h hf
    unfold TrackList.TrackAt.loop
    by_cases hc : i ≥ QVector.size l.tracks_
    · simp only [h, hc, if_true, TrackList.AddTrack_eq h]
      simp only [QVector.size] at hc
      obtain ⟨hp, hlt, _⟩ := Memory.list?_eq_some h
      have h2 : (Memory.mk (m.trackObjs ++ [{ parent := this, type_ := l.type_, clips_ := [] }])
          (m.listObjs.set (this - 1) { l with tracks_ := l.tracks_ ++ [m.trackObjs.length + 1] })
          (m.signals ++ [this])).list? this =
          some { l with tracks_ := l.tracks_ ++ [m.trackObjs.length + 1] } := by
        simp [Memory.list?, hp, hlt]
      have hlen : ((({ l with tracks_ := l.tracks_ ++ [m.trackObjs.length + 1] } :
          TrackList).tracks_.length : Nat) : Int) = (l.tracks_.length : Int) + 1 := by
        simp
      have key := ih _ _ h2 (by rw [hlen]; omega)
      rw [hlen] at key
      have hk : (i + 1 - (l.tracks_.length : Int)).toNat =
          (i + 1 - ((l.tracks_.length : Int) + 1)).toNat + 1 := by omega
      rw [key, hk, Memory.grown_succ]
    · simp only [h, hc, if_false]
      have hk : (i + 1 - (l.tracks_.length : Int)).toNat = 0 := by
        simp only [QVector.size] at hc; omega
      rw [hk, Memory.grown_zero h]

theorem Memory.list?_grown {m : Memory} {this : Nat} {l : TrackList} (k : Nat)
    (h : m.list? this = some l) :
    (m.grown this l k).list? this =
      some { l with tracks_ := l.tracks_ ++ List.range' (m.trackObjs.length + 1) k } := by
  obtain ⟨hp, hlt, _⟩ := Memory.list?_eq_some h
  simp [Memory.list?, Memory.grown, hp, hlt]

theorem Memory.track?_grown_old {m : Memory} {this : Nat} {l : TrackList} (k : Nat) {q : Nat}
    {t : Track} (h : m.track? q = some t) : (m.grown this l k).track? q = some t :=
  Memory.track?_append_old _ _ _ h

theorem Memory.track?_grown_new (m : Memory) (this : Nat) (l : TrackList) (k d : Nat)
    (hd : d < k) :
    m.track? (m.trackObjs.length + 1 + d) = none ∧
    (m.grown this l k).track? (m.trackObjs.length + 1 + d) =
      some { parent := this, type_ := l.type_, clips_ := [] } := by
  constructor
  · simp only [Memory.track?, nullptr]
    rw [if_neg (by omega)]
    exact List.getElem?_eq_none (by omega)
  · simp only [Memory.track?, nullptr, Memory.grown]
    rw [if_neg (by omega), List.getElem?_append_right (by omega)]
    rw [List.getElem?_replicate, if_pos (by omega)]

/-- What `TrackAt` returns, in one piece: the memory after `max 0 (n + 1 - count)`
calls of `AddTrack()`, and the pointer then stored at position `n`. -/
theorem TrackList.TrackAt_eq {m : Memory} {this : Nat} {l : TrackList} {n : Int}
    (h : m.list? this = some l) (h0 : 0 ≤ n) :
    ∃ p, (l.tracks_ ++ List.range' (m.trackObjs.length + 1)
        (n + 1 - (l.tracks_.length : Int)).toNat)[n.toNat]? = some p ∧
      TrackList.TrackAt m this n =
        some (m.grown this l (n + 1 - (l.tracks_.length : Int)).toNat, p) := by
  have hc : m.trackCount this = l.tracks_.length := by simp [Memory.trackCount, h]
  have hlt : n.toNat < (l.tracks_ ++ List.range' (m.trackObjs.length + 1)
      (n + 1 - (l.tracks_.length : Int)).toNat).length := by
    rw [List.length_append, List.length_range']; omega
  refine ⟨_, List.getElem?_eq_getElem hlt, ?_⟩
  have hat : QVector.at (l.tracks_ ++ List.range' (m.trackObjs.length + 1)
      (n + 1 - (l.tracks_.length : Int)).toNat) n =
      some ((l.tracks_ ++ List.range' (m.trackObjs.length + 1)
        (n + 1 - (l.tracks_.length : Int)).toNat).get ⟨n.toNat, hlt⟩) := by
    simp only [QVector.at, QVector.size]
    rw [if_pos ⟨h0, by omega⟩]
    exact List.getElem?_eq_getElem hlt
  simp only [TrackList.TrackAt, hc, TrackList.TrackAt_loop_eq this n _ m l h (le_refl _),
    Memory.list?_grown _ h, hat, List.get_eq_getElem]

/-- C6: on a live collection of `K` tracks and for every `n ≥ 0`, `TrackAt(n)`
returns; afterwards the count is `max K (n + 1)`, the parent and type are as
before, the first `K` positions read as before, every position from `K` to `n` holds
a pointer to a track object that did not exist before and is now an empty track of
the collection type owned by the collection, and the pointer returned is the one
stored at position `n`.  Track objects that existed keep their value. -/
theorem TrackList.TrackAt_extends (m : Memory) (this : Nat) (l : TrackList) (n : Int)
    (h : m.list? this = some l) (h0 : 0 ≤ n) :
    ∃ m2 p l2, TrackList.TrackAt m this n = some (m2, p) ∧
      m2.list? this = some l2 ∧ l2.parent = l.parent ∧ l2.type_ = l.type_ ∧
      TrackList.TrackCount m2 this = some (max (QVector.size l.tracks_) (n + 1)) ∧
      (∀ j : Int, 0 ≤ j → j < QVector.size l.tracks_ →
        QVector.at l2.tracks_ j = QVector.at l.tracks_ j) ∧
      (∀ j : Int, QVector.size l.tracks_ ≤ j → j ≤ n →
        ∃ q, QVector.at l2.tracks_ j = some q ∧ m.track? q = none ∧
          m2.track? q = some { parent := this, type_ := l.type_, clips_ := [] }) ∧
      QVector.at l2.tracks_ n = some p ∧
      (∀ q t, m.track? q = some t → m2.track? q = some t) := by
  obtain ⟨p, hp, heq⟩ := TrackList.TrackAt_eq h h0
  have hl2 := Memory.list?_grown (n + 1 - (l.tracks_.length : Int)).toNat h
  refine ⟨_, p, _, heq, hl2, rfl, rfl, ?_, ?_, ?_, ?_, ?_⟩
  · simp only [TrackList.TrackCount, hl2, QVector.size, List.length_append, List.length_range',
      Option.some.injEq]
    push_cast
    omega
  · intro j hj0 hjK
    exact QVector.at_append_left _ _ j hj0 hjK
  · intro j hKj hjn
    simp only [QVector.size] at hKj
    obtain ⟨hnone, hsome⟩ := Memory.track?_grown_new m this l
      (n + 1 - (l.tracks_.length : Int)).toNat (j.toNat - l.tracks_.length) (by omega)
    refine ⟨_, ?_, hnone, hsome⟩
    simp only [QVector.at, QVector.size, List.length_append, List.length_range']
    rw [if_pos ⟨by omega, by push_cast; omega⟩, List.getElem?_append_right (by omega),
      List.getElem?_range' _ _ (by omega)]
    simp
  · simp only [QVector.at, QVector.size, List.length_append, List.length_range']
    rw [if_pos ⟨h0, by push_cast; omega⟩]
    exact hp
  · intro q t hq
    exact Memory.track?_grown_old _ hq

/-- Witness of `TrackList.TrackAt_extends`: `TrackAt(3)` on a collection of one
track. -/
theorem TrackList.TrackAt_extends_witness :
    ∃ m2 p l2, TrackList.TrackAt ⟨[⟨1, .video, []⟩], [⟨7, .video, [1]⟩], [1]⟩ 1 3 = some (m2, p) ∧
      m2.list? 1 = some l2 ∧
      TrackList.TrackCount m2 1 = some (max (QVector.size [1]) (3 + 1)) ∧
      QVector.at l2.tracks_ 3 = some p :=
  match TrackList.TrackAt_extends ⟨[⟨1, .video, []⟩], [⟨7, .video, [1]⟩], [1]⟩ 1
      ⟨7, .video, [1]⟩ 3 (by decide) (by decide) with
  | ⟨m2, p, l2, h1, h2, _, _, h5, _, _, h8, _⟩ => ⟨m2, p, l2, h1, h2, h5, h8⟩

/-! ## The floor of one track -/

/-- In a reachable state the collection is live and holds at least one track. -/
theorem Reachable.live_nonempty {this : Nat} {m : Memory} (hr : Reachable this m) :
    ∃ l, m.list? this = some l ∧ 1 ≤ l.tracks_.length := by
  induction hr with
  | construct m0 parent type m hc =>
    rw [TrackList.create_eq] at hc
    simp only [Option.some.injEq, Prod.mk.injEq] at hc
    obtain ⟨hm, ht⟩ := hc
    subst hm
    subst ht
    exact ⟨{ parent := parent, type_ := type, tracks_ := [m0.trackObjs.length + 1] },
      by simp [Memory.list?, nullptr], by simp⟩
  | addTrack m m2 _ ha ih =>
    obtain ⟨l, hl, _⟩ := ih
    obtain ⟨hp, hlt, _⟩ := Memory.list?_eq_some hl
    rw [TrackList.AddTrack_eq hl] at ha
    cases ha
    exact ⟨{ l with tracks_ := l.tracks_ ++ [m.trackObjs.length + 1] },
      by simp [Memory.list?, hp, hlt], by simp⟩
  | removeTrack m m2 i _ _ hrm ih =>
    obtain ⟨l, hl, hlen⟩ := ih
    by_cases h1 : l.tracks_.length = 1
    · rw [TrackList.RemoveTrack_of_single hl h1] at hrm
      cases hrm
      exact ⟨l, hl, hlen⟩
    · by_cases hin : 0 ≤ i ∧ i < (l.tracks_.length : Int)
      · rw [TrackList.RemoveTrack_of_valid hl h1 hin.1 hin.2] at hrm
        cases hrm
        refine ⟨_, Memory.list?_setList_self _ hl, ?_⟩
        simp only
        rw [List.length_eraseIdx_of_lt (by omega)]
        omega
      · rw [TrackList.RemoveTrack_of_invalid hl h1 (by omega)] at hrm
        cases hrm
  | trackAt m m2 n p _ h0 hat ih =>
    obtain ⟨l, hl, hlen⟩ := ih
    obtain ⟨q, _, heq⟩ := TrackList.TrackAt_eq hl h0
    rw [hat] at heq
    simp only [Option.some.injEq, Prod.mk.injEq] at heq
    rw [heq.1]
    exact ⟨_, Memory.list?_grown _ hl, by simp only [List.length_append]; omega⟩

/-- C1: in every state reached from construction by `AddTrack()`, `RemoveTrack(i)`
(`i` a valid position unless one track is held) and `TrackAt(n)` with `n ≥ 0`,
`TrackCount()` returns a count of at least 1. -/
theorem Reachable.count_ge_one (this : Nat) (m : Memory) (hr : Reachable this m) :
    ∃ c, TrackList.TrackCount m this = some c ∧ 1 ≤ c := by
  obtain ⟨l, hl, hlen⟩ := Reachable.live_nonempty hr
  exact ⟨QVector.size l.tracks_, by simp [TrackList.TrackCount, hl],
    by simp only [QVector.size]; omega⟩

/-- Witness of `Reachable.count_ge_one`: construct, add two tracks, remove position 1,
ask for position 3, remove position 0 three times down to the floor, and try one
more removal, which is refused. -/
theorem Reachable.count_ge_one_witness :
    Reachable 1 ⟨[⟨1, .video, []⟩, ⟨1, .video, []⟩, ⟨1, .video, []⟩, ⟨1, .video, []⟩,
        ⟨1, .video, []⟩], [⟨7, .video, [5]⟩], [1, 1, 1, 1, 1, 1, 1, 1, 1]⟩ ∧
    ∃ c, TrackList.TrackCount ⟨[⟨1, .video, []⟩, ⟨1, .video, []⟩, ⟨1, .video, []⟩,
        ⟨1, .video, []⟩, ⟨1, .video, []⟩], [⟨7, .video, [5]⟩],
        [1, 1, 1, 1, 1, 1, 1, 1, 1]⟩ 1 = some c ∧ 1 ≤ c :=
  have h1 : Reachable 1 ⟨[⟨1, .video, []⟩], [⟨7, .video, [1]⟩], [1]⟩ :=
    Reachable.construct Memory.empty 7 .video _ (by decide)
  have h2 : Reachable 1 ⟨[⟨1, .video, []⟩, ⟨1, .video, []⟩], [⟨7, .video, [1, 2]⟩], [1, 1]⟩ :=
    Reachable.addTrack _ _ h1 (by decide)
  have h3 : Reachable 1 ⟨[⟨1, .video, []⟩, ⟨1, .video, []⟩, ⟨1, .video, []⟩],
      [⟨7, .video, [1, 2, 3]⟩], [1, 1, 1]⟩ :=
    Reachable.addTrack _ _ h2 (by decide)
  have h4 : Reachable 1 ⟨[⟨1, .video, []⟩, ⟨1, .video, []⟩, ⟨1, .video, []⟩],
      [⟨7, .video, [1, 3]⟩], [1, 1, 1, 1]⟩ :=
    Reachable.removeTrack _ _ 1 h3 (Or.inr ⟨3, by decide, by decide, by decide⟩) (by decide)
  have h5 : Reachable 1 ⟨[⟨1, .video, []⟩, ⟨1, .video, []⟩, ⟨1, .video, []⟩, ⟨1, .video, []⟩,
      ⟨1, .video, []⟩], [⟨7, .video, [1, 3, 4, 5]⟩], [1, 1, 1, 1, 1, 1]⟩ :=
    Reachable.trackAt _ _ 3 5 h4 (by decide) (by decide)
  have h6 : Reachable 1 ⟨[⟨1, .video, []⟩, ⟨1, .video, []⟩, ⟨1, .video, []⟩, ⟨1, .video, []⟩,
      ⟨1, .video, []⟩], [⟨7, .video, [3, 4, 5]⟩], [1, 1, 1, 1, 1, 1, 1]⟩ :=
    Reachable.removeTrack _ _ 0 h5 (Or.inr ⟨4, by decide, by decide, by decide⟩) (by decide)
  have h7 : Reachable 1 ⟨[⟨1, .video, []⟩, ⟨1, .video, []⟩, ⟨1, .video, []⟩, ⟨1, .video, []⟩,
      ⟨1, .video, []⟩], [⟨7, .video, [4, 5]⟩], [1, 1, 1, 1, 1, 1, 1, 1]⟩ :=
    Reachable.removeTrack _ _ 0 h6 (Or.inr ⟨3, by decide, by decide, by decide⟩) (by decide)
  have h8 : Reachable 1 ⟨[⟨1, .video, []⟩, ⟨1, .video, []⟩, ⟨1, .video, []⟩, ⟨1, .video, []⟩,
      ⟨1, .video, []⟩], [⟨7, .video, [5]⟩], [1, 1, 1, 1, 1, 1, 1, 1, 1]⟩ :=
    Reachable.removeTrack _ _ 0 h7 (Or.inr ⟨2, by decide, by decide, by decide⟩) (by decide)
  have h9 : Reachable 1 ⟨[⟨1, .video, []⟩, ⟨1, .video, []⟩, ⟨1, .video, []⟩, ⟨1, .video, []⟩,
      ⟨1, .video, []⟩], [⟨7, .video, [5]⟩], [1, 1, 1, 1, 1, 1, 1, 1, 1]⟩ :=
    Reachable.removeTrack _ _ 9 h8 (Or.inl (by decide)) (by decide)
  ⟨h9, Reachable.count_ge_one 1 _ h9⟩

/-! ## `IndexOfTrack` -/

theorem QVector.at_natCast {α : Type} (v : List α) (k : Nat) : QVector.at v (k : Int) = v[k]? := by
  simp only [QVector.at, QVector.size]
  by_cases hk : k < v.length
  · rw [if_pos ⟨by omega, by omega⟩]; simp
  · rw [if_neg (by omega)]
    exact (List.getElem?_eq_none (by omega)).symm

/-- The loop of `IndexOfTrack` from position `i` with enough fuel: it ends, either
with `-1` when no position from `i` on holds `track`, or with the least position from
`i` on that holds it. -/
theorem TrackList.IndexOfTrack_loop_spec {m : Memory} {this : Nat} {l : TrackList} (track : Nat)
    (h : m.list? this = some l) :
    ∀ (fuel i : Nat), l.tracks_.length - i ≤ fuel →
      ∃ r, TrackList.IndexOfTrack.loop m this track fuel (i : Int) = some r ∧
        ((r = -1 ∧ ∀ j, i ≤ j → l.tracks_[j]? ≠ some track) ∨
         (∃ k : Nat, r = (k : Int) ∧ i ≤ k ∧ l.tracks_[k]? = some track ∧
            ∀ j, i ≤ j → j < k → l.tracks_[j]? ≠ some track)) := by
  intro fuel
  induction fuel with
  | zero =>
    intro i hf
    have hc : ¬ ((i : Int) < QVector.size l.tracks_) := by simp only [QVector.size]; omega
    refine ⟨-1, by simp only [TrackList.IndexOfTrack.loop, h, if_neg hc], Or.inl ⟨rfl, ?_⟩⟩
    intro j hij
    rw [List.getElem?_eq_none (by omega)]
    simp
  | succ f ih =>
    intro i hf
    by_cases hi : i < l.tracks_.length
    · have hc : (i : Int) < QVector.size l.tracks_ := by simp only [QVector.size]; omega
      have hat : QVector.at l.tracks_ (i : Int) = some (l.tracks_.get ⟨i, hi⟩) := by
        rw [QVector.at_natCast, List.getElem?_eq_getElem hi]; rfl
      have hget : l.tracks_[i]? = some (l.tracks_.get ⟨i, hi⟩) := by
        rw [List.getElem?_eq_getElem hi]; rfl
      by_cases hp : l.tracks_.get ⟨i, hi⟩ = track
      · refine ⟨(i : Int), by simp only [TrackList.IndexOfTrack.loop, h, if_pos hc, hat, if_pos hp],
          Or.inr ⟨i, rfl, le_refl _, by rw [hget, hp], ?_⟩⟩
        intro j h1 h2
        omega
      · obtain ⟨r, hr, hcase⟩ := ih (i + 1) (by omega)
        have hstep : TrackList.IndexOfTrack.loop m this track (f + 1) (i : Int) = some r := by
          simp only [TrackList.IndexOfTrack.loop, h, if_pos hc, hat, if_neg hp]
          rw [← hr]
          congr 1
        have hhere : l.tracks_[i]? ≠ some track := by
          rw [hget]
          intro he
          exact hp (Option.some.inj he)
        refine ⟨r, hstep, ?_⟩
        rcases hcase with ⟨hr1, hall⟩ | ⟨k, hrk, hik, hk, hall⟩
        · refine Or.inl ⟨hr1, ?_⟩
          intro j hij
          by_cases hji : j = i
          · rw [hji]; exact hhere
          · exact hall j (by omega)
        · refine Or.inr ⟨k, hrk, by omega, hk, ?_⟩
          intro j hij hjk
          by_cases hji : j = i
          · rw [hji]; exact hhere
          · exact hall j (by omega) hjk
    · have hc : ¬ ((i : Int) < QVector.size l.tracks_) := by simp only [QVector.size]; omega
      refine ⟨-1, by simp only [TrackList.IndexOfTrack.loop, h, if_neg hc], Or.inl ⟨rfl, ?_⟩⟩
      intro j hij
      rw [List.getElem?_eq_none (by omega)]
      simp

/-- C9: on a live collection `IndexOfTrack(track)` returns some `r`.  `r = -1` exactly
when `track` is not among the held pointers; when it is, `r` is a valid position,
the pointer at position `r` is `track`, and no smaller position holds `track`; and
when the held pointers are pairwise distinct, `r` is the position of `track`
wherever `track` is stored. -/
theorem TrackList.IndexOfTrack_spec (m : Memory) (this : Nat) (l : TrackList) (track : Nat)
    (h : m.list? this = some l) :
    ∃ r, TrackList.IndexOfTrack m this track = some r ∧
      (r = -1 ↔ track ∉ l.tracks_) ∧
      (track ∈ l.tracks_ →
        0 ≤ r ∧ r < QVector.size l.tracks_ ∧ QVector.at l.tracks_ r = some track ∧
        ∀ j : Int, 0 ≤ j → j < r → QVector.at l.tracks_ j ≠ some track) ∧
      (l.tracks_.Nodup → ∀ j : Int, QVector.at l.tracks_ j = some track → r = j) := by
  have hc : m.trackCount this = l.tracks_.length := by simp [Memory.trackCount, h]
  obtain ⟨r, hr, hcase⟩ := TrackList.IndexOfTrack_loop_spec track h l.tracks_.length 0 (by omega)
  refine ⟨r, by simpa only [TrackList.IndexOfTrack, hc] using hr, ?_⟩
  rcases hcase with ⟨hr1, hall⟩ | ⟨k, hrk, _, hk, hall⟩
  · have hnot : track ∉ l.tracks_ := by
      intro hmem
      obtain ⟨j, hj, hje⟩ := List.getElem_of_mem hmem
      exact hall j (Nat.zero_le _) (by rw [List.getElem?_eq_getElem hj, hje])
    refine ⟨⟨fun _ => hnot, fun _ => hr1⟩, fun hmem => absurd hmem hnot, ?_⟩
    intro _ j hj
    have hj0 : 0 ≤ j := by
      by_contra hneg
      simp only [QVector.at] at hj
      rw [if_neg (fun hh => hneg hh.1)] at hj
      cases hj
    have hj2 : l.tracks_[j.toNat]? = some track := by
      rw [← QVector.at_natCast, Int.toNat_of_nonneg hj0]; exact hj
    exact absurd hj2 (hall j.toNat (Nat.zero_le _))
  · have hklt : k < l.tracks_.length := (List.getElem?_eq_some.mp hk).1
    have hmem : track ∈ l.tracks_ := by
      rw [← (List.getElem?_eq_some.mp hk).2]
      exact List.getElem_mem hklt
    refine ⟨⟨fun h1 => by omega, fun hn => absurd hmem hn⟩, fun _ => ⟨by omega, ?_, ?_, ?_⟩, ?_⟩
    · simp only [QVector.size]; omega
    · rw [hrk, QVector.at_natCast]; exact hk
    · intro j hj0 hjr
      have := hall j.toNat (Nat.zero_le _) (by omega)
      rw [← QVector.at_natCast, Int.toNat_of_nonneg hj0] at this
      exact this
    · intro hnd j hj
      have hj0 : 0 ≤ j := by
        by_contra hneg
        simp only [QVector.at] at hj
        rw [if_neg (fun hh => hneg hh.1)] at hj
        cases hj
      have hj2 : l.tracks_[j.toNat]? = some track := by
        rw [← QVector.at_natCast, Int.toNat_of_nonneg hj0]; exact hj
      have hjlt : j.toNat < l.tracks_.length := (List.getElem?_eq_some.mp hj2).1
      have e1 : l.tracks_[k] = track := (List.getElem?_eq_some.mp hk).2
      have e2 : l.tracks_[j.toNat] = track := (List.getElem?_eq_some.mp hj2).2
      have := (List.Nodup.getElem_inj_iff hnd).mp (e1.trans e2.symm)
      omega

/-- Witness of `TrackList.IndexOfTrack_spec`: the pointer 3 in the list `[1, 3, 4]`. -/
theorem TrackList.IndexOfTrack_spec_witness :
    TrackList.IndexOfTrack ⟨[⟨1, .video, []⟩, ⟨1, .video, []⟩, ⟨1, .video, []⟩, ⟨1, .video, []⟩],
        [⟨7, .video, [1, 3, 4]⟩], [1, 1, 1, 1, 1]⟩ 1 3 = some 1 ∧
    ∃ r, TrackList.IndexOfTrack ⟨[⟨1, .video, []⟩, ⟨1, .video, []⟩, ⟨1, .video, []⟩,
        ⟨1, .video, []⟩], [⟨7, .video, [1, 3, 4]⟩], [1, 1, 1, 1, 1]⟩ 1 3 = some r ∧
      (r = -1 ↔ 3 ∉ [1, 3, 4]) :=
  ⟨by decide,
   match TrackList.IndexOfTrack_spec ⟨[⟨1, .video, []⟩, ⟨1, .video, []⟩, ⟨1, .video, []⟩,
      ⟨1, .video, []⟩], [⟨7, .video, [1, 3, 4]⟩], [1, 1, 1, 1, 1]⟩ 1 ⟨7, .video, [1, 3, 4]⟩ 3
      (by decide) with
   | ⟨r, h1, h2, _⟩ => ⟨r, h1, h2⟩⟩

/-! ## `Save` -/

/-- When `ts` lists the track objects behind the pointers `ps`, position by
position, the pointer at a valid position `i` leads to `ts[i]`. -/
theorem Memory.track?_of_map_eq {m : Memory} {ps : List Nat} {ts : List Track}
    (hts : ps.map m.track? = ts.map some) (i : Nat) (hi : i < ps.length) :
    ∃ hi2 : i < ts.length, m.track? (ps.get ⟨i, hi⟩) = some (ts.get ⟨i, hi2⟩) := by
  have hlen : ps.length = ts.length := by
    have := congrArg List.length hts
    simpa using this
  have hi2 : i < ts.length := by omega
  refine ⟨hi2, ?_⟩
  have h1 := congrArg (fun v => v[i]?) hts
  simp only [List.getElem?_map, List.getElem?_eq_getElem hi, List.getElem?_eq_getElem hi2,
    Option.map_some'] at h1
  simpa using h1

/-- The loop of `Save` from position `i` with enough fuel: it ends, having written
what the tracks from position `i` on write, in order. -/
theorem TrackList.Save_loop_eq (trackSave : Track → List XmlToken) {m : Memory} {this : Nat}
    {l : TrackList} {ts : List Track} (h : m.list? this = some l)
    (hts : l.tracks_.map m.track? = ts.map some) :
    ∀ (fuel i : Nat) (stream : List XmlToken), l.tracks_.length - i ≤ fuel →
      TrackList.Save.loop trackSave m this fuel (i : Int) stream =
        some (stream ++ (ts.drop i).flatMap trackSave) := by
  have hlen : l.tracks_.length = ts.length := by
    have := congrArg List.length hts
    simpa using this
  intro fuel
  induction fuel with
  | zero =>
    intro i stream hf
    have hc : ¬ ((i : Int) < QVector.size l.tracks_) := by simp only [QVector.size]; omega
    simp only [TrackList.Save.loop, h, if_neg hc]
    rw [List.drop_eq_nil_of_le (by omega)]
    simp
  | succ f ih =>
    intro i stream hf
    by_cases hi : i < l.tracks_.length
    · have hc : (i : Int) < QVector.size l.tracks_ := by simp only [QVector.size]; omega
      obtain ⟨hi2, hderef⟩ := Memory.track?_of_map_eq hts i hi
      have hat : QVector.at l.tracks_ (i : Int) = some (l.tracks_.get ⟨i, hi⟩) := by
        rw [QVector.at_natCast, List.getElem?_eq_getElem hi]; rfl
      have hnext := ih (i + 1) (stream ++ trackSave (ts.get ⟨i, hi2⟩)) (by omega)
      have hdrop : ts.drop i = ts.get ⟨i, hi2⟩ :: ts.drop (i + 1) := by
        rw [List.get_eq_getElem]
        exact List.drop_eq_getElem_cons hi2
      simp only [TrackList.Save.loop, h, if_pos hc, hat, Track.Save, hderef]
      rw [hdrop, List.flatMap_cons, ← List.append_assoc, ← hnext]
      congr 1
    · have hc : ¬ ((i : Int) < QVector.size l.tracks_) := by simp only [QVector.size]; omega
      simp only [TrackList.Save.loop, h, if_neg hc]
      rw [List.drop_eq_nil_of_le (by omega)]
      simp

/-- C8: on a live collection whose pointers lead, position by position, to the track
objects `ts`, `Save` returns, and what it appends to the stream is exactly the start
of an element named "Tracks", then what each track of `ts` writes, in the order of
the list and once each, then one end of element. -/
theorem TrackList.Save_writes (trackSave : Track → List XmlToken) (m : Memory) (this : Nat)
    (l : TrackList) (ts : List Track) (stream : List XmlToken)
    (h : m.list? this = some l) (hts : l.tracks_.map m.track? = ts.map some) :
    TrackList.Save trackSave m this stream =
      some (stream ++ [XmlToken.writeStartElement "Tracks"] ++ ts.flatMap trackSave ++
        [XmlToken.writeEndElement]) := by
  have hc : m.trackCount this = l.tracks_.length := by simp [Memory.trackCount, h]
  have hloop := TrackList.Save_loop_eq trackSave h hts l.tracks_.length 0
    (stream ++ [XmlToken.writeStartElement "Tracks"]) (by omega)
  simp only [Nat.cast_zero, List.drop_zero] at hloop
  simp only [TrackList.Save, h, hc, hloop]

/-- Witness of `TrackList.Save_writes`: three tracks `A`, `B`, `C` whose content is
`[10]`, `[20]`, `[30]`, each written as its content. -/
theorem TrackList.Save_writes_witness :
    TrackList.Save (fun t => t.clips_.map XmlToken.other)
      ⟨[⟨1, .audio, [10]⟩, ⟨1, .audio, [20]⟩, ⟨1, .audio, [30]⟩], [⟨7, .audio, [1, 2, 3]⟩],
        [1, 1, 1]⟩ 1 [] =
    some [XmlToken.writeStartElement "Tracks", XmlToken.other 10, XmlToken.other 20,
      XmlToken.other 30, XmlToken.writeEndElement] :=
  TrackList.Save_writes (fun t => t.clips_.map XmlToken.other)
    ⟨[⟨1, .audio, [10]⟩, ⟨1, .audio, [20]⟩, ⟨1, .audio, [30]⟩], [⟨7, .audio, [1, 2, 3]⟩],
      [1, 1, 1]⟩ 1 ⟨7, .audio, [1, 2, 3]⟩
    [⟨1, .audio, [10]⟩, ⟨1, .audio, [20]⟩, ⟨1, .audio, [30]⟩] [] (by decide) (by decide)

/-! ## `copy` -/

theorem Memory.list?_copying_source {m : Memory} {this : Nat} {l : TrackList} (parent : Nat)
    (type : TrackType) (ts : List Track) (rest : List Nat) (i : Nat)
    (h : m.list? this = some l) : (m.copying parent type ts rest i).list? this = some l := by
  obtain ⟨hp, hlt, he⟩ := Memory.list?_eq_some h
  simp only [Memory.list?, Memory.copying, hp, if_false]
  rw [List.getElem?_append_left hlt, List.getElem?_eq_getElem hlt, he]

theorem Memory.list?_copying_new (m : Memory) (parent : Nat) (type : TrackType)
    (ts : List Track) (rest : List Nat) (i : Nat) :
    (m.copying parent type ts rest i).list? (m.listObjs.length + 1) =
      some { parent := parent, type_ := type,
             tracks_ := List.range' (m.trackObjs.length + 2) i ++ rest.drop i } := by
  simp only [Memory.list?, Memory.copying, nullptr, Nat.add_sub_cancel]
  rw [if_neg (by omega), List.getElem?_append_right (le_refl _)]
  simp

/-- One iteration of the loop of `copy`. -/
theorem Memory.copying_step (m : Memory) (parent : Nat) (type : TrackType) (ts : List Track)
    (rest : List Nat) (i : Nat) (hi : i < ts.length) (hr : i < rest.length) :
    (Memory.mk
      ((m.copying parent type ts rest i).trackObjs ++
        [{ ts.get ⟨i, hi⟩ with parent := m.listObjs.length + 1 }])
      (m.copying parent type ts rest i).listObjs
      (m.copying parent type ts rest i).signals).setTracks (m.listObjs.length + 1)
        { parent := parent, type_ := type,
          tracks_ := List.range' (m.trackObjs.length + 2) i ++ rest.drop i }
        ((List.range' (m.trackObjs.length + 2) i ++ rest.drop i).set i
          ((m.copying parent type ts rest i).trackObjs.length + 1)) =
    m.copying parent type ts rest (i + 1) := by
  have hlen : (m.copying parent type ts rest i).trackObjs.length = m.trackObjs.length + 1 + i := by
    simp only [Memory.copying, List.length_append, List.length_cons, List.length_map,
      List.length_take]
    omega
  rw [hlen]
  simp only [Memory.copying, Memory.setTracks, Memory.setList, Nat.add_sub_cancel,
    Memory.mk.injEq, and_true]
  refine ⟨?_, ?_⟩
  · rw [← List.take_concat_get ts i hi, List.concat_eq_append, List.map_append,
      List.map_singleton, List.get_eq_getElem]
    simp
  · rw [List.set_append_right _ _ (le_refl _)]
    simp only [Nat.sub_self, List.set_cons_zero, List.set_nil]
    congr 2
    rw [List.set_append_right _ _ (by simp), List.length_range', Nat.sub_self,
      List.drop_eq_getElem_cons hr, List.set_cons_zero, List.range'_concat]
    simp only [List.append_assoc, List.singleton_append, Nat.one_mul]
    have e : m.trackObjs.length + 1 + i + 1 = m.trackObjs.length + 2 + i := by omega
    rw [e]

/-- The loop of `copy` from position `i` with enough fuel: it ends, after one
`Track::copy` and one assignment for each remaining position. -/
theorem TrackList.copy_loop_eq {m : Memory} {this : Nat} {l : TrackList} {ts : List Track}
    (parent : Nat) (rest : List Nat) (h : m.list? this = some l)
    (hts : l.tracks_.map m.track? = ts.map some) (hrest : rest.length = l.tracks_.length) :
    ∀ (fuel i : Nat), l.tracks_.length - i ≤ fuel → i ≤ l.tracks_.length →
      TrackList.copy.loop this (m.listObjs.length + 1) fuel (i : Int)
          (m.copying parent l.type_ ts rest i) =
        some (m.copying parent l.type_ ts rest l.tracks_.length) := by
  have hlen : l.tracks_.length = ts.length := by
    have := congrArg List.length hts
    simpa using this
  intro fuel
  induction fuel with
  | zero =>
    intro i hf hik
    have hc : ¬ ((i : Int) < QVector.size l.tracks_) := by simp only [QVector.size]; omega
    have hiK : i = l.tracks_.length := by omega
    simp only [TrackList.copy.loop, Memory.list?_copying_source parent l.type_ ts rest i h,
      if_neg hc]
    rw [← hiK]
  | succ f ih =>
    intro i hf hik
    by_cases hi : i < l.tracks_.length
    · have hc : (i : Int) < QVector.size l.tracks_ := by simp only [QVector.size]; omega
      obtain ⟨hi2, hderef⟩ := Memory.track?_of_map_eq hts i hi
      have hat : QVector.at l.tracks_ (i : Int) = some (l.tracks_.get ⟨i, hi⟩) := by
        rw [QVector.at_natCast, List.getElem?_eq_getElem hi]; rfl
      have hsrc : (m.copying parent l.type_ ts rest i).track? (l.tracks_.get ⟨i, hi⟩) =
          some (ts.get ⟨i, hi2⟩) := Memory.track?_append_old _ _ _ hderef
      have hnew : (Memory.mk
          ((m.copying parent l.type_ ts rest i).trackObjs ++
            [{ ts.get ⟨i, hi2⟩ with parent := m.listObjs.length + 1 }])
          (m.copying parent l.type_ ts rest i).listObjs
          (m.copying parent l.type_ ts rest i).signals).list? (m.listObjs.length + 1) =
          some { parent := parent, type_ := l.type_,
                 tracks_ := List.range' (m.trackObjs.length + 2) i ++ rest.drop i } :=
        Memory.list?_copying_new m parent l.type_ ts rest i
      have hassign : QVector.assign
          (List.range' (m.trackObjs.length + 2) i ++ rest.drop i) (i : Int)
          ((m.copying parent l.type_ ts rest i).trackObjs.length + 1) =
          some ((List.range' (m.trackObjs.length + 2) i ++ rest.drop i).set i
            ((m.copying parent l.type_ ts rest i).trackObjs.length + 1)) := by
        simp only [QVector.assign, QVector.size, List.length_append, List.length_range',
          List.length_drop, Int.toNat_ofNat]
        rw [if_pos ⟨by omega, by omega⟩]
      have hnext := ih (i + 1) (by omega) (by omega)
      simp only [TrackList.copy.loop, Memory.list?_copying_source parent l.type_ ts rest i h,
        if_pos hc, hat, Track.copy, hsrc, hnew, hassign]
      rw [Memory.copying_step m parent l.type_ ts rest i hi2 (by omega), ← hnext]
      congr 1
    · have hc : ¬ ((i : Int) < QVector.size l.tracks_) := by simp only [QVector.size]; omega
      have hiK : i = l.tracks_.length := by omega
      simp only [TrackList.copy.loop, Memory.list?_copying_source parent l.type_ ts rest i h,
        if_neg hc]
      rw [← hiK]

/-- What `copy` returns, in one piece. -/
theorem TrackList.copy_eq {m : Memory} {this : Nat} {l : TrackList} {ts : List Track}
    (parent : Nat) (h : m.list? this = some l) (hts : l.tracks_.map m.track? = ts.map some) :
    TrackList.copy m this parent =
      some (m.copying parent l.type_ ts
        ([m.trackObjs.length + 1].take l.tracks_.length ++
          List.replicate (l.tracks_.length - 1) nullptr) l.tracks_.length,
        m.listObjs.length + 1) := by
  have hrest : ([m.trackObjs.length + 1].take l.tracks_.length ++
      List.replicate (l.tracks_.length - 1) nullptr).length = l.tracks_.length := by
    simp only [List.length_append, List.length_take, List.length_replicate, List.length_singleton]
    omega
  have hres : TrackList.ResizeTrackArray
      (Memory.mk (m.trackObjs ++ [{ parent := m.listObjs.length + 1, type_ := l.type_, clips_ := [] }])
        (m.listObjs ++ [{ parent := parent, type_ := l.type_, tracks_ := [m.trackObjs.length + 1] }])
        (m.signals ++ [m.listObjs.length + 1]))
      (m.listObjs.length + 1) (QVector.size l.tracks_) =
      some (m.copying parent l.type_ ts
        ([m.trackObjs.length + 1].take l.tracks_.length ++
          List.replicate (l.tracks_.length - 1) nullptr) 0) := by
    simp [TrackList.ResizeTrackArray, Memory.list?, nullptr, QVector.resize, QVector.size,
      Memory.setTracks, Memory.setList, Memory.copying]
  have hcount : (m.copying parent l.type_ ts
      ([m.trackObjs.length + 1].take l.tracks_.length ++
        List.replicate (l.tracks_.length - 1) nullptr) 0).trackCount this = l.tracks_.length := by
    simp only [Memory.trackCount, Memory.list?_copying_source parent l.type_ ts _ 0 h]
  have hloop := TrackList.copy_loop_eq parent _ h hts hrest l.tracks_.length 0 (by omega)
    (Nat.zero_le _)
  simp only [Nat.cast_zero] at hloop
  simp only [TrackList.copy, h, TrackList.create_eq, hres, hcount, hloop]

/-- C7: on a live source collection whose pointers lead, position by position, to the
track objects `ts`, `copy(parent)` returns a pointer `t` to a `TrackList` object that
did not exist before, with the given parent, the type and the count of the source;
position `i` of the new list holds a pointer `c` to a track object that did not
exist before, is not among the source pointers, and is `ts[i]` with the owner
replaced by `t`.  The track made by the construction of the new list is not among
its pointers.  The source list and every track object that existed are unchanged. -/
theorem TrackList.copy_clones (m : Memory) (this : Nat) (l : TrackList) (ts : List Track)
    (parent : Nat) (h : m.list? this = some l) (hts : l.tracks_.map m.track? = ts.map some) :
    ∃ m2 t l2, TrackList.copy m this parent = some (m2, t) ∧
      m.list? t = none ∧ m2.list? t = some l2 ∧ l2.parent = parent ∧
      TrackList.TrackCount m2 t = TrackList.TrackCount m this ∧
      TrackList.type m2 t = TrackList.type m this ∧
      (∀ i : Nat, ∀ hi : i < ts.length, ∃ c, QVector.at l2.tracks_ (i : Int) = some c ∧
        m.track? c = none ∧ c ∉ l.tracks_ ∧
        m2.track? c = some { ts.get ⟨i, hi⟩ with parent := t }) ∧
      (∃ m1 d, TrackList.create m parent l.type_ = some (m1, t) ∧
        TrackList.tracks m1 t = some [d] ∧ d ∉ l2.tracks_) ∧
      m2.list? this = some l ∧
      (∀ q x, m.track? q = some x → m2.track? q = some x) := by
  have hlen : l.tracks_.length = ts.length := by
    have := congrArg List.length hts
    simpa using this
  have hrest : ([m.trackObjs.length + 1].take l.tracks_.length ++
      List.replicate (l.tracks_.length - 1) nullptr).length = l.tracks_.length := by
    simp only [List.length_append, List.length_take, List.length_replicate, List.length_singleton]
    omega
  have hl2 := Memory.list?_copying_new m parent l.type_ ts
    ([m.trackObjs.length + 1].take l.tracks_.length ++
      List.replicate (l.tracks_.length - 1) nullptr) l.tracks_.length
  rw [List.drop_eq_nil_of_le (le_of_eq hrest), List.append_nil] at hl2
  have hlive : ∀ q ∈ l.tracks_, q ≤ m.trackObjs.length := by
    intro q hq
    obtain ⟨j, hj, hje⟩ := List.getElem_of_mem hq
    obtain ⟨_, hd⟩ := Memory.track?_of_map_eq hts j hj
    rw [List.get_eq_getElem, hje] at hd
    obtain ⟨hq0, hqlt, _⟩ := Memory.track?_eq_some hd
    unfold nullptr at hq0
    omega
  refine ⟨_, _, _, TrackList.copy_eq parent h hts, ?_, hl2, rfl, ?_, ?_, ?_, ?_,
    Memory.list?_copying_source parent l.type_ ts _ _ h, ?_⟩
  · simp [Memory.list?, nullptr]
  · simp [TrackList.TrackCount, hl2, h, QVector.size]
  · simp [TrackList.type, hl2, h]
  · intro i hi
    refine ⟨m.trackObjs.length + 2 + i, ?_, ?_, ?_, ?_⟩
    · rw [QVector.at_natCast, List.getElem?_range' _ _ (by omega)]
      simp
    · simp only [Memory.track?, nullptr]
      rw [if_neg (by omega)]
      exact List.getElem?_eq_none (by omega)
    · intro hmem
      have := hlive _ hmem
      omega
    · simp only [Memory.track?, nullptr, Memory.copying]
      rw [if_neg (by omega), List.getElem?_append_right (by omega)]
      have e : m.trackObjs.length + 2 + i - 1 - m.trackObjs.length = i + 1 := by omega
      rw [e, List.getElem?_cons_succ, List.take_of_length_le (by omega), List.getElem?_map,
        List.getElem?_eq_getElem hi]
      rfl
  · refine ⟨_, m.trackObjs.length + 1, TrackList.create_eq m parent l.type_, ?_, ?_⟩
    · simp [TrackList.tracks, Memory.list?, nullptr]
    · intro hmem
      obtain ⟨_, hge⟩ := List.mem_range'_1.mp hmem
      omega
  · intro q x hq
    exact Memory.track?_append_old _ _ _ hq

/-- Witness of `TrackList.copy_clones`: a list of two audio tracks with content
`[10]` and `[20]`. -/
theorem TrackList.copy_clones_witness :
    TrackList.copy ⟨[⟨1, .audio, [10]⟩, ⟨1, .audio, [20]⟩], [⟨7, .audio, [1, 2]⟩], [1, 1]⟩ 1 9 =
      some (⟨[⟨1, .audio, [10]⟩, ⟨1, .audio, [20]⟩, ⟨2, .audio, []⟩, ⟨2, .audio, [10]⟩,
        ⟨2, .audio, [20]⟩], [⟨7, .audio, [1, 2]⟩, ⟨9, .audio, [4, 5]⟩], [1, 1, 2]⟩, 2) ∧
    ∃ m2 t l2, TrackList.copy
        ⟨[⟨1, .audio, [10]⟩, ⟨1, .audio, [20]⟩], [⟨7, .audio, [1, 2]⟩], [1, 1]⟩ 1 9 =
        some (m2, t) ∧
      m2.list? t = some l2 ∧ l2.parent = 9 :=
  ⟨by decide,
   match TrackList.copy_clones
      ⟨[⟨1, .audio, [10]⟩, ⟨1, .audio, [20]⟩], [⟨7, .audio, [1, 2]⟩], [1, 1]⟩ 1 ⟨7, .audio, [1, 2]⟩
      [⟨1, .audio, [10]⟩, ⟨1, .audio, [20]⟩] 9 (by decide) (by decide) with
   | ⟨m2, t, l2, h1, _, h3, h4, _⟩ => ⟨m2, t, l2, h1, h3, h4⟩⟩

/-! ## Notifications -/

theorem Memory.emitted_append (m : Memory) (this : Nat) (k : Nat) (ts : List Track)
    (ls : List TrackList) :
    (Memory.mk ts ls (m.signals ++ List.replicate k this)).emitted this = m.emitted this + k := by
  simp [Memory.emitted, List.count_append, List.count_replicate_self]

/-- C14: on a live collection of `K` tracks and for every `n ≥ 0`, `TrackAt(n)` returns
after appending the pointers `added` to the track list, where `added` has exactly
`max 0 (n + 1 - K)` elements, each a track object that did not exist before; exactly
that many track objects are allocated and exactly that many `TrackCountChanged`
signals are emitted, all by this collection.  When `n < K` the memory is unchanged. -/
theorem TrackList.TrackAt_appends_and_emits (m : Memory) (this : Nat) (l : TrackList) (n : Int)
    (h : m.list? this = some l) (h0 : 0 ≤ n) :
    ∃ m2 p added, TrackList.TrackAt m this n = some (m2, p) ∧
      m2.list? this = some { l with tracks_ := l.tracks_ ++ added } ∧
      (added.length : Int) = max 0 (n + 1 - QVector.size l.tracks_) ∧
      (∀ q ∈ added, m.track? q = none ∧ ∃ x, m2.track? q = some x) ∧
      m2.trackObjs.length = m.trackObjs.length + added.length ∧
      m2.signals = m.signals ++ List.replicate added.length this ∧
      m2.emitted this = m.emitted this + added.length ∧
      (n < QVector.size l.tracks_ → m2 = m) := by
  obtain ⟨p, _, heq⟩ := TrackList.TrackAt_eq h h0
  refine ⟨_, p, List.range' (m.trackObjs.length + 1) (n + 1 - (l.tracks_.length : Int)).toNat,
    heq, Memory.list?_grown _ h, ?_, ?_, ?_, ?_, ?_, ?_⟩
  · simp only [List.length_range', QVector.size]
    omega
  · intro q hq
    obtain ⟨d, hlt, hd⟩ := List.mem_range'.mp hq
    obtain ⟨hnone, hsome⟩ := Memory.track?_grown_new m this l
      (n + 1 - (l.tracks_.length : Int)).toNat d hlt
    rw [Nat.one_mul] at hd
    rw [hd]
    exact ⟨hnone, _, hsome⟩
  · simp [Memory.grown]
  · simp [Memory.grown]
  · simp only [List.length_range']
    exact Memory.emitted_append m this _ _ _
  · intro hlt
    simp only [QVector.size] at hlt
    have hk : (n + 1 - (l.tracks_.length : Int)).toNat = 0 := by omega
    rw [hk, Memory.grown_zero h]

/-- Witness of `TrackList.TrackAt_appends_and_emits`: `TrackAt(2)` on one track. -/
theorem TrackList.TrackAt_appends_and_emits_witness :
    ∃ (m2 : Memory) (p : Nat) (added : List Nat),
      TrackList.TrackAt ⟨[⟨1, .video, []⟩], [⟨7, .video, [1]⟩], [1]⟩ 1 2 = some (m2, p) ∧
      (added.length : Int) = max 0 (2 + 1 - QVector.size [1]) ∧
      m2.signals = [1] ++ List.replicate added.length 1 :=
  match TrackList.TrackAt_appends_and_emits ⟨[⟨1, .video, []⟩], [⟨7, .video, [1]⟩], [1]⟩ 1
      ⟨7, .video, [1]⟩ 2 (by decide) (by decide) with
  | ⟨m2, p, added, h1, _, h3, _, _, h6, _⟩ => ⟨m2, p, added, h1, h3, h6⟩

/-- C15: on a live collection `AddTrack()` emits exactly one `TrackCountChanged`;
a `RemoveTrack(i)` that returns either was refused at the floor of one track, and
then the memory, the signal log included, is unchanged, or it erased position `i`
and emitted exactly one `TrackCountChanged`. -/
theorem TrackList.notifies_once_per_change (m : Memory) (this : Nat) (l : TrackList)
    (h : m.list? this = some l) :
    (∃ m2, TrackList.AddTrack m this = some m2 ∧ m2.signals = m.signals ++ [this] ∧
      m2.emitted this = m.emitted this + 1) ∧
    ∀ (i : Int) (m2 : Memory), TrackList.RemoveTrack m this i = some m2 →
      (l.tracks_.length = 1 ∧ m2 = m ∧ m2.signals = m.signals ∧
        m2.emitted this = m.emitted this) ∨
      (l.tracks_.length ≠ 1 ∧
        m2.list? this = some { l with tracks_ := l.tracks_.eraseIdx i.toNat } ∧
        (l.tracks_.eraseIdx i.toNat).length + 1 = l.tracks_.length ∧
        m2.signals = m.signals ++ [this] ∧ m2.emitted this = m.emitted this + 1) := by
  refine ⟨⟨_, TrackList.AddTrack_eq h, rfl, Memory.emitted_append m this 1 _ _⟩, ?_⟩
  intro i m2 hrm
  by_cases h1 : l.tracks_.length = 1
  · rw [TrackList.RemoveTrack_of_single h h1] at hrm
    cases hrm
    exact Or.inl ⟨h1, rfl, rfl, rfl⟩
  · by_cases hin : 0 ≤ i ∧ i < (l.tracks_.length : Int)
    · rw [TrackList.RemoveTrack_of_valid h h1 hin.1 hin.2] at hrm
      cases hrm
      refine Or.inr ⟨h1, Memory.list?_setList_self _ h, ?_, rfl, ?_⟩
      · rw [List.length_eraseIdx_of_lt (by omega)]
        omega
      · exact Memory.emitted_append m this 1 _ _
    · rw [TrackList.RemoveTrack_of_invalid h h1 (by omega)] at hrm
      cases hrm

/-- Witness of `TrackList.notifies_once_per_change`: a collection of two tracks. -/
theorem TrackList.notifies_once_per_change_witness :
    (∃ m2, TrackList.AddTrack
        ⟨[⟨1, .video, []⟩, ⟨1, .video, []⟩], [⟨7, .video, [1, 2]⟩], [1, 1]⟩ 1 = some m2 ∧
      m2.signals = [1, 1] ++ [1] ∧
      m2.emitted 1 = (⟨[⟨1, .video, []⟩, ⟨1, .video, []⟩], [⟨7, .video, [1, 2]⟩],
        [1, 1]⟩ : Memory).emitted 1 + 1) ∧
    TrackList.RemoveTrack ⟨[⟨1, .video, []⟩, ⟨1, .video, []⟩], [⟨7, .video, [1, 2]⟩], [1, 1]⟩
      1 0 = some ⟨[⟨1, .video, []⟩, ⟨1, .video, []⟩], [⟨7, .video, [2]⟩], [1, 1, 1]⟩ :=
  ⟨(TrackList.notifies_once_per_change
      ⟨[⟨1, .video, []⟩, ⟨1, .video, []⟩], [⟨7, .video, [1, 2]⟩], [1, 1]⟩ 1 ⟨7, .video, [1, 2]⟩
      (by decide)).1, by decide⟩

/-! ## `ResizeTrackArray` -/

/-- C17: on a live collection of `K` tracks and for every `n ≥ 0`,
`ResizeTrackArray(n)` returns; the count is then exactly `n`, the first `min K n`
positions read as before, every position from `K` up to `n - 1` holds the null
pointer, no track object is allocated and no signal is emitted. -/
theorem TrackList.ResizeTrackArray_sets_length (m : Memory) (this : Nat) (l : TrackList)
    (n : Int) (h : m.list? this = some l) (h0 : 0 ≤ n) :
    ∃ m2 l2, TrackList.ResizeTrackArray m this n = some m2 ∧
      m2.list? this = some l2 ∧ l2.parent = l.parent ∧ l2.type_ = l.type_ ∧
      TrackList.TrackCount m2 this = some n ∧
      (∀ j : Int, 0 ≤ j → j < min (QVector.size l.tracks_) n →
        QVector.at l2.tracks_ j = QVector.at l.tracks_ j) ∧
      (∀ j : Int, QVector.size l.tracks_ ≤ j → j < n →
        QVector.at l2.tracks_ j = some nullptr ∧ m2.track? nullptr = none) ∧
      m2.trackObjs = m.trackObjs ∧ m2.signals = m.signals := by
  have hlen : ((l.tracks_.take n.toNat ++
      List.replicate (n.toNat - l.tracks_.length) nullptr).length : Int) = n := by
    simp only [List.length_append, List.length_take, List.length_replicate]
    omega
  have hl2 := Memory.list?_setList_self
    { l with tracks_ := l.tracks_.take n.toNat ++
        List.replicate (n.toNat - l.tracks_.length) nullptr } h
  refine ⟨_, _, ?_, hl2, rfl, rfl, ?_, ?_, ?_, rfl, rfl⟩
  · simp only [TrackList.ResizeTrackArray, h, QVector.resize, if_pos h0, Memory.setTracks]
  · simp only [TrackList.TrackCount, Memory.setTracks, hl2, QVector.size, hlen]
  · intro j hj0 hjm
    simp only [QVector.size] at hjm
    simp only [QVector.at, QVector.size, hlen]
    rw [if_pos ⟨hj0, by omega⟩, if_pos ⟨hj0, by omega⟩,
      List.getElem?_append_left (by rw [List.length_take]; omega),
      List.getElem?_take_of_lt (by omega)]
  · intro j hKj hjn
    simp only [QVector.size] at hKj
    refine ⟨?_, by simp [Memory.track?]⟩
    simp only [QVector.at, QVector.size, hlen]
    rw [if_pos ⟨by omega, hjn⟩,
      List.getElem?_append_right (by rw [List.length_take]; omega),
      List.getElem?_replicate, if_pos (by rw [List.length_take]; omega)]

/-- Witness of `TrackList.ResizeTrackArray_sets_length`: one track resized to 3. -/
theorem TrackList.ResizeTrackArray_sets_length_witness :
    TrackList.ResizeTrackArray ⟨[⟨1, .video, []⟩], [⟨7, .video, [1]⟩], [1]⟩ 1 3 =
      some ⟨[⟨1, .video, []⟩], [⟨7, .video, [1, 0, 0]⟩], [1]⟩ ∧
    ∃ m2 l2, TrackList.ResizeTrackArray ⟨[⟨1, .video, []⟩], [⟨7, .video, [1]⟩], [1]⟩ 1 3 =
        some m2 ∧
      m2.list? 1 = some l2 ∧ TrackList.TrackCount m2 1 = some 3 :=
  ⟨by decide,
   match TrackList.ResizeTrackArray_sets_length ⟨[⟨1, .video, []⟩], [⟨7, .video, [1]⟩], [1]⟩ 1
      ⟨7, .video, [1]⟩ 3 (by decide) (by decide) with
   | ⟨m2, l2, h1, h2, _, _, h5, _⟩ => ⟨m2, l2, h1, h2, h5⟩⟩

/-! ## `AddTrack` followed by `RemoveTrack` -/

/-- C20: on a live collection of `K ≥ 1` tracks, `AddTrack()` followed by
`RemoveTrack(K)` returns with the members of the collection exactly as they were
at the start (the removal is not refused, the count being `K + 1`), and exactly two
`TrackCountChanged` signals have been emitted, both by this collection. -/
theorem TrackList.AddTrack_then_RemoveTrack_last (m : Memory) (this : Nat) (l : TrackList)
    (h : m.list? this = some l) (hK : 1 ≤ QVector.size l.tracks_) :
    ∃ m2 m3, TrackList.AddTrack m this = some m2 ∧
      TrackList.TrackCount m2 this = some (QVector.size l.tracks_ + 1) ∧
      TrackList.RemoveTrack m2 this (QVector.size l.tracks_) = some m3 ∧
      m3.list? this = some l ∧
      TrackList.tracks m3 this = TrackList.tracks m this ∧
      m3.signals = m.signals ++ [this, this] ∧
      m3.emitted this = m.emitted this + 2 := by
  simp only [QVector.size] at hK
  obtain ⟨hp, hlt, _⟩ := Memory.list?_eq_some h
  have hl2 : (Memory.mk (m.trackObjs ++ [{ parent := this, type_ := l.type_, clips_ := [] }])
      (m.listObjs.set (this - 1) { l with tracks_ := l.tracks_ ++ [m.trackObjs.length + 1] })
      (m.signals ++ [this])).list? this =
      some { l with tracks_ := l.tracks_ ++ [m.trackObjs.length + 1] } := by
    simp [Memory.list?, hp, hlt]
  have herase : (l.tracks_ ++ [m.trackObjs.length + 1]).eraseIdx l.tracks_.length =
      l.tracks_ := by
    rw [List.eraseIdx_append_of_length_le (le_refl _)]
    simp
  have hrm := TrackList.RemoveTrack_of_valid (i := (l.tracks_.length : Int)) hl2
    (by simp only [List.length_append, List.length_singleton]; omega) (by omega)
    (by simp only [List.length_append, List.length_singleton]; push_cast; omega)
  simp only [Int.toNat_ofNat, herase] at hrm
  have hl3 := Memory.list?_setList_self l hl2
  refine ⟨_, _, TrackList.AddTrack_eq h, ?_, hrm, hl3, ?_, ?_, ?_⟩
  · simp [TrackList.TrackCount, hl2, QVector.size]
  · have hl4 : ((((Memory.mk
          (m.trackObjs ++ [{ parent := this, type_ := l.type_, clips_ := [] }])
          (m.listObjs.set (this - 1)
            { l with tracks_ := l.tracks_ ++ [m.trackObjs.length + 1] })
          (m.signals ++ [this])).setTracks this
          { l with tracks_ := l.tracks_ ++ [m.trackObjs.length + 1] }
          l.tracks_).emitTrackCountChanged this).list? this) = some l := hl3
    simp only [TrackList.tracks, hl4, h]
  · simp [Memory.emitTrackCountChanged, Memory.setTracks, Memory.setList]
  · simp [Memory.emitted, Memory.emitTrackCountChanged, Memory.setTracks, Memory.setList,
      List.count_append]

/-- Witness of `TrackList.AddTrack_then_RemoveTrack_last`: a collection of two
tracks. -/
theorem TrackList.AddTrack_then_RemoveTrack_last_witness :
    ∃ m2 m3, TrackList.AddTrack
        ⟨[⟨1, .video, []⟩, ⟨1, .video, []⟩], [⟨7, .video, [1, 2]⟩], [1, 1]⟩ 1 = some m2 ∧
      TrackList.RemoveTrack m2 1 (QVector.size [1, 2]) = some m3 ∧
      m3.list? 1 = some ⟨7, .video, [1, 2]⟩ ∧
      m3.signals = [1, 1] ++ [1, 1] :=
  match TrackList.AddTrack_then_RemoveTrack_last
      ⟨[⟨1, .video, []⟩, ⟨1, .video, []⟩], [⟨7, .video, [1, 2]⟩], [1, 1]⟩ 1 ⟨7, .video, [1, 2]⟩
      (by decide) (by decide) with
  | ⟨m2, m3, h1, _, h3, h4, _, h6, _⟩ => ⟨m2, m3, h1, h3, h4, h6⟩

/-! ## `First` and `Last` -/

/-- At a valid position `TrackAt` adds nothing and returns the pointer stored there. -/
theorem TrackList.TrackAt_of_at {m : Memory} {this : Nat} {l : TrackList} {n : Int} {p : Nat}
    (h : m.list? this = some l) (hat : QVector.at l.tracks_ n = some p) :
    TrackList.TrackAt m this n = some (m, p) := by
  have hin : 0 ≤ n ∧ n < QVector.size l.tracks_ := by
    by_contra hc
    simp only [QVector.at, if_neg hc] at hat
    cases hat
  obtain ⟨q, hq, heq⟩ := TrackList.TrackAt_eq h hin.1
  have hsz := hin.2
  simp only [QVector.size] at hsz
  have hk : (n + 1 - (l.tracks_.length : Int)).toNat = 0 := by omega
  rw [hk] at hq heq
  simp only [List.range'_zero, List.append_nil] at hq
  simp only [QVector.at, if_pos hin] at hat
  rw [hat] at hq
  cases hq
  rw [heq, Memory.grown_zero h]

/-- C18: on a live collection with at least one track, `First()` returns the pointer
at position 0 and `Last()` the pointer at position `count - 1`, the same pointers
that `TrackAt(0)` and `TrackAt(count - 1)` return without changing the memory; and
in every state reached from construction by `AddTrack`, `RemoveTrack` and `TrackAt`
the collection has at least one track, so neither call is outside its
precondition. -/
theorem TrackList.First_Last_spec (m : Memory) (this : Nat) (l : TrackList)
    (h : m.list? this = some l) :
    (1 ≤ QVector.size l.tracks_ →
      ∃ f la, TrackList.First m this = some f ∧ TrackList.Last m this = some la ∧
        QVector.at l.tracks_ 0 = some f ∧
        QVector.at l.tracks_ (QVector.size l.tracks_ - 1) = some la ∧
        TrackList.TrackAt m this 0 = some (m, f) ∧
        TrackList.TrackAt m this (QVector.size l.tracks_ - 1) = some (m, la)) ∧
    (Reachable this m → 1 ≤ QVector.size l.tracks_) := by
  constructor
  · intro hK
    simp only [QVector.size] at hK
    have h0 : 0 < l.tracks_.length := by omega
    have hlast : l.tracks_.length - 1 < l.tracks_.length := by omega
    have hat0 : QVector.at l.tracks_ 0 = some (l.tracks_.get ⟨0, h0⟩) := by
      have := QVector.at_natCast l.tracks_ 0
      simp only [Nat.cast_zero] at this
      rw [this, List.getElem?_eq_getElem h0]; rfl
    have hatl : QVector.at l.tracks_ (QVector.size l.tracks_ - 1) =
        some (l.tracks_.get ⟨l.tracks_.length - 1, hlast⟩) := by
      have := QVector.at_natCast l.tracks_ (l.tracks_.length - 1)
      have e : ((l.tracks_.length - 1 : Nat) : Int) = QVector.size l.tracks_ - 1 := by
        simp only [QVector.size]; omega
      rw [e] at this
      rw [this, List.getElem?_eq_getElem hlast]; rfl
    refine ⟨_, _, ?_, ?_, hat0, hatl, TrackList.TrackAt_of_at h hat0,
      TrackList.TrackAt_of_at h hatl⟩
    · simp only [TrackList.First, h, QVector.first]
      rw [List.head?_eq_getElem?, List.getElem?_eq_getElem h0]; rfl
    · simp only [TrackList.Last, h, QVector.last]
      rw [List.getLast?_eq_getElem?, List.getElem?_eq_getElem hlast]; rfl
  · intro hr
    obtain ⟨l2, hl2, hlen⟩ := Reachable.live_nonempty hr
    rw [h] at hl2
    cases hl2
    simp only [QVector.size]
    omega

/-- Witness of `TrackList.First_Last_spec`: the collection `[1, 3]`. -/
theorem TrackList.First_Last_spec_witness :
    ∃ f la, TrackList.First ⟨[⟨1, .video, []⟩, ⟨1, .video, []⟩, ⟨1, .video, []⟩],
        [⟨7, .video, [1, 3]⟩], [1, 1, 1, 1]⟩ 1 = some f ∧
      TrackList.Last ⟨[⟨1, .video, []⟩, ⟨1, .video, []⟩, ⟨1, .video, []⟩],
        [⟨7, .video, [1, 3]⟩], [1, 1, 1, 1]⟩ 1 = some la ∧
      QVector.at [1, 3] 0 = some f ∧ QVector.at [1, 3] (QVector.size [1, 3] - 1) = some la :=
  match (TrackList.First_Last_spec ⟨[⟨1, .video, []⟩, ⟨1, .video, []⟩, ⟨1, .video, []⟩],
      [⟨7, .video, [1, 3]⟩], [1, 1, 1, 1]⟩ 1 ⟨7, .video, [1, 3]⟩ (by decide)).1 (by decide) with
  | ⟨f, la, h1, h2, h3, h4, _⟩ => ⟨f, la, h1, h2, h3, h4⟩

/-! ## The scenario of the spec -/

/-- C19: construction with kind video gives count 1 with the track `a = 1`; two
`AddTrack()` calls give count 3 with the tracks `[1, 2, 3]`; `RemoveTrack(1)` gives
count 2 with the tracks `[1, 3]`; `copy(9)` then returns a new collection of kind
video and count 2 whose tracks `[5, 6]` are new objects, different from 1 and 3,
equal to the tracks 1 and 3 with the new collection as owner. -/
theorem TrackList.scenario :
    TrackList.create Memory.empty 7 .video =
      some (⟨[⟨1, .video, []⟩], [⟨7, .video, [1]⟩], [1]⟩, 1) ∧
    TrackList.TrackCount ⟨[⟨1, .video, []⟩], [⟨7, .video, [1]⟩], [1]⟩ 1 = some 1 ∧
    TrackList.AddTrack ⟨[⟨1, .video, []⟩], [⟨7, .video, [1]⟩], [1]⟩ 1 =
      some ⟨[⟨1, .video, []⟩, ⟨1, .video, []⟩], [⟨7, .video, [1, 2]⟩], [1, 1]⟩ ∧
    TrackList.AddTrack ⟨[⟨1, .video, []⟩, ⟨1, .video, []⟩], [⟨7, .video, [1, 2]⟩], [1, 1]⟩ 1 =
      some ⟨[⟨1, .video, []⟩, ⟨1, .video, []⟩, ⟨1, .video, []⟩], [⟨7, .video, [1, 2, 3]⟩],
        [1, 1, 1]⟩ ∧
    TrackList.TrackCount ⟨[⟨1, .video, []⟩, ⟨1, .video, []⟩, ⟨1, .video, []⟩],
      [⟨7, .video, [1, 2, 3]⟩], [1, 1, 1]⟩ 1 = some 3 ∧
    TrackList.RemoveTrack ⟨[⟨1, .video, []⟩, ⟨1, .video, []⟩, ⟨1, .video, []⟩],
      [⟨7, .video, [1, 2, 3]⟩], [1, 1, 1]⟩ 1 1 =
      some ⟨[⟨1, .video, []⟩, ⟨1, .video, []⟩, ⟨1, .video, []⟩], [⟨7, .video, [1, 3]⟩],
        [1, 1, 1, 1]⟩ ∧
    TrackList.TrackCount ⟨[⟨1, .video, []⟩, ⟨1, .video, []⟩, ⟨1, .video, []⟩],
      [⟨7, .video, [1, 3]⟩], [1, 1, 1, 1]⟩ 1 = some 2 ∧
    TrackList.tracks ⟨[⟨1, .video, []⟩, ⟨1, .video, []⟩, ⟨1, .video, []⟩],
      [⟨7, .video, [1, 3]⟩], [1, 1, 1, 1]⟩ 1 = some [1, 3] ∧
    ∃ m5, TrackList.copy ⟨[⟨1, .video, []⟩, ⟨1, .video, []⟩, ⟨1, .video, []⟩],
        [⟨7, .video, [1, 3]⟩], [1, 1, 1, 1]⟩ 1 9 = some (m5, 2) ∧
      TrackList.TrackCount m5 2 = some 2 ∧ TrackList.type m5 2 = some .video ∧
      TrackList.GetParent m5 2 = some 9 ∧
      TrackList.tracks m5 2 = some [5, 6] ∧ TrackList.tracks m5 1 = some [1, 3] ∧
      m5.track? 1 = some ⟨1, .video, []⟩ ∧ m5.track? 3 = some ⟨1, .video, []⟩ ∧
      m5.track? 5 = some { (⟨1, .video, []⟩ : Track) with parent := 2 } ∧
      m5.track? 6 = some { (⟨1, .video, []⟩ : Track) with parent := 2 } := by
  refine ⟨by decide, by decide, by decide, by decide, by decide, by decide, by decide,
    by decide, ⟨[⟨1, .video, []⟩, ⟨1, .video, []⟩, ⟨1, .video, []⟩, ⟨2, .video, []⟩,
      ⟨2, .video, []⟩, ⟨2, .video, []⟩], [⟨7, .video, [1, 3]⟩, ⟨9, .video, [5, 6]⟩],
      [1, 1, 1, 1, 2]⟩, by decide, by decide, by decide, by decide, by decide, by decide,
    by decide, by decide, by decide, by decide⟩

/-! ## `copy` followed by `Save` -/

/-- What `Save` writes, from the track objects behind the pointers of the list. -/
theorem TrackList.Save_of_tracks (trackSave : Track → List XmlToken) {m : Memory} {this : Nat}
    {l : TrackList} {ts : List Track} (stream : List XmlToken)
    (h : m.list? this = some l) (hts : l.tracks_.map m.track? = ts.map some) :
    TrackList.Save trackSave m this stream =
      some (stream ++ [XmlToken.writeStartElement "Tracks"] ++ ts.flatMap trackSave ++
        [XmlToken.writeEndElement]) := by
  have hc : m.trackCount this = l.tracks_.length := by simp [Memory.trackCount, h]
  have hloop := TrackList.Save_loop_eq trackSave h hts l.tracks_.length 0
    (stream ++ [XmlToken.writeStartElement "Tracks"]) (by omega)
  simp only [Nat.cast_zero, List.drop_zero] at hloop
  simp only [TrackList.Save, h, hc, hloop]

/-- After `copy`, the pointer at position `i` of the new list leads to the source
track `ts[i]` with the new list as owner. -/
theorem Memory.track?_copying_clone (m : Memory) (parent : Nat) (type : TrackType)
    (ts : List Track) (rest : List Nat) (i : Nat) (hi : i < ts.length) :
    (m.copying parent type ts rest ts.length).track? (m.trackObjs.length + 2 + i) =
      some { ts.get ⟨i, hi⟩ with parent := m.listObjs.length + 1 } := by
  simp only [Memory.track?, nullptr, Memory.copying]
  rw [if_neg (by omega), List.getElem?_append_right (by omega)]
  have e : m.trackObjs.length + 2 + i - 1 - m.trackObjs.length = i + 1 := by omega
  rw [e, List.getElem?_cons_succ, List.take_of_length_le (le_refl _), List.getElem?_map,
    List.getElem?_eq_getElem hi]
  rfl

/-- After `copy`, the pointers of the new list lead, position by position, to the
source tracks with the new list as owner. -/
theorem Memory.tracks_copying (m : Memory) (parent : Nat) (type : TrackType)
    (ts : List Track) (rest : List Nat) :
    (List.range' (m.trackObjs.length + 2) ts.length).map
        (m.copying parent type ts rest ts.length).track? =
      (ts.map (fun x => { x with parent := m.listObjs.length + 1 })).map some := by
  apply List.ext_getElem?
  intro i
  by_cases hi : i < ts.length
  · rw [List.getElem?_map, List.getElem?_range' _ _ hi, List.getElem?_map, List.getElem?_map,
      List.getElem?_eq_getElem hi]
    simp only [Option.map_some', Nat.one_mul]
    rw [Memory.track?_copying_clone m parent type ts rest i hi]
    rfl
  · rw [List.getElem?_eq_none (by simp; omega), List.getElem?_eq_none (by simp; omega)]

/-- C12: on a live source whose pointers lead to the track objects `ts`, and when
what a track writes does not depend on its owner (so a clone writes what its
original writes), `copy` returns a new collection and `Save` on it writes exactly
what `Save` on the source writes, before and after the copy: the same element
"Tracks" with the same children in the same order. -/
theorem TrackList.copy_Save_roundtrip (trackSave : Track → List XmlToken) (m : Memory)
    (this : Nat) (l : TrackList) (ts : List Track) (parent : Nat) (stream : List XmlToken)
    (h : m.list? this = some l) (hts : l.tracks_.map m.track? = ts.map some)
    (hsave : ∀ x ∈ ts, ∀ owner : Nat, trackSave { x with parent := owner } = trackSave x) :
    ∃ m2 t out, TrackList.copy m this parent = some (m2, t) ∧
      TrackList.Save trackSave m this stream = some out ∧
      TrackList.Save trackSave m2 t stream = some out ∧
      TrackList.Save trackSave m2 this stream = some out ∧
      out = stream ++ [XmlToken.writeStartElement "Tracks"] ++ ts.flatMap trackSave ++
        [XmlToken.writeEndElement] := by
  have hlen : l.tracks_.length = ts.length := by
    have := congrArg List.length hts
    simpa using this
  have hrest : ([m.trackObjs.length + 1].take l.tracks_.length ++
      List.replicate (l.tracks_.length - 1) nullptr).length = l.tracks_.length := by
    simp only [List.length_append, List.length_take, List.length_replicate, List.length_singleton]
    omega
  have hl2 := Memory.list?_copying_new m parent l.type_ ts
    ([m.trackObjs.length + 1].take l.tracks_.length ++
      List.replicate (l.tracks_.length - 1) nullptr) l.tracks_.length
  rw [List.drop_eq_nil_of_le (le_of_eq hrest), List.append_nil] at hl2
  have hsrc := Memory.list?_copying_source parent l.type_ ts
    ([m.trackObjs.length + 1].take l.tracks_.length ++
      List.replicate (l.tracks_.length - 1) nullptr) l.tracks_.length h
  have hts2 := Memory.tracks_copying m parent l.type_ ts
    ([m.trackObjs.length + 1].take l.tracks_.length ++
      List.replicate (l.tracks_.length - 1) nullptr)
  rw [← hlen] at hts2
  have hts3 : l.tracks_.map (m.copying parent l.type_ ts
      ([m.trackObjs.length + 1].take l.tracks_.length ++
        List.replicate (l.tracks_.length - 1) nullptr) l.tracks_.length).track? =
      ts.map some := by
    rw [← hts]
    apply List.map_congr_left
    intro q hq
    obtain ⟨j, hj, hje⟩ := List.getElem_of_mem hq
    obtain ⟨_, hd⟩ := Memory.track?_of_map_eq hts j hj
    rw [List.get_eq_getElem, hje] at hd
    rw [hd]
    exact Memory.track?_append_old _ _ _ hd
  have hflat : (ts.map (fun x => { x with parent := m.listObjs.length + 1 })).flatMap trackSave =
      ts.flatMap trackSave := by
    simp only [List.flatMap, List.map_map]
    congr 1
    apply List.map_congr_left
    intro x hx
    exact hsave x hx _
  refine ⟨_, _, _, TrackList.copy_eq parent h hts, TrackList.Save_of_tracks trackSave stream h hts,
    ?_, TrackList.Save_of_tracks trackSave stream hsrc hts3, rfl⟩
  rw [TrackList.Save_of_tracks trackSave stream hl2 hts2, hflat]

/-- Witness of `TrackList.copy_Save_roundtrip`: two audio tracks with content `[10]`
and `[20]`, each written as its content. -/
theorem TrackList.copy_Save_roundtrip_witness :
    ∃ m2 t out, TrackList.copy
        ⟨[⟨1, .audio, [10]⟩, ⟨1, .audio, [20]⟩], [⟨7, .audio, [1, 2]⟩], [1, 1]⟩ 1 9 =
        some (m2, t) ∧
      TrackList.Save (fun x => x.clips_.map XmlToken.other)
        ⟨[⟨1, .audio, [10]⟩, ⟨1, .audio, [20]⟩], [⟨7, .audio, [1, 2]⟩], [1, 1]⟩ 1 [] =
        some out ∧
      TrackList.Save (fun x => x.clips_.map XmlToken.other) m2 t [] = some out :=
  match TrackList.copy_Save_roundtrip (fun x => x.clips_.map XmlToken.other)
      ⟨[⟨1, .audio, [10]⟩, ⟨1, .audio, [20]⟩], [⟨7, .audio, [1, 2]⟩], [1, 1]⟩ 1
      ⟨7, .audio, [1, 2]⟩ [⟨1, .audio, [10]⟩, ⟨1, .audio, [20]⟩] 9 [] (by decide) (by decide)
      (fun _ _ _ => rfl) with
  | ⟨m2, t, out, h1, h2, h3, _⟩ => ⟨m2, t, out, h1, h2, h3⟩

/-! ## Every slot holds a live track of the type of the list -/

theorem Memory.list?_set_table {m : Memory} {this : Nat} {l : TrackList} (l2 : TrackList)
    (ts : List Track) (sig : List Nat) (h : m.list? this = some l) (q : Nat) :
    (Memory.mk ts (m.listObjs.set (this - 1) l2) sig).list? q =
      if q = this then some l2 else m.list? q := by
  obtain ⟨hp, hlt, _⟩ := Memory.list?_eq_some h
  by_cases hq : q = this
  · subst hq
    simp [Memory.list?, hp, hlt]
  · rw [if_neg hq]
    unfold Memory.list?
    by_cases hq0 : q = nullptr
    · simp [hq0]
    · simp only [hq0, if_false]
      rw [List.getElem?_set_ne]
      unfold nullptr at hp hq0
      omega

theorem Memory.list?_append_table (m : Memory) (new : TrackList) (ts : List Track)
    (sig : List Nat) (q : Nat) :
    (Memory.mk ts (m.listObjs ++ [new]) sig).list? q =
      if q = m.listObjs.length + 1 then some new else m.list? q := by
  unfold Memory.list?
  by_cases hq0 : q = nullptr
  · unfold nullptr at hq0
    subst hq0
    simp [nullptr]
  · unfold nullptr at hq0
    simp only [nullptr, hq0, if_false]
    by_cases hq : q = m.listObjs.length + 1
    · subst hq
      simp
    · rw [if_neg hq]
      by_cases hlt : q - 1 < m.listObjs.length
      · rw [List.getElem?_append_left hlt]
      · rw [List.getElem?_eq_none (by simp; omega), List.getElem?_eq_none (by omega)]

theorem Memory.slotsLive_of_extends {m m2 : Memory} {l : TrackList}
    (hext : ∀ p x, m.track? p = some x → m2.track? p = some x) (hl : m.slotsLive l) :
    m2.slotsLive l := by
  intro p hp
  obtain ⟨x, hx, ht⟩ := hl p hp
  exact ⟨x, hext p x hx, ht⟩

theorem Memory.list?_grown_other {m : Memory} {this : Nat} {l : TrackList} (k : Nat)
    (h : m.list? this = some l) {q : Nat} (hq : q ≠ this) :
    (m.grown this l k).list? q = m.list? q := by
  have := Memory.list?_set_table
    { l with tracks_ := l.tracks_ ++ List.range' (m.trackObjs.length + 1) k }
    (m.trackObjs ++ List.replicate k { parent := this, type_ := l.type_, clips_ := [] })
    (m.signals ++ List.replicate k this) h q
  rw [if_neg hq] at this
  exact this

theorem Memory.slotsLive_grown {m : Memory} {this : Nat} {l : TrackList} (k : Nat)
    (hl : m.slotsLive l) :
    (m.grown this l k).slotsLive
      { l with tracks_ := l.tracks_ ++ List.range' (m.trackObjs.length + 1) k } := by
  intro p hp
  simp only [List.mem_append] at hp
  rcases hp with hp | hp
  · obtain ⟨x, hx, ht⟩ := hl p hp
    exact ⟨x, Memory.track?_grown_old k hx, ht⟩
  · obtain ⟨d, hlt, hd⟩ := List.mem_range'.mp hp
    rw [Nat.one_mul] at hd
    rw [hd]
    exact ⟨_, (Memory.track?_grown_new m this l k d hlt).2, rfl⟩

/-- The result of `AddTrack` is the memory grown by one track. -/
theorem TrackList.AddTrack_eq_grown {m : Memory} {this : Nat} {l : TrackList}
    (h : m.list? this = some l) : TrackList.AddTrack m this = some (m.grown this l 1) :=
  TrackList.AddTrack_eq h

theorem TrackList.AddTrack_live {m m2 : Memory} {this : Nat}
    (h : TrackList.AddTrack m this = some m2) : ∃ l, m.list? this = some l := by
  unfold TrackList.AddTrack at h
  cases hl : m.list? this with
  | none => simp [hl] at h
  | some l => exact ⟨l, rfl⟩

theorem TrackList.RemoveTrack_live {m m2 : Memory} {this : Nat} {i : Int}
    (h : TrackList.RemoveTrack m this i = some m2) : ∃ l, m.list? this = some l := by
  unfold TrackList.RemoveTrack at h
  cases hl : m.list? this with
  | none => simp [hl] at h
  | some l => exact ⟨l, rfl⟩

theorem TrackList.TrackAt_live {m m2 : Memory} {this : Nat} {n : Int} {p : Nat}
    (h : TrackList.TrackAt m this n = some (m2, p)) : ∃ l, m.list? this = some l := by
  cases hl : m.list? this with
  | some l => exact ⟨l, rfl⟩
  | none =>
    have hloop : ∀ fuel, TrackList.TrackAt.loop this n fuel m = none := by
      intro fuel
      cases fuel <;> simp [TrackList.TrackAt.loop, hl]
    simp [TrackList.TrackAt, hloop] at h

theorem TrackList.copy_live {m m2 : Memory} {this parent t : Nat}
    (h : TrackList.copy m this parent = some (m2, t)) : ∃ l, m.list? this = some l := by
  unfold TrackList.copy at h
  cases hl : m.list? this with
  | none => simp [hl] at h
  | some l => exact ⟨l, rfl⟩

/-- What a `RemoveTrack` that returns has done to the collection: nothing, or
erased one position; track objects are untouched and other lists unchanged. -/
theorem TrackList.RemoveTrack_cases {m m2 : Memory} {this : Nat} {i : Int} {l : TrackList}
    (h : m.list? this = some l) (hrm : TrackList.RemoveTrack m this i = some m2) :
    m2.trackObjs = m.trackObjs ∧ (∀ q, q ≠ this → m2.list? q = m.list? q) ∧
      (m2.list? this = some l ∨
        m2.list? this = some { l with tracks_ := l.tracks_.eraseIdx i.toNat }) := by
  by_cases h1 : l.tracks_.length = 1
  · rw [TrackList.RemoveTrack_of_single h h1] at hrm
    cases hrm
    exact ⟨rfl, fun _ _ => rfl, Or.inl h⟩
  · by_cases hin : 0 ≤ i ∧ i < (l.tracks_.length : Int)
    · rw [TrackList.RemoveTrack_of_valid h h1 hin.1 hin.2] at hrm
      cases hrm
      refine ⟨rfl, ?_, Or.inr (Memory.list?_setList_self _ h)⟩
      intro q hq
      have := Memory.list?_set_table { l with tracks_ := l.tracks_.eraseIdx i.toNat }
        m.trackObjs (m.signals ++ [this]) h q
      rw [if_neg hq] at this
      exact this
    · rw [TrackList.RemoveTrack_of_invalid h h1 (by omega)] at hrm
      cases hrm

theorem Memory.track?_of_trackObjs_eq {m m2 : Memory} (h : m2.trackObjs = m.trackObjs) (p : Nat) :
    m2.track? p = m.track? p := by
  simp only [Memory.track?, h]

theorem Memory.slotsLive_eraseIdx {m : Memory} {l : TrackList} (k : Nat) (hl : m.slotsLive l) :
    m.slotsLive { l with tracks_ := l.tracks_.eraseIdx k } := by
  intro p hp
  exact hl p (List.mem_of_mem_eraseIdx hp)

/-- The calls of `Calls` keep the collection live, its type fixed and its slots
live tracks of that type. -/
theorem Calls.preserves {this : Nat} {kind : TrackType} {m1 m : Memory}
    (h1 : ∃ l, m1.list? this = some l ∧ l.type_ = kind ∧ m1.slotsLive l)
    (hc : Calls this m1 m) :
    ∃ l, m.list? this = some l ∧ l.type_ = kind ∧ m.slotsLive l := by
  induction hc with
  | start => exact h1
  | addTrack m m2 _ ha ih =>
    obtain ⟨l, hl, hk, hs⟩ := ih
    rw [TrackList.AddTrack_eq_grown hl] at ha
    cases ha
    exact ⟨_, Memory.list?_grown 1 hl, hk, Memory.slotsLive_grown 1 hs⟩
  | removeTrack m m2 i _ _ hrm ih =>
    obtain ⟨l, hl, hk, hs⟩ := ih
    obtain ⟨hobjs, _, hcase⟩ := TrackList.RemoveTrack_cases hl hrm
    have hext : ∀ p x, m.track? p = some x → m2.track? p = some x := by
      intro p x hx
      rw [Memory.track?_of_trackObjs_eq hobjs]
      exact hx
    rcases hcase with hsame | herased
    · exact ⟨l, hsame, hk, Memory.slotsLive_of_extends hext hs⟩
    · exact ⟨_, herased, hk,
        Memory.slotsLive_of_extends hext (Memory.slotsLive_eraseIdx i.toNat hs)⟩
  | trackAt m m2 n p _ h0 hat ih =>
    obtain ⟨l, hl, hk, hs⟩ := ih
    obtain ⟨q, _, heq⟩ := TrackList.TrackAt_eq hl h0
    rw [hat] at heq
    simp only [Option.some.injEq, Prod.mk.injEq] at heq
    rw [heq.1]
    exact ⟨_, Memory.list?_grown _ hl, hk, Memory.slotsLive_grown _ hs⟩

/-- The state after construction: the new list is live, of the given type, and its
one slot holds a live track of that type. -/
theorem TrackList.create_slotsLive {m0 m1 : Memory} {parent this : Nat} {kind : TrackType}
    (hc : TrackList.create m0 parent kind = some (m1, this)) :
    ∃ l, m1.list? this = some l ∧ l.type_ = kind ∧ m1.slotsLive l := by
  rw [TrackList.create_eq] at hc
  simp only [Option.some.injEq, Prod.mk.injEq] at hc
  obtain ⟨hm, ht⟩ := hc
  subst hm
  subst ht
  refine ⟨{ parent := parent, type_ := kind, tracks_ := [m0.trackObjs.length + 1] },
    by simp [Memory.list?, nullptr], rfl, ?_⟩
  intro p hp
  simp only [List.mem_singleton] at hp
  subst hp
  exact ⟨_, Memory.track?_append_new m0 _ [] _ _, rfl⟩

/-! ## Kind uniformity -/

/-- C16: in every state reached from `Construct(parent, kind)` by calls of `AddTrack`,
`RemoveTrack` with a valid position and `TrackAt` with a non-negative index, `type()`
still returns `kind`, and every pointer held leads to a live track whose type is
`kind`. -/
theorem TrackList.kind_uniform (m0 : Memory) (parent : Nat) (kind : TrackType) (m1 : Memory)
    (this : Nat) (m : Memory) (hc : TrackList.create m0 parent kind = some (m1, this))
    (hcalls : Calls this m1 m) :
    TrackList.type m this = some kind ∧
    ∃ l, m.list? this = some l ∧
      ∀ p ∈ l.tracks_, ∃ x, m.track? p = some x ∧ x.type_ = kind := by
  obtain ⟨l, hl, hk, hs⟩ := Calls.preserves (TrackList.create_slotsLive hc) hcalls
  refine ⟨by simp [TrackList.type, hl, hk], l, hl, ?_⟩
  intro p hp
  obtain ⟨x, hx, ht⟩ := hs p hp
  exact ⟨x, hx, ht.trans hk⟩

/-- Witness of `TrackList.kind_uniform`: an audio collection after `AddTrack()`,
`TrackAt(2)` and `RemoveTrack(0)`. -/
theorem TrackList.kind_uniform_witness :
    TrackList.create Memory.empty 7 .audio =
      some (⟨[⟨1, .audio, []⟩], [⟨7, .audio, [1]⟩], [1]⟩, 1) ∧
    Calls 1 ⟨[⟨1, .audio, []⟩], [⟨7, .audio, [1]⟩], [1]⟩
      ⟨[⟨1, .audio, []⟩, ⟨1, .audio, []⟩, ⟨1, .audio, []⟩], [⟨7, .audio, [2, 3]⟩],
        [1, 1, 1, 1]⟩ ∧
    TrackList.type ⟨[⟨1, .audio, []⟩, ⟨1, .audio, []⟩, ⟨1, .audio, []⟩],
      [⟨7, .audio, [2, 3]⟩], [1, 1, 1, 1]⟩ 1 = some .audio :=
  have hc : TrackList.create Memory.empty 7 .audio =
      some (⟨[⟨1, .audio, []⟩], [⟨7, .audio, [1]⟩], [1]⟩, 1) := by decide
  have h1 : Calls 1 ⟨[⟨1, .audio, []⟩], [⟨7, .audio, [1]⟩], [1]⟩
      ⟨[⟨1, .audio, []⟩, ⟨1, .audio, []⟩], [⟨7, .audio, [1, 2]⟩], [1, 1]⟩ :=
    Calls.addTrack _ _ Calls.start (by decide)
  have h2 : Calls 1 ⟨[⟨1, .audio, []⟩], [⟨7, .audio, [1]⟩], [1]⟩
      ⟨[⟨1, .audio, []⟩, ⟨1, .audio, []⟩, ⟨1, .audio, []⟩], [⟨7, .audio, [1, 2, 3]⟩],
        [1, 1, 1]⟩ :=
    Calls.trackAt _ _ 2 3 h1 (by decide) (by decide)
  have h3 : Calls 1 ⟨[⟨1, .audio, []⟩], [⟨7, .audio, [1]⟩], [1]⟩
      ⟨[⟨1, .audio, []⟩, ⟨1, .audio, []⟩, ⟨1, .audio, []⟩], [⟨7, .audio, [2, 3]⟩],
        [1, 1, 1, 1]⟩ :=
    Calls.removeTrack _ _ 0 h2 ⟨3, by decide, by decide, by decide⟩ (by decide)
  ⟨hc, h3, (TrackList.kind_uniform Memory.empty 7 .audio _ 1 _ hc h3).1⟩

/-! ## `TrackAt` never returns an absent track -/

theorem Memory.tracks_of_live (m : Memory) (kind : TrackType) :
    ∀ ps : List Nat, (∀ p ∈ ps, ∃ x, m.track? p = some x ∧ x.type_ = kind) →
      ∃ ts : List Track, ps.map m.track? = ts.map some ∧ ∀ x ∈ ts, x.type_ = kind := by
  intro ps
  induction ps with
  | nil => intro _; exact ⟨[], rfl, by simp⟩
  | cons p ps ih =>
    intro h
    obtain ⟨x, hx, hk⟩ := h p (List.mem_cons_self _ _)
    obtain ⟨ts, hts, hall⟩ := ih (fun q hq => h q (List.mem_cons_of_mem _ hq))
    refine ⟨x :: ts, by simp [hx, hts], ?_⟩
    intro y hy
    rcases List.mem_cons.mp hy with hy | hy
    · rw [hy]; exact hk
    · exact hall y hy

/-- In a reachable memory every slot of every list holds a live track of the type
of the list. -/
theorem ReachableMemory.all_slotsLive {m : Memory} (hr : ReachableMemory m) :
    ∀ q l, m.list? q = some l → m.slotsLive l := by
  induction hr with
  | empty =>
    intro q l hq
    simp [Memory.list?, Memory.empty] at hq
  | create m m2 parent type t _ hc ih =>
    rw [TrackList.create_eq] at hc
    simp only [Option.some.injEq, Prod.mk.injEq] at hc
    obtain ⟨hm, _⟩ := hc
    subst hm
    intro q l2 hq
    rw [Memory.list?_append_table] at hq
    by_cases hnew : q = m.listObjs.length + 1
    · rw [if_pos hnew] at hq
      cases hq
      intro p hp
      simp only [List.mem_singleton] at hp
      subst hp
      exact ⟨_, Memory.track?_append_new m _ [] _ _, rfl⟩
    · rw [if_neg hnew] at hq
      exact Memory.slotsLive_of_extends (fun p x hx => Memory.track?_append_old _ _ _ hx)
        (ih q l2 hq)
  | addTrack m m2 this _ ha ih =>
    obtain ⟨l, hl⟩ := TrackList.AddTrack_live ha
    rw [TrackList.AddTrack_eq_grown hl] at ha
    cases ha
    intro q l2 hq
    by_cases hqt : q = this
    · subst hqt
      rw [Memory.list?_grown 1 hl] at hq
      cases hq
      exact Memory.slotsLive_grown 1 (ih q l hl)
    · rw [Memory.list?_grown_other 1 hl hqt] at hq
      exact Memory.slotsLive_of_extends (fun p x hx => Memory.track?_grown_old 1 hx)
        (ih q l2 hq)
  | removeTrack m m2 this i _ hrm ih =>
    obtain ⟨l, hl⟩ := TrackList.RemoveTrack_live hrm
    obtain ⟨hobjs, hframe, hcase⟩ := TrackList.RemoveTrack_cases hl hrm
    have hext : ∀ p x, m.track? p = some x → m2.track? p = some x := by
      intro p x hx
      rw [Memory.track?_of_trackObjs_eq hobjs]
      exact hx
    intro q l2 hq
    by_cases hqt : q = this
    · subst hqt
      rcases hcase with hsame | herased
      · rw [hsame] at hq
        cases hq
        exact Memory.slotsLive_of_extends hext (ih q l hl)
      · rw [herased] at hq
        cases hq
        exact Memory.slotsLive_of_extends hext (Memory.slotsLive_eraseIdx i.toNat (ih q l hl))
    · rw [hframe q hqt] at hq
      exact Memory.slotsLive_of_extends hext (ih q l2 hq)
  | trackAt m m2 this n p _ h0 hat ih =>
    obtain ⟨l, hl⟩ := TrackList.TrackAt_live hat
    obtain ⟨p2, _, heq⟩ := TrackList.TrackAt_eq hl h0
    rw [hat] at heq
    simp only [Option.some.injEq, Prod.mk.injEq] at heq
    rw [heq.1]
    intro q l2 hq
    by_cases hqt : q = this
    · subst hqt
      rw [Memory.list?_grown _ hl] at hq
      cases hq
      exact Memory.slotsLive_grown _ (ih q l hl)
    · rw [Memory.list?_grown_other _ hl hqt] at hq
      exact Memory.slotsLive_of_extends (fun p x hx => Memory.track?_grown_old _ hx)
        (ih q l2 hq)
  | copy m m2 this parent t _ hcp ih =>
    obtain ⟨l, hl⟩ := TrackList.copy_live hcp
    obtain ⟨ts, hts, hkind⟩ := Memory.tracks_of_live m l.type_ l.tracks_ (ih this l hl)
    have hlen : l.tracks_.length = ts.length := by
      have := congrArg List.length hts
      simpa using this
    rw [TrackList.copy_eq parent hl hts] at hcp
    simp only [Option.some.injEq, Prod.mk.injEq] at hcp
    rw [← hcp.1, hlen]
    intro q l2 hq
    simp only [Memory.copying] at hq
    rw [Memory.list?_append_table] at hq
    by_cases hnew : q = m.listObjs.length + 1
    · rw [if_pos hnew] at hq
      cases hq
      intro p hp
      rw [List.drop_eq_nil_of_le (by
        simp only [List.length_append, List.length_take, List.length_replicate,
          List.length_singleton]
        omega), List.append_nil] at hp
      obtain ⟨d, hlt, hd⟩ := List.mem_range'.mp hp
      rw [Nat.one_mul] at hd
      rw [hd]
      refine ⟨_, Memory.track?_copying_clone m parent l.type_ ts _ d hlt, ?_⟩
      exact hkind (ts.get ⟨d, hlt⟩) (List.get_mem ts d hlt)
    · rw [if_neg hnew] at hq
      exact Memory.slotsLive_of_extends (fun p x hx => Memory.track?_append_old _ _ _ hx)
        (ih q l2 hq)

/-- C13, as amended: in every memory reached through the constructor, `AddTrack`,
`RemoveTrack`, `TrackAt` and `copy` (with `ResizeTrackArray` only as a step inside
`copy`), on every live collection and for every `n ≥ 0`, `TrackAt(n)` returns; its last
element access is within bounds, and the pointer returned is not null and leads to a
live track of the type of the collection. -/
theorem TrackList.TrackAt_returns_live_track (m : Memory) (this : Nat) (l : TrackList)
    (n : Int) (hr : ReachableMemory m) (h : m.list? this = some l) (h0 : 0 ≤ n) :
    ∃ m2 p l2 x, TrackList.TrackAt m this n = some (m2, p) ∧
      m2.list? this = some l2 ∧ QVector.at l2.tracks_ n = some p ∧
      p ≠ nullptr ∧ m2.track? p = some x ∧ x.type_ = l.type_ := by
  obtain ⟨p, hp, heq⟩ := TrackList.TrackAt_eq h h0
  have hlive := @Memory.slotsLive_grown m this l
    (n + 1 - (l.tracks_.length : Int)).toNat (ReachableMemory.all_slotsLive hr this l h)
  have hlt := (List.getElem?_eq_some.mp hp).1
  have hmem : p ∈ l.tracks_ ++ List.range' (m.trackObjs.length + 1)
      (n + 1 - (l.tracks_.length : Int)).toNat := by
    rw [← (List.getElem?_eq_some.mp hp).2]
    exact List.getElem_mem hlt
  obtain ⟨x, hx, hk⟩ := hlive p hmem
  refine ⟨_, p, _, x, heq, Memory.list?_grown _ h, ?_, (Memory.track?_eq_some hx).1, hx, hk⟩
  simp only [QVector.at, QVector.size]
  rw [if_pos ⟨h0, by omega⟩]
  exact hp

/-- Witness of `TrackList.TrackAt_returns_live_track`: the source collection after
construction, `TrackAt(1)` and `copy`, asked for position 3. -/
theorem TrackList.TrackAt_returns_live_track_witness :
    ReachableMemory ⟨[⟨1, .video, []⟩, ⟨1, .video, []⟩, ⟨2, .video, []⟩, ⟨2, .video, []⟩,
        ⟨2, .video, []⟩], [⟨7, .video, [1, 2]⟩, ⟨9, .video, [4, 5]⟩], [1, 1, 2]⟩ ∧
    ∃ m2 p l2 x, TrackList.TrackAt ⟨[⟨1, .video, []⟩, ⟨1, .video, []⟩, ⟨2, .video, []⟩,
        ⟨2, .video, []⟩, ⟨2, .video, []⟩], [⟨7, .video, [1, 2]⟩, ⟨9, .video, [4, 5]⟩],
        [1, 1, 2]⟩ 2 3 = some (m2, p) ∧
      m2.list? 2 = some l2 ∧ QVector.at l2.tracks_ 3 = some p ∧
      p ≠ nullptr ∧ m2.track? p = some x ∧ x.type_ = TrackType.video :=
  have h1 : ReachableMemory ⟨[⟨1, .video, []⟩], [⟨7, .video, [1]⟩], [1]⟩ :=
    ReachableMemory.create Memory.empty _ 7 .video 1 ReachableMemory.empty (by decide)
  have h2 : ReachableMemory ⟨[⟨1, .video, []⟩, ⟨1, .video, []⟩], [⟨7, .video, [1, 2]⟩],
      [1, 1]⟩ :=
    ReachableMemory.trackAt _ _ 1 1 2 h1 (by decide) (by decide)
  have h3 : ReachableMemory ⟨[⟨1, .video, []⟩, ⟨1, .video, []⟩, ⟨2, .video, []⟩,
      ⟨2, .video, []⟩, ⟨2, .video, []⟩], [⟨7, .video, [1, 2]⟩, ⟨9, .video, [4, 5]⟩],
      [1, 1, 2]⟩ :=
    ReachableMemory.copy _ _ 1 9 2 h2 (by decide)
  ⟨h3, TrackList.TrackAt_returns_live_track _ 2 ⟨9, .video, [4, 5]⟩ 3 h3 (by decide)
    (by decide)⟩

/-- C13 as stated fails: after construction and `ResizeTrackArray(3)`, which is among
the operations the claim allows, the collection is `[1, nullptr, nullptr]` and
`TrackAt(1)` returns the null pointer, which leads to no track. -/
theorem TrackList.TrackAt_returns_live_track_counterexample :
    TrackList.create Memory.empty 7 .video =
      some (⟨[⟨1, .video, []⟩], [⟨7, .video, [1]⟩], [1]⟩, 1) ∧
    TrackList.ResizeTrackArray ⟨[⟨1, .video, []⟩], [⟨7, .video, [1]⟩], [1]⟩ 1 3 =
      some ⟨[⟨1, .video, []⟩], [⟨7, .video, [1, 0, 0]⟩], [1]⟩ ∧
    TrackList.TrackAt ⟨[⟨1, .video, []⟩], [⟨7, .video, [1, 0, 0]⟩], [1]⟩ 1 1 =
      some (⟨[⟨1, .video, []⟩], [⟨7, .video, [1, 0, 0]⟩], [1]⟩, nullptr) ∧
    ¬ ∃ m2 p x, TrackList.TrackAt ⟨[⟨1, .video, []⟩], [⟨7, .video, [1, 0, 0]⟩], [1]⟩ 1 1 =
        some (m2, p) ∧ m2.track? p = some x := by
  have hat : TrackList.TrackAt ⟨[⟨1, .video, []⟩], [⟨7, .video, [1, 0, 0]⟩], [1]⟩ 1 1 =
      some (⟨[⟨1, .video, []⟩], [⟨7, .video, [1, 0, 0]⟩], [1]⟩, nullptr) := by decide
  refine ⟨by decide, by decide, hat, ?_⟩
  rintro ⟨m2, p, x, h, hx⟩
  rw [hat] at h
  simp only [Option.some.injEq, Prod.mk.injEq] at h
  rw [← h.1, ← h.2] at hx
  simp [Memory.track?] at hx

/-! ## `copy` when `Track::copy` throws -/

/-- With a `Track::copy` that never throws, the loop of `copyWith` is the loop of
`copy`. -/
theorem TrackList.copyWith_loop_returning (this t : Nat) :
    ∀ (fuel : Nat) (i : Int) (m : Memory),
      TrackList.copyWith.loop Track.copyReturning this t fuel i m =
        match TrackList.copy.loop this t fuel i m with
        | none => none
        | some m3 => some (Outcome.returned m3) := by
  intro fuel
  induction fuel with
  | zero =>
    intro i m
    simp only [TrackList.copyWith.loop, TrackList.copy.loop]
    cases m.list? this with
    | none => rfl
    | some l =>
      by_cases hc : i < QVector.size l.tracks_
      · simp only [if_pos hc]
      · simp only [if_neg hc]
  | succ f ih =>
    intro i m
    simp only [TrackList.copyWith.loop, TrackList.copy.loop]
    cases m.list? this with
    | none => rfl
    | some l =>
      by_cases hc : i < QVector.size l.tracks_
      · simp only [if_pos hc]
        cases QVector.at l.tracks_ i with
        | none => rfl
        | some src =>
          simp only [Track.copyReturning]
          cases Track.copy m src t with
          | none => rfl
          | some r =>
            obtain ⟨m1, c⟩ := r
            simp only
            cases m1.list? t with
            | none => rfl
            | some lt =>
              simp only
              cases QVector.assign lt.tracks_ i c with
              | none => rfl
              | some ts => exact ih _ _
      · simp only [if_neg hc]

/-- With a `Track::copy` that never throws, `copyWith` is `copy`. -/
theorem TrackList.copyWith_returning (m : Memory) (this parent : Nat) :
    TrackList.copyWith Track.copyReturning m this parent =
      match TrackList.copy m this parent with
      | none => none
      | some r => some (Outcome.returned r) := by
  simp only [TrackList.copyWith, TrackList.copy]
  cases m.list? this with
  | none => rfl
  | some l =>
    simp only
    cases TrackList.create m parent l.type_ with
    | none => rfl
    | some r =>
      obtain ⟨m1, t⟩ := r
      simp only
      cases TrackList.ResizeTrackArray m1 t (QVector.size l.tracks_) with
      | none => rfl
      | some m2 =>
        simp only [TrackList.copyWith_loop_returning]
        cases TrackList.copy.loop this t (m2.trackCount this) 0 m2 with
        | none => rfl
        | some m3 => rfl

theorem Memory.list?_of_listObjs_eq {m m2 : Memory} (h : m2.listObjs = m.listObjs) (q : Nat) :
    m2.list? q = m.list? q := by
  simp only [Memory.list?, h]

/-- A throw out of the loop of `copyWith` is a throw of `trackCopy`; at that point the
source list is as it was and the new list `t` is still allocated, with its parent
and type. -/
theorem TrackList.copyWith_loop_threw
    (trackCopy : Memory → Nat → Nat → Option (Outcome (Memory × Nat)))
    (hret : ∀ m0 p t0 m1 c, trackCopy m0 p t0 = some (Outcome.returned (m1, c)) →
      m1.listObjs = m0.listObjs)
    (hthr : ∀ m0 p t0 m1 e, trackCopy m0 p t0 = some (Outcome.threw m1 e) →
      m1.listObjs = m0.listObjs)
    {this t parent : Nat} {ty : TrackType} {l : TrackList} {m3 : Memory} {e : Nat}
    (hne : this ≠ t) :
    ∀ (fuel : Nat) (i : Int) (m : Memory), m.list? this = some l →
      (∃ lt, m.list? t = some lt ∧ lt.parent = parent ∧ lt.type_ = ty) →
      TrackList.copyWith.loop trackCopy this t fuel i m = some (Outcome.threw m3 e) →
      (∃ m0 src, trackCopy m0 src t = some (Outcome.threw m3 e)) ∧
        m3.list? this = some l ∧
        ∃ l2, m3.list? t = some l2 ∧ l2.parent = parent ∧ l2.type_ = ty := by
  intro fuel
  induction fuel with
  | zero =>
    intro i m hl _ hloop
    simp only [TrackList.copyWith.loop, hl] at hloop
    by_cases hc : i < QVector.size l.tracks_
    · simp [if_pos hc] at hloop
    · simp [if_neg hc] at hloop
  | succ f ih =>
    intro i m hl hlt hloop
    obtain ⟨lt, hlt1, hlt2, hlt3⟩ := hlt
    simp only [TrackList.copyWith.loop, hl] at hloop
    by_cases hc : i < QVector.size l.tracks_
    · simp only [if_pos hc] at hloop
      cases hat : QVector.at l.tracks_ i with
      | none => simp [hat] at hloop
      | some src =>
        simp only [hat] at hloop
        cases hcp : trackCopy m src t with
        | none => simp [hcp] at hloop
        | some o =>
          cases o with
          | threw m1 e1 =>
            simp only [hcp, Option.some.injEq, Outcome.threw.injEq] at hloop
            obtain ⟨hm, he⟩ := hloop
            subst hm
            subst he
            have hsame := hthr _ _ _ _ _ hcp
            refine ⟨⟨m, src, hcp⟩, ?_, lt, ?_, hlt2, hlt3⟩
            · rw [Memory.list?_of_listObjs_eq hsame]; exact hl
            · rw [Memory.list?_of_listObjs_eq hsame]; exact hlt1
          | returned r =>
            obtain ⟨m1, c⟩ := r
            have hsame := hret _ _ _ _ _ hcp
            have hlt4 : m1.list? t = some lt := by
              rw [Memory.list?_of_listObjs_eq hsame]; exact hlt1
            simp only [hcp, hlt4] at hloop
            cases has : QVector.assign lt.tracks_ i c with
            | none => simp [has] at hloop
            | some ts =>
              simp only [has] at hloop
              have ht0 : t ≠ nullptr := (Memory.list?_eq_some hlt4).1
              refine ih (i + 1) (m1.setTracks t lt ts) ?_ ?_ hloop
              · have := Memory.list?_setList_other (m := m1) { lt with tracks_ := ts } ht0 hne
                rw [Memory.setTracks, this, Memory.list?_of_listObjs_eq hsame]
                exact hl
              · exact ⟨_, Memory.list?_setList_self _ hlt4, hlt2, hlt3⟩
    · simp [if_neg hc] at hloop

/-- Where a throw out of `copyWith` comes from (`Track::copy` being any function that
leaves the `TrackList` objects alone): the error is the one thrown by a call of
`Track::copy` and the memory is the one at that throw; the source collection is as
it was, and the `TrackList` object that `copyWith` constructed, new in this call, is
still allocated with the new parent as its parent and the type of the source. -/
theorem TrackList.copyWith_threw_origin (trackCopy : Memory → Nat → Nat → Option (Outcome (Memory × Nat)))
    (m : Memory) (this : Nat) (l : TrackList) (parent : Nat) (m3 : Memory) (e : Nat)
    (hret : ∀ m0 p t0 m1 c, trackCopy m0 p t0 = some (Outcome.returned (m1, c)) →
      m1.listObjs = m0.listObjs)
    (hthr : ∀ m0 p t0 m1 e, trackCopy m0 p t0 = some (Outcome.threw m1 e) →
      m1.listObjs = m0.listObjs)
    (h : m.list? this = some l)
    (hthrow : TrackList.copyWith trackCopy m this parent = some (Outcome.threw m3 e)) :
    (∃ m0 src, trackCopy m0 src (m.listObjs.length + 1) = some (Outcome.threw m3 e)) ∧
      m3.list? this = some l ∧
      m.list? (m.listObjs.length + 1) = none ∧
      ∃ l2, m3.list? (m.listObjs.length + 1) = some l2 ∧ l2.parent = parent ∧
        l2.type_ = l.type_ := by
  obtain ⟨hp, hlt, _⟩ := Memory.list?_eq_some h
  have hne : this ≠ m.listObjs.length + 1 := by omega
  have hnew : m.list? (m.listObjs.length + 1) = none := by simp [Memory.list?, nullptr]
  simp only [TrackList.copyWith, h, TrackList.create_eq] at hthrow
  cases hres : TrackList.ResizeTrackArray
      (Memory.mk (m.trackObjs ++ [{ parent := m.listObjs.length + 1, type_ := l.type_, clips_ := [] }])
        (m.listObjs ++ [{ parent := parent, type_ := l.type_, tracks_ := [m.trackObjs.length + 1] }])
        (m.signals ++ [m.listObjs.length + 1]))
      (m.listObjs.length + 1) (QVector.size l.tracks_) with
  | none => simp [hres] at hthrow
  | some m2 =>
    simp only [hres] at hthrow
    have hcreated : ∀ q, (Memory.mk
        (m.trackObjs ++ [{ parent := m.listObjs.length + 1, type_ := l.type_, clips_ := [] }])
        (m.listObjs ++ [{ parent := parent, type_ := l.type_, tracks_ := [m.trackObjs.length + 1] }])
        (m.signals ++ [m.listObjs.length + 1])).list? q =
        if q = m.listObjs.length + 1 then
          some { parent := parent, type_ := l.type_, tracks_ := [m.trackObjs.length + 1] }
        else m.list? q := fun q => Memory.list?_append_table m _ _ _ q
    have hnewlist := hcreated (m.listObjs.length + 1)
    rw [if_pos rfl] at hnewlist
    have hsrc1 := hcreated this
    rw [if_neg hne, h] at hsrc1
    simp only [TrackList.ResizeTrackArray, hnewlist] at hres
    cases hrs : QVector.resize nullptr [m.trackObjs.length + 1] (QVector.size l.tracks_) with
    | none => simp [hrs] at hres
    | some ts =>
      simp only [hrs, Option.some.injEq] at hres
      have ht0 : m.listObjs.length + 1 ≠ nullptr := by unfold nullptr; omega
      have hsrc2 : m2.list? this = some l := by
        rw [← hres, Memory.setTracks, Memory.list?_setList_other _ ht0 hne]
        exact hsrc1
      have hdst2 : ∃ lt, m2.list? (m.listObjs.length + 1) = some lt ∧ lt.parent = parent ∧
          lt.type_ = l.type_ := by
        rw [← hres]
        exact ⟨_, Memory.list?_setList_self _ hnewlist, rfl, rfl⟩
      cases hloop : TrackList.copyWith.loop trackCopy this (m.listObjs.length + 1)
          (m2.trackCount this) 0 m2 with
      | none => simp [hloop] at hthrow
      | some o =>
        cases o with
        | returned m4 => simp [hloop] at hthrow
        | threw m4 e4 =>
          simp only [hloop, Option.some.injEq, Outcome.threw.injEq] at hthrow
          obtain ⟨hm, he⟩ := hthrow
          subst hm
          subst he
          obtain ⟨h1, h2, h3⟩ := TrackList.copyWith_loop_threw trackCopy hret hthr hne _ _ _
            hsrc2 hdst2 hloop
          exact ⟨h1, h2, hnew, h3⟩

theorem Track.copyReturning_listObjs {m0 m1 : Memory} {p t0 c : Nat}
    (h : Track.copyReturning m0 p t0 = some (Outcome.returned (m1, c))) :
    m1.listObjs = m0.listObjs := by
  simp only [Track.copyReturning, Track.copy] at h
  cases hx : m0.track? p with
  | none => simp [hx] at h
  | some x =>
    simp only [hx, Option.some.injEq, Outcome.returned.injEq, Prod.mk.injEq] at h
    rw [← h.1]

theorem Track.copyReturning_never_threw {m0 m1 : Memory} {p t0 e : Nat} :
    Track.copyReturning m0 p t0 ≠ some (Outcome.threw m1 e) := by
  simp only [Track.copyReturning]
  cases Track.copy m0 p t0 with
  | none => simp
  | some r => simp

theorem Track.copyFailingAt_returned (bad error : Nat) :
    ∀ m0 p t0 m1 c, Track.copyFailingAt bad error m0 p t0 = some (Outcome.returned (m1, c)) →
      m1.listObjs = m0.listObjs := by
  intro m0 p t0 m1 c h
  unfold Track.copyFailingAt at h
  by_cases hb : p = bad
  · simp [if_pos hb] at h
  · rw [if_neg hb] at h
    exact Track.copyReturning_listObjs h

theorem Track.copyFailingAt_threw (bad error : Nat) :
    ∀ m0 p t0 m1 e, Track.copyFailingAt bad error m0 p t0 = some (Outcome.threw m1 e) →
      m1.listObjs = m0.listObjs := by
  intro m0 p t0 m1 e h
  unfold Track.copyFailingAt at h
  by_cases hb : p = bad
  · simp only [if_pos hb, Option.some.injEq, Outcome.threw.injEq] at h
    rw [← h.1]
  · rw [if_neg hb] at h
    exact absurd h Track.copyReturning_never_threw

/-- The clone made at position `i` of the loop of `copy`, in the memory after `k > i`
iterations. -/
theorem Memory.track?_copying_clone_at (m : Memory) (parent : Nat) (type : TrackType)
    (ts : List Track) (rest : List Nat) (k i : Nat) (hi : i < ts.length) (hik : i < k) :
    (m.copying parent type ts rest k).track? (m.trackObjs.length + 2 + i) =
      some { ts.get ⟨i, hi⟩ with parent := m.listObjs.length + 1 } := by
  simp only [Memory.track?, nullptr, Memory.copying]
  rw [if_neg (by omega), List.getElem?_append_right (by omega)]
  have e : m.trackObjs.length + 2 + i - 1 - m.trackObjs.length = i + 1 := by omega
  rw [e, List.getElem?_cons_succ, List.getElem?_map, List.getElem?_take_of_lt hik,
    List.getElem?_eq_getElem hi]
  rfl

/-- The loop of `copyWith` when the clones of the positions below `k` are made as
`Track.copy` makes them and the clone of position `k` throws: from any position up
to `k` the loop ends with that throw. -/
theorem TrackList.copyWith_loop_throws
    (trackCopy : Memory → Nat → Nat → Option (Outcome (Memory × Nat)))
    {m : Memory} {this : Nat} {l : TrackList} {ts : List Track} (parent : Nat)
    (rest : List Nat) (k : Nat) {m3 : Memory} {e : Nat}
    (h : m.list? this = some l) (hts : l.tracks_.map m.track? = ts.map some)
    (hrest : rest.length = l.tracks_.length) (hk : k < l.tracks_.length)
    (hok : ∀ (i : Nat) (hi : i < l.tracks_.length), i < k → ∀ m0 t0,
      trackCopy m0 (l.tracks_.get ⟨i, hi⟩) t0 =
        Track.copyReturning m0 (l.tracks_.get ⟨i, hi⟩) t0)
    (hthrow : trackCopy (m.copying parent l.type_ ts rest k) (l.tracks_.get ⟨k, hk⟩)
      (m.listObjs.length + 1) = some (Outcome.threw m3 e)) :
    ∀ (fuel i : Nat), l.tracks_.length - i ≤ fuel → i ≤ k →
      TrackList.copyWith.loop trackCopy this (m.listObjs.length + 1) fuel (i : Int)
          (m.copying parent l.type_ ts rest i) = some (Outcome.threw m3 e) := by
  have hlen : l.tracks_.length = ts.length := by
    have := congrArg List.length hts
    simpa using this
  intro fuel
  induction fuel with
  | zero =>
    intro i hf hik
    omega
  | succ f ih =>
    intro i hf hik
    have hi : i < l.tracks_.length := by omega
    have hc : (i : Int) < QVector.size l.tracks_ := by simp only [QVector.size]; omega
    have hat : QVector.at l.tracks_ (i : Int) = some (l.tracks_.get ⟨i, hi⟩) := by
      rw [QVector.at_natCast, List.getElem?_eq_getElem hi]; rfl
    by_cases hkk : i = k
    · subst hkk
      simp only [TrackList.copyWith.loop,
        Memory.list?_copying_source parent l.type_ ts rest i h, if_pos hc, hat, hthrow]
    · obtain ⟨hi2, hderef⟩ := Memory.track?_of_map_eq hts i hi
      have hsrc : (m.copying parent l.type_ ts rest i).track? (l.tracks_.get ⟨i, hi⟩) =
          some (ts.get ⟨i, hi2⟩) := Memory.track?_append_old _ _ _ hderef
      have hcp : trackCopy (m.copying parent l.type_ ts rest i) (l.tracks_.get ⟨i, hi⟩)
          (m.listObjs.length + 1) =
          some (Outcome.returned (Memory.mk
            ((m.copying parent l.type_ ts rest i).trackObjs ++
              [{ ts.get ⟨i, hi2⟩ with parent := m.listObjs.length + 1 }])
            (m.copying parent l.type_ ts rest i).listObjs
            (m.copying parent l.type_ ts rest i).signals,
            (m.copying parent l.type_ ts rest i).trackObjs.length + 1)) := by
        rw [hok i hi (by omega)]
        simp only [Track.copyReturning, Track.copy, hsrc]
      have hnew : (Memory.mk
          ((m.copying parent l.type_ ts rest i).trackObjs ++
            [{ ts.get ⟨i, hi2⟩ with parent := m.listObjs.length + 1 }])
          (m.copying parent l.type_ ts rest i).listObjs
          (m.copying parent l.type_ ts rest i).signals).list? (m.listObjs.length + 1) =
          some { parent := parent, type_ := l.type_,
                 tracks_ := List.range' (m.trackObjs.length + 2) i ++ rest.drop i } :=
        Memory.list?_copying_new m parent l.type_ ts rest i
      have hassign : QVector.assign
          (List.range' (m.trackObjs.length + 2) i ++ rest.drop i) (i : Int)
          ((m.copying parent l.type_ ts rest i).trackObjs.length + 1) =
          some ((List.range' (m.trackObjs.length + 2) i ++ rest.drop i).set i
            ((m.copying parent l.type_ ts rest i).trackObjs.length + 1)) := by
        simp only [QVector.assign, QVector.size, List.length_append, List.length_range',
          List.length_drop, Int.toNat_ofNat]
        rw [if_pos ⟨by omega, by omega⟩]
      have hnext := ih (i + 1) (by omega) (by omega)
      simp only [TrackList.copyWith.loop,
        Memory.list?_copying_source parent l.type_ ts rest i h, if_pos hc, hat, hcp, hnew,
        hassign]
      rw [Memory.copying_step m parent l.type_ ts rest i hi2 (by omega), ← hnext]
      congr 1

/-- The slots of a list made by the constructor and then resized to `K > 0`: the
track of the constructor at position 0, null pointers after it. -/
theorem TrackList.resized_slot (d K i : Nat) (hi : i < K) :
    ([d].take K ++ List.replicate (K - 1) nullptr)[i]? =
      some (if i = 0 then d else nullptr) := by
  have hK : [d].take K = [d] := by
    cases K with
    | zero => omega
    | succ n => simp
  rw [hK]
  cases i with
  | zero => simp
  | succ j =>
    rw [List.getElem?_append_right (by simp), if_neg (by omega)]
    simp only [List.length_singleton, Nat.add_sub_cancel]
    rw [List.getElem?_replicate, if_pos (by omega)]

/-- What `copyWith` gives when the clones of the positions below `k` are made as
`Track.copy` makes them and the clone of position `k` throws in the memory that the
loop has reached there: the throw, as it is. -/
theorem TrackList.copyWith_throws_eq
    (trackCopy : Memory → Nat → Nat → Option (Outcome (Memory × Nat)))
    {m : Memory} {this : Nat} {l : TrackList} {ts : List Track} (parent : Nat)
    (k : Nat) {m3 : Memory} {e : Nat}
    (h : m.list? this = some l) (hts : l.tracks_.map m.track? = ts.map some)
    (hk : k < l.tracks_.length)
    (hok : ∀ (i : Nat) (hi : i < l.tracks_.length), i < k → ∀ m0 t0,
      trackCopy m0 (l.tracks_.get ⟨i, hi⟩) t0 =
        Track.copyReturning m0 (l.tracks_.get ⟨i, hi⟩) t0)
    (hthrow : trackCopy (m.copying parent l.type_ ts
        ([m.trackObjs.length + 1].take l.tracks_.length ++
          List.replicate (l.tracks_.length - 1) nullptr) k) (l.tracks_.get ⟨k, hk⟩)
      (m.listObjs.length + 1) = some (Outcome.threw m3 e)) :
    TrackList.copyWith trackCopy m this parent = some (Outcome.threw m3 e) := by
  have hrest : ([m.trackObjs.length + 1].take l.tracks_.length ++
      List.replicate (l.tracks_.length - 1) nullptr).length = l.tracks_.length := by
    simp only [List.length_append, List.length_take, List.length_replicate, List.length_singleton]
    omega
  have hres : TrackList.ResizeTrackArray
      (Memory.mk (m.trackObjs ++ [{ parent := m.listObjs.length + 1, type_ := l.type_, clips_ := [] }])
        (m.listObjs ++ [{ parent := parent, type_ := l.type_, tracks_ := [m.trackObjs.length + 1] }])
        (m.signals ++ [m.listObjs.length + 1]))
      (m.listObjs.length + 1) (QVector.size l.tracks_) =
      some (m.copying parent l.type_ ts
        ([m.trackObjs.length + 1].take l.tracks_.length ++
          List.replicate (l.tracks_.length - 1) nullptr) 0) := by
    simp [TrackList.ResizeTrackArray, Memory.list?, nullptr, QVector.resize, QVector.size,
      Memory.setTracks, Memory.setList, Memory.copying]
  have hcount : (m.copying parent l.type_ ts
      ([m.trackObjs.length + 1].take l.tracks_.length ++
        List.replicate (l.tracks_.length - 1) nullptr) 0).trackCount this = l.tracks_.length := by
    simp only [Memory.trackCount, Memory.list?_copying_source parent l.type_ ts _ 0 h]
  have hloop := TrackList.copyWith_loop_throws trackCopy parent _ k h hts hrest hk hok hthrow
    l.tracks_.length 0 (by omega) (Nat.zero_le _)
  simp only [Nat.cast_zero] at hloop
  simp only [TrackList.copyWith, h, TrackList.create_eq, hres, hcount, hloop]

/-- C11, as amended: on a live source collection whose pointers lead, position by
position, to the track objects `ts`, let `Track::copy` clone the tracks at the
positions below `k` as `Track.copy` does and throw the error `e` on the track at
position `k`, leaving the `TrackList` objects and the existing track objects as they
are.  Then `copy(parent)` fails with that error `e` and returns nothing; the source
list and every track object that existed are unchanged; but the destination is not
discarded: the `TrackList` object constructed at the start of the call, which did
not exist before, is still allocated, with the new parent, the type of the source
and as many slots as the source; its slots below `k` hold the clones made so far
(new track objects, `ts[i]` with the owner replaced by the new list), and the slots
from `k` on are as the resize left them: the default track of the constructor at
position 0, null pointers elsewhere. -/
theorem TrackList.copyWith_clone_throws
    (trackCopy : Memory → Nat → Nat → Option (Outcome (Memory × Nat)))
    (m : Memory) (this : Nat) (l : TrackList) (ts : List Track) (parent : Nat)
    (k : Nat) (e : Nat)
    (h : m.list? this = some l) (hts : l.tracks_.map m.track? = ts.map some)
    (hk : k < l.tracks_.length)
    (hok : ∀ (i : Nat) (hi : i < l.tracks_.length), i < k → ∀ m0 t0,
      trackCopy m0 (l.tracks_.get ⟨i, hi⟩) t0 =
        Track.copyReturning m0 (l.tracks_.get ⟨i, hi⟩) t0)
    (hthrow : ∀ m0 t0, ∃ m1,
      trackCopy m0 (l.tracks_.get ⟨k, hk⟩) t0 = some (Outcome.threw m1 e) ∧
      m1.listObjs = m0.listObjs ∧ ∀ p x, m0.track? p = some x → m1.track? p = some x) :
    ∃ m3 slots,
      TrackList.copyWith trackCopy m this parent = some (Outcome.threw m3 e) ∧
      m3.list? this = some l ∧
      (∀ p x, m.track? p = some x → m3.track? p = some x) ∧
      m.list? (m.listObjs.length + 1) = none ∧
      m3.list? (m.listObjs.length + 1) =
        some { parent := parent, type_ := l.type_, tracks_ := slots } ∧
      QVector.size slots = QVector.size l.tracks_ ∧
      (∀ i : Nat, ∀ hi : i < ts.length, i < k →
        ∃ c, QVector.at slots (i : Int) = some c ∧ m.track? c = none ∧
          m3.track? c = some { ts.get ⟨i, hi⟩ with parent := m.listObjs.length + 1 }) ∧
      (∀ i : Nat, k ≤ i → i < l.tracks_.length →
        QVector.at slots (i : Int) =
          some (if i = 0 then m.trackObjs.length + 1 else nullptr)) := by
  have hrest : ([m.trackObjs.length + 1].take l.tracks_.length ++
      List.replicate (l.tracks_.length - 1) nullptr).length = l.tracks_.length := by
    simp only [List.length_append, List.length_take, List.length_replicate, List.length_singleton]
    omega
  obtain ⟨m3, hth, hlists, htracks⟩ := hthrow (m.copying parent l.type_ ts
    ([m.trackObjs.length + 1].take l.tracks_.length ++
      List.replicate (l.tracks_.length - 1) nullptr) k) (m.listObjs.length + 1)
  refine ⟨m3, List.range' (m.trackObjs.length + 2) k ++
    ([m.trackObjs.length + 1].take l.tracks_.length ++
      List.replicate (l.tracks_.length - 1) nullptr).drop k,
    TrackList.copyWith_throws_eq trackCopy parent k h hts hk hok hth, ?_, ?_, ?_, ?_, ?_, ?_, ?_⟩
  · rw [Memory.list?_of_listObjs_eq hlists]
    exact Memory.list?_copying_source parent l.type_ ts _ k h
  · intro p x hx
    exact htracks p x (Memory.track?_append_old _ _ _ hx)
  · simp [Memory.list?, nullptr]
  · rw [Memory.list?_of_listObjs_eq hlists]
    exact Memory.list?_copying_new m parent l.type_ ts _ k
  · simp only [QVector.size, List.length_append, List.length_range', List.length_drop, hrest]
    omega
  · intro i hi hik
    refine ⟨m.trackObjs.length + 2 + i, ?_, ?_, ?_⟩
    · rw [QVector.at_natCast,
        List.getElem?_append_left (by simp only [List.length_range']; exact hik),
        List.getElem?_range' _ _ hik, Nat.one_mul]
    · simp only [Memory.track?, nullptr]
      rw [if_neg (by omega)]
      exact List.getElem?_eq_none (by omega)
    · exact htracks _ _ (Memory.track?_copying_clone_at m parent l.type_ ts _ k i hi hik)
  · intro i hki hi
    rw [QVector.at_natCast,
      List.getElem?_append_right (by simp only [List.length_range']; exact hki),
      List.length_range', List.getElem?_drop]
    have e1 : k + (i - k) = i := by omega
    rw [e1]
    exact TrackList.resized_slot _ _ i hi

/-- Witness of `TrackList.copyWith_clone_throws`: two audio tracks, with a
`Track::copy` that throws the error 42 on the second. -/
theorem TrackList.copyWith_clone_throws_witness :
    TrackList.copyWith (Track.copyFailingAt 2 42)
      ⟨[⟨1, .audio, [10]⟩, ⟨1, .audio, [20]⟩], [⟨7, .audio, [1, 2]⟩], [1, 1]⟩ 1 9 =
      some (Outcome.threw ⟨[⟨1, .audio, [10]⟩, ⟨1, .audio, [20]⟩, ⟨2, .audio, []⟩,
        ⟨2, .audio, [10]⟩], [⟨7, .audio, [1, 2]⟩, ⟨9, .audio, [4, 0]⟩], [1, 1, 2]⟩ 42) ∧
    ∃ m3 slots,
      TrackList.copyWith (Track.copyFailingAt 2 42)
        ⟨[⟨1, .audio, [10]⟩, ⟨1, .audio, [20]⟩], [⟨7, .audio, [1, 2]⟩], [1, 1]⟩ 1 9 =
        some (Outcome.threw m3 42) ∧
      m3.list? 1 = some ⟨7, .audio, [1, 2]⟩ ∧
      (∀ p x, (⟨[⟨1, .audio, [10]⟩, ⟨1, .audio, [20]⟩], [⟨7, .audio, [1, 2]⟩], [1, 1]⟩ :
        Memory).track? p = some x → m3.track? p = some x) ∧
      (⟨[⟨1, .audio, [10]⟩, ⟨1, .audio, [20]⟩], [⟨7, .audio, [1, 2]⟩], [1, 1]⟩ :
        Memory).list? 2 = none ∧
      m3.list? 2 = some ⟨9, .audio, slots⟩ ∧
      QVector.size slots = 2 ∧
      (∃ c, QVector.at slots 0 = some c ∧
        (⟨[⟨1, .audio, [10]⟩, ⟨1, .audio, [20]⟩], [⟨7, .audio, [1, 2]⟩], [1, 1]⟩ :
          Memory).track? c = none ∧
        m3.track? c = some ⟨2, .audio, [10]⟩) ∧
      QVector.at slots 1 = some nullptr :=
  have hthm := TrackList.copyWith_clone_throws (Track.copyFailingAt 2 42)
    ⟨[⟨1, .audio, [10]⟩, ⟨1, .audio, [20]⟩], [⟨7, .audio, [1, 2]⟩], [1, 1]⟩ 1
    ⟨7, .audio, [1, 2]⟩ [⟨1, .audio, [10]⟩, ⟨1, .audio, [20]⟩] 9 1 42
    (by decide) (by decide) (by decide)
    (fun i hi hik m0 t0 => by
      have h0 : i = 0 := by omega
      subst h0
      simp [Track.copyFailingAt])
    (fun m0 t0 => ⟨m0, by simp [Track.copyFailingAt], rfl, fun _ _ hx => hx⟩)
  ⟨by decide,
   match hthm with
   | ⟨m3, slots, h1, h2, h3, h4, h5, h6, h7, h8⟩ =>
     ⟨m3, slots, h1, h2, h3, h4, h5, h6, h7 0 (by decide) (by decide),
       h8 1 (by decide) (by decide)⟩⟩

/-- C11 as stated fails: a source of two audio tracks, with a `Track::copy` that
throws the error 42 on the second.  `copy` ends with that throw, and in the memory
at that point the destination, which did not exist before the call, is still
allocated with the new parent 9 and holds the clone of the first track and a null
slot: it has not been discarded. -/
theorem TrackList.copyWith_threw_counterexample :
    TrackList.copyWith (Track.copyFailingAt 2 42)
      ⟨[⟨1, .audio, [10]⟩, ⟨1, .audio, [20]⟩], [⟨7, .audio, [1, 2]⟩], [1, 1]⟩ 1 9 =
      some (Outcome.threw ⟨[⟨1, .audio, [10]⟩, ⟨1, .audio, [20]⟩, ⟨2, .audio, []⟩,
        ⟨2, .audio, [10]⟩], [⟨7, .audio, [1, 2]⟩, ⟨9, .audio, [4, 0]⟩], [1, 1, 2]⟩ 42) ∧
    (⟨[⟨1, .audio, [10]⟩, ⟨1, .audio, [20]⟩], [⟨7, .audio, [1, 2]⟩], [1, 1]⟩ :
      Memory).list? 2 = none ∧
    (⟨[⟨1, .audio, [10]⟩, ⟨1, .audio, [20]⟩, ⟨2, .audio, []⟩, ⟨2, .audio, [10]⟩],
      [⟨7, .audio, [1, 2]⟩, ⟨9, .audio, [4, 0]⟩], [1, 1, 2]⟩ : Memory).list? 2 =
      some ⟨9, .audio, [4, 0]⟩ ∧
    ¬ ∀ m3 e, TrackList.copyWith (Track.copyFailingAt 2 42)
        ⟨[⟨1, .audio, [10]⟩, ⟨1, .audio, [20]⟩], [⟨7, .audio, [1, 2]⟩], [1, 1]⟩ 1 9 =
        some (Outcome.threw m3 e) →
      ∀ q l2, m3.list? q = some l2 →
        (⟨[⟨1, .audio, [10]⟩, ⟨1, .audio, [20]⟩], [⟨7, .audio, [1, 2]⟩], [1, 1]⟩ :
          Memory).list? q = some l2 := by
  have hthrow : TrackList.copyWith (Track.copyFailingAt 2 42)
      ⟨[⟨1, .audio, [10]⟩, ⟨1, .audio, [20]⟩], [⟨7, .audio, [1, 2]⟩], [1, 1]⟩ 1 9 =
      some (Outcome.threw ⟨[⟨1, .audio, [10]⟩, ⟨1, .audio, [20]⟩, ⟨2, .audio, []⟩,
        ⟨2, .audio, [10]⟩], [⟨7, .audio, [1, 2]⟩, ⟨9, .audio, [4, 0]⟩], [1, 1, 2]⟩ 42) := by
    decide
  refine ⟨hthrow, by decide, by decide, ?_⟩
  intro hall
  have := hall _ _ hthrow 2 ⟨9, .audio, [4, 0]⟩ (by decide)
  exact absurd this (by decide)

/-! ## The observing methods -/

theorem TrackList.observe_memory {trackSave : Track → List XmlToken} {m m2 : Memory}
    {this : Nat} {o : Observer} {v : Observed}
    (h : TrackList.observe trackSave m this o = some (m2, v)) : m2 = m := by
  cases o <;> simp only [TrackList.observe] at h
  · cases hs : TrackList.Save trackSave m this ‹_› <;> simp [hs] at h; exact h.1.symm
  · cases hs : TrackList.TrackCount m this <;> simp [hs] at h; exact h.1.symm
  · cases hs : TrackList.IndexOfTrack m this ‹_› <;> simp [hs] at h; exact h.1.symm
  · cases hs : TrackList.First m this <;> simp [hs] at h; exact h.1.symm
  · cases hs : TrackList.Last m this <;> simp [hs] at h; exact h.1.symm
  · cases hs : TrackList.type m this <;> simp [hs] at h; exact h.1.symm
  · cases hs : TrackList.tracks m this <;> simp [hs] at h; exact h.1.symm
  · cases hs : TrackList.GetParent m this <;> simp [hs] at h; exact h.1.symm

/-- C21: on a live source collection whose pointers lead to the track objects `ts`:
a call of `Save`, `TrackCount`, `IndexOfTrack`, `First`, `Last`, `type`, `tracks` or
`GetParent` that returns hands on the memory it received, so the track list, the type
and the signal log are as before; and `copy` returns with the members of the source
as before, every earlier signal in place and exactly one new signal, emitted by the
new collection `t`, which is not the source: the source has emitted nothing, the
destination exactly once more than the pointer `t` had before. -/
theorem TrackList.observers_do_not_mutate (trackSave : Track → List XmlToken) (m : Memory)
    (this : Nat) (l : TrackList) (ts : List Track) (parent : Nat)
    (h : m.list? this = some l) (hts : l.tracks_.map m.track? = ts.map some) :
    (∀ (o : Observer) (m2 : Memory) (v : Observed),
      TrackList.observe trackSave m this o = some (m2, v) →
        m2 = m ∧ m2.list? this = some l ∧ m2.signals = m.signals ∧
        m2.emitted this = m.emitted this) ∧
    ∃ m2 t, TrackList.copy m this parent = some (m2, t) ∧
      m2.list? this = some l ∧
      TrackList.tracks m2 this = TrackList.tracks m this ∧
      TrackList.type m2 this = TrackList.type m this ∧
      t ≠ this ∧
      m2.signals = m.signals ++ [t] ∧
      m2.emitted this = m.emitted this ∧
      m2.emitted t = m.emitted t + 1 := by
  constructor
  · intro o m2 v ho
    have hm := TrackList.observe_memory ho
    subst hm
    exact ⟨rfl, h, rfl, rfl⟩
  · obtain ⟨hp, hlt, _⟩ := Memory.list?_eq_some h
    have hne : m.listObjs.length + 1 ≠ this := by omega
    have hsrc := Memory.list?_copying_source parent l.type_ ts
      ([m.trackObjs.length + 1].take l.tracks_.length ++
        List.replicate (l.tracks_.length - 1) nullptr) l.tracks_.length h
    refine ⟨_, _, TrackList.copy_eq parent h hts, hsrc, ?_, ?_, hne, rfl, ?_, ?_⟩
    · simp only [TrackList.tracks, hsrc, h]
    · simp only [TrackList.type, hsrc, h]
    · have hc : List.count this [m.listObjs.length + 1] = 0 :=
        List.count_eq_zero_of_not_mem (by
          intro hm
          rw [List.mem_singleton] at hm
          omega)
      simp only [Memory.emitted, Memory.copying, List.count_append, hc, Nat.add_zero]
    · simp [Memory.emitted, Memory.copying, List.count_append]

/-- Witness of `TrackList.observers_do_not_mutate`: a source of two audio tracks. -/
theorem TrackList.observers_do_not_mutate_witness :
    TrackList.observe (fun x => x.clips_.map XmlToken.other)
      ⟨[⟨1, .audio, [10]⟩, ⟨1, .audio, [20]⟩], [⟨7, .audio, [1, 2]⟩], [1, 1]⟩ 1
      (Observer.Save []) =
      some (⟨[⟨1, .audio, [10]⟩, ⟨1, .audio, [20]⟩], [⟨7, .audio, [1, 2]⟩], [1, 1]⟩,
        Observed.stream [XmlToken.writeStartElement "Tracks", XmlToken.other 10,
          XmlToken.other 20, XmlToken.writeEndElement]) ∧
    ∃ m2 t, TrackList.copy
        ⟨[⟨1, .audio, [10]⟩, ⟨1, .audio, [20]⟩], [⟨7, .audio, [1, 2]⟩], [1, 1]⟩ 1 9 =
        some (m2, t) ∧
      m2.list? 1 = some ⟨7, .audio, [1, 2]⟩ ∧ m2.signals = [1, 1] ++ [t] :=
  ⟨by decide,
   match (TrackList.observers_do_not_mutate (fun x => x.clips_.map XmlToken.other)
      ⟨[⟨1, .audio, [10]⟩, ⟨1, .audio, [20]⟩], [⟨7, .audio, [1, 2]⟩], [1, 1]⟩ 1
      ⟨7, .audio, [1, 2]⟩ [⟨1, .audio, [10]⟩, ⟨1, .audio, [20]⟩] 9 (by decide)
      (by decide)).2 with
   | ⟨m2, t, h1, h2, _, _, _, h6, _⟩ => ⟨m2, t, h1, h2, h6⟩⟩

/-! ## The search filter of the shortcut tree -/

theorem QTreeWidgetItems.eq_nil_of_count {cs : QTreeWidgetItems} (h : ¬ cs.count > 0) :
    cs = QTreeWidgetItems.nil := by
  cases cs with
  | nil => rfl
  | cons item rest => simp [QTreeWidgetItems.count] at h

mutual
/-- With the empty filter `refine_shortcut_list` returns `false` and leaves no item
hidden, at the item or below it. -/
theorem PreferencesDialog.refine_empty_item : ∀ item : QTreeWidgetItem,
    (PreferencesDialog.refine_shortcut_list [] item).1 = false ∧
    (PreferencesDialog.refine_shortcut_list [] item).2.noneHidden = true
  | QTreeWidgetItem.mk text shortcut hidden expanded children => by
    have h := PreferencesDialog.refine_empty_loop children
    simp only [PreferencesDialog.refine_shortcut_list, List.isEmpty_nil, Bool.not_true,
      QTreeWidgetItem.noneHidden, h.1, h.2, ite_self, Bool.not_false, Bool.and_self, and_self]
/-- With the empty filter the loop over the children, started from `false`, ends with
`false` and leaves no item hidden. -/
theorem PreferencesDialog.refine_empty_loop : ∀ cs : QTreeWidgetItems,
    (PreferencesDialog.refine_shortcut_list.loop [] false cs).1 = false ∧
    (PreferencesDialog.refine_shortcut_list.loop [] false cs).2.noneHidden = true
  | QTreeWidgetItems.nil => by
    simp [PreferencesDialog.refine_shortcut_list.loop, QTreeWidgetItems.noneHidden]
  | QTreeWidgetItems.cons item rest => by
    have hi := PreferencesDialog.refine_empty_item item
    have hr := PreferencesDialog.refine_empty_loop rest
    by_cases hc : item.childCount > 0
    · simp only [PreferencesDialog.refine_shortcut_list.loop, if_pos hc, hi.1, hr.1,
        QTreeWidgetItems.noneHidden, hi.2, hr.2, Bool.and_self, and_self]
    · have hleaf : (item.setHidden false).noneHidden = true := by
        cases item with
        | mk text shortcut hidden expanded children =>
          have hnil := QTreeWidgetItems.eq_nil_of_count hc
          subst hnil
          simp [QTreeWidgetItem.setHidden, QTreeWidgetItem.noneHidden,
            QTreeWidgetItems.noneHidden]
      simp only [PreferencesDialog.refine_shortcut_list.loop, if_neg hc, List.isEmpty_nil,
        if_true, hr.1, QTreeWidgetItems.noneHidden, hleaf, hr.2, Bool.and_self, and_self]
end

theorem QTreeWidgetItem.subtreeMatches_of_leaf (s : List Char) {item : QTreeWidgetItem}
    (h : ¬ item.childCount > 0) : item.subtreeMatches s = item.leafMatches s := by
  cases item with
  | mk text shortcut hidden expanded children =>
    simp only [QTreeWidgetItem.childCount] at h
    simp only [QTreeWidgetItem.subtreeMatches, if_neg h]

theorem QTreeWidgetItem.subtreeMatches_of_children (s : List Char) {item : QTreeWidgetItem}
    (h : item.childCount > 0) :
    item.subtreeMatches s =
      (QString.contains item.text s || item.children.anySubtreeMatches s) := by
  cases item with
  | mk text shortcut hidden expanded children =>
    simp only [QTreeWidgetItem.childCount] at h
    simp only [QTreeWidgetItem.subtreeMatches, if_pos h, QTreeWidgetItem.text,
      QTreeWidgetItem.children]

theorem PreferencesDialog.refine_fst (s : List Char) (item : QTreeWidgetItem) :
    (PreferencesDialog.refine_shortcut_list s item).1 =
      (if QString.contains item.text s then false
        else (PreferencesDialog.refine_shortcut_list.loop s (!s.isEmpty) item.children).1) ∧
    (PreferencesDialog.refine_shortcut_list s item).2.isHidden =
      (PreferencesDialog.refine_shortcut_list s item).1 ∧
    (PreferencesDialog.refine_shortcut_list s item).2.children =
      (PreferencesDialog.refine_shortcut_list.loop s (!s.isEmpty) item.children).2 := by
  cases item with
  | mk text shortcut hidden expanded children =>
    simp only [PreferencesDialog.refine_shortcut_list, QTreeWidgetItem.text,
      QTreeWidgetItem.children, QTreeWidgetItem.isHidden, and_self]

mutual
/-- With a filter that is not empty and is found neither in the text of the item nor
at any item below it, `refine_shortcut_list` returns `true`. -/
theorem PreferencesDialog.refine_noMatch_item (s : List Char) (hs : s ≠ []) :
    ∀ item : QTreeWidgetItem, QString.contains item.text s = false →
      item.children.anySubtreeMatches s = false →
      (PreferencesDialog.refine_shortcut_list s item).1 = true
  | QTreeWidgetItem.mk text shortcut hidden expanded children => by
    intro ht hc
    simp only [QTreeWidgetItem.text] at ht
    simp only [QTreeWidgetItem.children] at hc
    have hne : s.isEmpty = false := by
      cases s with
      | nil => exact absurd rfl hs
      | cons _ _ => rfl
    have h := PreferencesDialog.refine_noMatch_loop s hs children hc
    simp only [PreferencesDialog.refine_shortcut_list, ht, hne, Bool.not_false, h]
    rfl
/-- With a filter that is not empty and is found at none of the children or below,
the loop over the children, started from `true`, ends with `true`. -/
theorem PreferencesDialog.refine_noMatch_loop (s : List Char) (hs : s ≠ []) :
    ∀ cs : QTreeWidgetItems, cs.anySubtreeMatches s = false →
      (PreferencesDialog.refine_shortcut_list.loop s true cs).1 = true
  | QTreeWidgetItems.nil => by
    intro _
    simp [PreferencesDialog.refine_shortcut_list.loop]
  | QTreeWidgetItems.cons item rest => by
    intro h
    simp only [QTreeWidgetItems.anySubtreeMatches, Bool.or_eq_false_iff] at h
    have hne : s.isEmpty = false := by
      cases s with
      | nil => exact absurd rfl hs
      | cons _ _ => rfl
    have hr := PreferencesDialog.refine_noMatch_loop s hs rest h.2
    by_cases hc : item.childCount > 0
    · have hsub := h.1
      rw [QTreeWidgetItem.subtreeMatches_of_children s hc, Bool.or_eq_false_iff] at hsub
      have hi := PreferencesDialog.refine_noMatch_item s hs item hsub.1 hsub.2
      simp only [PreferencesDialog.refine_shortcut_list.loop, if_pos hc, hi, hr]
    · have hleaf := h.1
      rw [QTreeWidgetItem.subtreeMatches_of_leaf s hc] at hleaf
      simp only [PreferencesDialog.refine_shortcut_list.loop, if_neg hc, hne, hleaf, hr]
      rfl
end

/-- With a filter that is not empty, the loop over children that are all without
children ends with its starting value unless a child matches, and then with `false`;
each child is hidden exactly when it does not match. -/
theorem PreferencesDialog.refine_loop_leaves (s : List Char) (hs : s ≠ []) :
    ∀ (cs : QTreeWidgetItems) (acc : Bool), cs.allLeaves = true →
      (PreferencesDialog.refine_shortcut_list.loop s acc cs).1 =
        (acc && !cs.anySubtreeMatches s) ∧
      (PreferencesDialog.refine_shortcut_list.loop s acc cs).2.hiddenFlags =
        (cs.matchFlags s).map not
  | QTreeWidgetItems.nil, acc => by
    intro _
    simp [PreferencesDialog.refine_shortcut_list.loop, QTreeWidgetItems.anySubtreeMatches,
      QTreeWidgetItems.hiddenFlags, QTreeWidgetItems.matchFlags]
  | QTreeWidgetItems.cons item rest, acc => by
    intro h
    simp only [QTreeWidgetItems.allLeaves, Bool.and_eq_true, decide_eq_true_eq] at h
    have hc : ¬ item.childCount > 0 := by omega
    have hne : s.isEmpty = false := by
      cases s with
      | nil => exact absurd rfl hs
      | cons _ _ => rfl
    have hsub := QTreeWidgetItem.subtreeMatches_of_leaf s hc
    have hflag : ∀ b, (item.setHidden b).isHidden = b := by
      intro b
      cases item with
      | mk text shortcut hidden expanded children =>
        simp [QTreeWidgetItem.setHidden, QTreeWidgetItem.isHidden]
    cases hm : item.leafMatches s with
    | true =>
      have hr := PreferencesDialog.refine_loop_leaves s hs rest false h.2
      simp only [PreferencesDialog.refine_shortcut_list.loop, if_neg hc, hne, hm, hr.1,
        QTreeWidgetItems.anySubtreeMatches, hsub, QTreeWidgetItems.hiddenFlags, hflag, hr.2,
        QTreeWidgetItems.matchFlags]
      simp
    | false =>
      have hr := PreferencesDialog.refine_loop_leaves s hs rest acc h.2
      simp only [PreferencesDialog.refine_shortcut_list.loop, if_neg hc, hne, hm, hr.1,
        QTreeWidgetItems.anySubtreeMatches, hsub, QTreeWidgetItems.hiddenFlags, hflag, hr.2,
        QTreeWidgetItems.matchFlags]
      simp

/-- C23, as amended: after `refine_shortcut_list(s, item)` with a filter `s` that is
not empty, the item is hidden exactly when the call returns `true`; the call returns
`false` when the text of the item contains `s`; it returns `true` when `s` is found
neither in the text of the item nor at any item below it (in the text of an item
with children, in the text or the key sequence of an item without); and when no
child of the item has children, it returns `true` exactly when `s` is found neither
in the text of the item nor at a child, and each child is hidden exactly when it does
not match.  With the empty filter the call returns `false` and no item, at the item
or below it, is hidden. -/
theorem PreferencesDialog.refine_shortcut_list_spec (s : List Char) (item : QTreeWidgetItem) :
    (s ≠ [] →
      (PreferencesDialog.refine_shortcut_list s item).2.isHidden =
        (PreferencesDialog.refine_shortcut_list s item).1 ∧
      (QString.contains item.text s = true →
        (PreferencesDialog.refine_shortcut_list s item).1 = false) ∧
      (QString.contains item.text s = false → item.children.anySubtreeMatches s = false →
        (PreferencesDialog.refine_shortcut_list s item).1 = true) ∧
      (item.children.allLeaves = true →
        ((PreferencesDialog.refine_shortcut_list s item).1 = true ↔
          QString.contains item.text s = false ∧
            item.children.anySubtreeMatches s = false) ∧
        (PreferencesDialog.refine_shortcut_list s item).2.children.hiddenFlags =
          (item.children.matchFlags s).map not)) ∧
    ((PreferencesDialog.refine_shortcut_list [] item).1 = false ∧
      (PreferencesDialog.refine_shortcut_list [] item).2.noneHidden = true) := by
  refine ⟨fun hs => ?_, PreferencesDialog.refine_empty_item item⟩
  obtain ⟨hfst, hhid, hch⟩ := PreferencesDialog.refine_fst s item
  have hne : s.isEmpty = false := by
    cases s with
    | nil => exact absurd rfl hs
    | cons _ _ => rfl
  refine ⟨hhid, ?_, PreferencesDialog.refine_noMatch_item s hs item, ?_⟩
  · intro ht
    rw [hfst, if_pos ht]
  · intro hleaves
    have hl := PreferencesDialog.refine_loop_leaves s hs item.children true hleaves
    rw [hne] at hfst hch
    simp only [Bool.not_false] at hfst hch
    refine ⟨?_, by rw [hch]; exact hl.2⟩
    rw [hfst, hl.1]
    cases QString.contains item.text s <;> cases item.children.anySubtreeMatches s <;> simp

/-- Witness of `PreferencesDialog.refine_shortcut_list_spec`: the menu "Edit" with the
actions "Cut" and "Copy", filtered by "co". -/
theorem PreferencesDialog.refine_shortcut_list_spec_witness :
    (PreferencesDialog.refine_shortcut_list "co".toList
      (QTreeWidgetItem.mk "Edit".toList none false false
        (QTreeWidgetItems.cons (QTreeWidgetItem.mk "Cut".toList (some "Ctrl+X".toList)
            false false QTreeWidgetItems.nil)
          (QTreeWidgetItems.cons (QTreeWidgetItem.mk "Copy".toList (some "Ctrl+C".toList)
            false false QTreeWidgetItems.nil) QTreeWidgetItems.nil)))).1 = false ∧
    (PreferencesDialog.refine_shortcut_list "co".toList
      (QTreeWidgetItem.mk "Edit".toList none false false
        (QTreeWidgetItems.cons (QTreeWidgetItem.mk "Cut".toList (some "Ctrl+X".toList)
            false false QTreeWidgetItems.nil)
          (QTreeWidgetItems.cons (QTreeWidgetItem.mk "Copy".toList (some "Ctrl+C".toList)
            false false QTreeWidgetItems.nil)
            QTreeWidgetItems.nil)))).2.children.hiddenFlags = [true, false] ∧
    (PreferencesDialog.refine_shortcut_list "co".toList
      (QTreeWidgetItem.mk "Edit".toList none false false
        (QTreeWidgetItems.cons (QTreeWidgetItem.mk "Cut".toList (some "Ctrl+X".toList)
            false false QTreeWidgetItems.nil)
          (QTreeWidgetItems.cons (QTreeWidgetItem.mk "Copy".toList (some "Ctrl+C".toList)
            false false QTreeWidgetItems.nil) QTreeWidgetItems.nil)))).2.isHidden =
      (PreferencesDialog.refine_shortcut_list "co".toList
        (QTreeWidgetItem.mk "Edit".toList none false false
          (QTreeWidgetItems.cons (QTreeWidgetItem.mk "Cut".toList (some "Ctrl+X".toList)
              false false QTreeWidgetItems.nil)
            (QTreeWidgetItems.cons (QTreeWidgetItem.mk "Copy".toList (some "Ctrl+C".toList)
              false false QTreeWidgetItems.nil) QTreeWidgetItems.nil)))).1 :=
  ⟨by decide, by decide,
   ((PreferencesDialog.refine_shortcut_list_spec "co".toList
      (QTreeWidgetItem.mk "Edit".toList none false false
        (QTreeWidgetItems.cons (QTreeWidgetItem.mk "Cut".toList (some "Ctrl+X".toList)
            false false QTreeWidgetItems.nil)
          (QTreeWidgetItems.cons (QTreeWidgetItem.mk "Copy".toList (some "Ctrl+C".toList)
            false false QTreeWidgetItems.nil) QTreeWidgetItems.nil)))).1 (by decide)).1⟩

/-- C23 as stated fails, in two ways.  Filter "recent" on the menu "File" whose only
child is the submenu "Open Recent" with the action "Clear": no item without
children matches and the text "File" does not contain the filter, yet the call
returns `false` and "File" is shown, because the submenu is.  Filter "new" on the
menu "File" with the action "New Project" followed by the submenu "Open Recent": the
action matches and is shown, yet the call returns `true` and "File" is hidden,
because the value returned for the submenu replaced what the action had set. -/
theorem PreferencesDialog.refine_shortcut_list_spec_counterexample :
    (QTreeWidgetItem.mk "Clear".toList (some []) false false
      QTreeWidgetItems.nil).leafMatches "recent".toList = false ∧
    QString.contains "File".toList "recent".toList = false ∧
    (PreferencesDialog.refine_shortcut_list "recent".toList
      (QTreeWidgetItem.mk "File".toList none false false
        (QTreeWidgetItems.cons
          (QTreeWidgetItem.mk "Open Recent".toList none false false
            (QTreeWidgetItems.cons (QTreeWidgetItem.mk "Clear".toList (some []) false false
              QTreeWidgetItems.nil) QTreeWidgetItems.nil))
          QTreeWidgetItems.nil))).1 = false ∧
    (QTreeWidgetItem.mk "New Project".toList (some "Ctrl+N".toList) false false
      QTreeWidgetItems.nil).leafMatches "new".toList = true ∧
    (PreferencesDialog.refine_shortcut_list "new".toList
      (QTreeWidgetItem.mk "File".toList none false false
        (QTreeWidgetItems.cons
          (QTreeWidgetItem.mk "New Project".toList (some "Ctrl+N".toList) false false
            QTreeWidgetItems.nil)
          (QTreeWidgetItems.cons
            (QTreeWidgetItem.mk "Open Recent".toList none false false
              (QTreeWidgetItems.cons (QTreeWidgetItem.mk "Clear".toList (some []) false false
                QTreeWidgetItems.nil) QTreeWidgetItems.nil))
            QTreeWidgetItems.nil)))).1 = true ∧
    (PreferencesDialog.refine_shortcut_list "new".toList
      (QTreeWidgetItem.mk "File".toList none false false
        (QTreeWidgetItems.cons
          (QTreeWidgetItem.mk "New Project".toList (some "Ctrl+N".toList) false false
            QTreeWidgetItems.nil)
          (QTreeWidgetItems.cons
            (QTreeWidgetItem.mk "Open Recent".toList none false false
              (QTreeWidgetItems.cons (QTreeWidgetItem.mk "Clear".toList (some []) false false
                QTreeWidgetItems.nil) QTreeWidgetItems.nil))
            QTreeWidgetItems.nil)))).2.isHidden = true ∧
    (PreferencesDialog.refine_shortcut_list "new".toList
      (QTreeWidgetItem.mk "File".toList none false false
        (QTreeWidgetItems.cons
          (QTreeWidgetItem.mk "New Project".toList (some "Ctrl+N".toList) false false
            QTreeWidgetItems.nil)
          (QTreeWidgetItems.cons
            (QTreeWidgetItem.mk "Open Recent".toList none false false
              (QTreeWidgetItems.cons (QTreeWidgetItem.mk "Clear".toList (some []) false false
                QTreeWidgetItems.nil) QTreeWidgetItems.nil))
            QTreeWidgetItems.nil)))).2.children.hiddenFlags = [false, true] := by
  refine ⟨by decide, by decide, by decide, by decide, by decide, by decide, by decide⟩

/-! ## Export and import of keyboard shortcuts -/

/-- C22 at the fields "rippledelete" (default "Shift+Del", set to "Alt+R") and
"delete" (default "Del", set to "Backspace"): the ids are not empty, differ, and
neither ids nor key sequences hold a tab or a newline.  The export writes one line
for each field.  On import the first occurrence of "delete" in the bytes is at
index 6, inside "rippledelete", after the byte `e` and not after a newline, so the
field "delete" is reset to its default "Del" and does not get "Backspace" back. -/
theorem PreferencesDialog.shortcut_roundtrip_loses_field :
    PreferencesDialog.save_shortcut_file
      [⟨"rippledelete".toList, "Shift+Del".toList, "Alt+R".toList⟩,
       ⟨"delete".toList, "Del".toList, "Backspace".toList⟩] =
      "rippledelete\tAlt+R\ndelete\tBackspace".toList ∧
    QByteArray.indexOf "rippledelete\tAlt+R\ndelete\tBackspace".toList "delete".toList = 6 ∧
    QString.at "rippledelete\tAlt+R\ndelete\tBackspace".toList 5 = some 'e' ∧
    PreferencesDialog.load_shortcut_file "rippledelete\tAlt+R\ndelete\tBackspace".toList
      [⟨"rippledelete".toList, "Shift+Del".toList, "Alt+R".toList⟩,
       ⟨"delete".toList, "Del".toList, "Backspace".toList⟩] =
      some [⟨"rippledelete".toList, "Shift+Del".toList, "Alt+R".toList⟩,
            ⟨"delete".toList, "Del".toList, "Del".toList⟩] := by
  refine ⟨by decide, by decide, by decide, by decide⟩

/-! ## The index read in `delete_previews` -/

/-- C24 at the file names "12" and "7": every character from position
`max(0, size - 2)` down to position 0 is a digit, so the loop runs until its own
guard `identifier_char_index >= 0` fails and stops at index `-1`; the read
`preview_file_str.at(-1)` that follows is outside the string.  For the name
"abct12" the loop stops at index 3, on the `t`. -/
theorem PreferencesDialog.delete_previews_reads_before_start :
    PreferencesDialog.delete_previews.identifier_char_index "12".toList = some (-1) ∧
    QString.at "12".toList (-1) = none ∧
    PreferencesDialog.delete_previews.removes 't' "12".toList = none ∧
    PreferencesDialog.delete_previews.identifier_char_index "7".toList = some (-1) ∧
    PreferencesDialog.delete_previews.removes 'w' "7".toList = none ∧
    PreferencesDialog.delete_previews.identifier_char_index "abct12".toList = some 3 ∧
    PreferencesDialog.delete_previews.removes 't' "abct12".toList = some true := by
  refine ⟨by decide, by decide, by decide, by decide, by decide, by decide, by decide⟩
